import Mathlib

/-!
# Particle-filter tracker of `opencv_cpp/04/04-08.cpp`

A shallow embedding of the tracking loop of `main` and of the class `Particle`.

Conventions of the embedding:
* a C++ `double` is an exact rational (`ℚ`); a value that is not a finite number (a division
  by zero) is reported as `none`;
* the arithmetic of the first part is exact; where the rounding of a `double` operation decides
  an integer (the particle count of line 116), the part "Double-precision arithmetic" repeats
  lines 60-125 with every operation rounded to the nearest `double` (`fl`);
* an `unsigned char` pixel value is a `Fin 256`;
* `std::vector<Particle>` is a `List Particle`;
* the random generator `cv::RNG` is a stream of draws indexed by the number of draws made so far;
* `cos` and `sin` of `<cmath>` are parameters of the embedding.
-/

namespace ParticleFilter

/-! ## Data model -/

/-- The type `cv::Point2d`: a point with two `double` coordinates. -/
structure Point2d where
  x : ℚ
  y : ℚ
deriving DecidableEq

/-- Coordinate-wise sum, the `+=` and `+` of `cv::Point2d`. -/
def Point2d.add (a b : Point2d) : Point2d := ⟨a.x + b.x, a.y + b.y⟩

/-- Coordinate-wise difference, the `-` of `cv::Point2d`. -/
def Point2d.sub (a b : Point2d) : Point2d := ⟨a.x - b.x, a.y - b.y⟩

/-- Scaling by a `double`, the `*=` of `cv::Point2d`. -/
def Point2d.scale (a : Point2d) (c : ℚ) : Point2d := ⟨a.x * c, a.y * c⟩

/-- The class `Particle` (lines 12-25): position, velocity, likelihood, weight, survival flag. -/
structure Particle where
  pos : Point2d
  vel : Point2d
  like : ℚ
  wgt : ℚ
  keep : Bool
deriving DecidableEq

/-- The number of particles `num` (line 45). -/
def num : Nat := 1000

/-- The image of one tick: `img_src.cols`, `img_src.rows` and the two channels `vec_hsv[0]`
(hue) and `vec_hsv[1]` (saturation), each addressed by the integer pixel `(x, y)`. -/
structure Frame where
  cols : Int
  rows : Int
  hue : Int → Int → Fin 256
  sat : Int → Int → Fin 256

/-- A pixel `(x, y)` lies inside the image. -/
def Frame.validPixel (f : Frame) (px : Int × Int) : Prop :=
  0 ≤ px.1 ∧ px.1 < f.cols ∧ 0 ≤ px.2 ∧ px.2 < f.rows

instance (f : Frame) (px : Int × Int) : Decidable (f.validPixel px) := by
  unfold Frame.validPixel; infer_instance

/-! ## Prediction (lines 60-63) -/

/-- One pass of the loop body `P.at(i).pos += P.at(i).vel`. -/
def predictOne (p : Particle) : Particle := { p with pos := p.pos.add p.vel }

/-- The prediction loop over the whole population. -/
def predict (P : List Particle) : List Particle := P.map predictOne

/-! ## Likelihood update (lines 69-83) -/

/-- The conversion `double → int` used when a `cv::Point2d` is passed where a `cv::Point` is
expected (`saturate_cast<int>`, that is `cvRound`): round to nearest, ties to even. -/
def cvRound (v : ℚ) : Int :=
  let fl : Int := ⌊v⌋
  let d : ℚ := v - fl
  if d < 1 / 2 then fl
  else if 1 / 2 < d then fl + 1
  else if fl % 2 = 0 then fl else fl + 1

/-- The pixel addressed by `at<unsigned char>(pos)` for a `cv::Point2d` position. -/
def pixelOf (pos : Point2d) : Int × Int := (cvRound pos.x, cvRound pos.y)

/-- The bounds test of lines 71-72: `0 < x && x < cols && 0 < y && y < rows`. -/
def inFrame (f : Frame) (pos : Point2d) : Bool :=
  decide (0 < pos.x ∧ pos.x < (f.cols : ℚ) ∧ 0 < pos.y ∧ pos.y < (f.rows : ℚ))

/-- Lines 75-78: from the hue `h` and the saturation `s` read at the pixel,
`len_h = abs(70 - h)`, `len_s = abs(200 - s)`,
`like = (len_h / 180) * 0.8 + (len_s / 255) * 0.2`, and the likelihood is `1 - like`. -/
def likeOf (h s : Fin 256) : ℚ :=
  let len_h : ℚ := (((70 : Int) - (h.val : Int)).natAbs : ℚ)
  let len_s : ℚ := (((200 : Int) - (s.val : Int)).natAbs : ℚ)
  let like : ℚ := (len_h / 180) * (4 / 5) + (len_s / 255) * (1 / 5)
  1 - like

/-- One pass of the likelihood loop: the updated particle together with the list of pixels
read from the image during the pass. -/
def scoreRead (f : Frame) (p : Particle) : Particle × List (Int × Int) :=
  if inFrame f p.pos then
    let px := pixelOf p.pos
    ({ p with like := likeOf (f.hue px.1 px.2) (f.sat px.1 px.2) }, [px])
  else
    ({ p with like := 0 }, [])

/-- The particle after one pass of the likelihood loop. -/
def scoreOne (f : Frame) (p : Particle) : Particle := (scoreRead f p).1

/-- The likelihood loop over the whole population. -/
def score (f : Frame) (P : List Particle) : List Particle := P.map (scoreOne f)

/-! ## Ranking (line 86) -/

/-- The call `sort(P.begin(), P.end())` with `Particle::operator<` (lines 22-24): the population
in ascending order of likelihood.  `std::sort` does not fix the order of particles of equal
likelihood; the embedding orders them by insertion. -/
def sort (P : List Particle) : List Particle :=
  P.insertionSort (fun a b => a.like ≤ b.like)

/-! ## Survival and pruning (lines 88-99) -/

/-- The threshold `thresh_like` (line 89). -/
def thresh_like : ℚ := 9 / 10

/-- The value `thresh_keep = P.size() / 100` (line 90) for a population of `n` particles. -/
def thresh_keep (n : Nat) : Nat := n / 100

/-- The test of line 92 for the particle `p` at index `i` of a population of `n` particles:
`P.at(i).like > thresh_like || i > (P.size() - thresh_keep)`.  The subtraction is unsigned and
does not wrap, since `thresh_keep ≤ P.size()`. -/
def keepTest (n i : Nat) (p : Particle) : Bool :=
  decide (p.like > thresh_like ∨ i > n - thresh_keep n)

/-- The loop of lines 91-94 from index `i` on: every particle gets its `keep` flag. -/
def markFrom (n : Nat) : Nat → List Particle → List Particle
  | _, [] => []
  | i, p :: ps => { p with keep := keepTest n i p } :: markFrom n (i + 1) ps

/-- The loop of lines 91-94 over the whole population. -/
def mark (P : List Particle) : List Particle := markFrom P.length 0 P

/-- The loop of lines 95-99: the particles whose flag is unset are erased. -/
def eraseLoop : List Particle → List Particle
  | [] => []
  | p :: ps => if p.keep then p :: eraseLoop ps else eraseLoop ps

/-- Lines 88-99 as a whole, on a population already sorted. -/
def prune (P : List Particle) : List Particle := eraseLoop (mark P)

/-! ## Reweighting (lines 101-111) -/

/-- The accumulation of lines 103-106. -/
def l_sum (P : List Particle) : ℚ := P.foldl (fun acc p => acc + p.like) 0

/-- A division of `double`s: a division by zero does not give a finite number. -/
def divD (a b : ℚ) : Option ℚ := if b = 0 then none else some (a / b)

/-- The loop of lines 109-111 with the sum `s` already computed. -/
def reweightLoop (s : ℚ) : List Particle → Option (List Particle)
  | [] => some []
  | p :: ps =>
    match divD p.like s, reweightLoop s ps with
    | some w, some r => some ({ p with wgt := w } :: r)
    | _, _ => none

/-- Lines 101-111 as a whole. -/
def reweight (P : List Particle) : Option (List Particle) := reweightLoop (l_sum P) P

/-! ## Resampling (lines 113-125) -/

/-- One pair of values taken from the generator for one new particle: `z` is the standard normal
sample behind `rng.gaussian(sigma)`, which returns `z * sigma`, and `ang` is the value of
`rng.uniform(-M_PI, M_PI)`. -/
structure Draw where
  z : ℚ
  ang : ℚ

/-- What the loop takes from outside: the functions `cos` and `sin` and the stream of draws. -/
structure Env where
  cos : ℚ → ℚ
  sin : ℚ → ℚ
  draw : Nat → Draw

/-- The conversion `double → int` of an initialisation `int n = v`: truncation toward zero,
defined only when the truncated value fits in 32 bits. -/
def toInt (v : ℚ) : Option Int :=
  let t : Int := if 0 ≤ v then ⌊v⌋ else ⌈v⌉
  if -2 ^ 31 ≤ t ∧ t < 2 ^ 31 then some t else none

/-- The unsigned difference `num - P.size()` of line 116 for `k = P.size()`, computed in 64 bits. -/
def room (k : Nat) : Int := ((num : Int) - (k : Int)) % 2 ^ 64

/-- The value `num_new` of line 116 for a survivor of weight `wgt` among `k` survivors, with the
product taken exactly; `num_newD` is the same value with the product rounded to a `double`. -/
def num_new (wgt : ℚ) (k : Nat) : Option Int := toInt (wgt * (room k : ℚ))

/-- Lines 118-121: the new particle made from the survivor `p` with the draw `d`. -/
def child (E : Env) (f : Frame) (d : Draw) (p : Particle) : Particle :=
  let r : ℚ := (d.z * ((f.rows + f.cols : Int) : ℚ)) * (1 - p.like)
  let ang : ℚ := d.ang
  let pt : Point2d := ⟨r * E.cos ang + p.pos.x, r * E.sin ang + p.pos.y⟩
  ⟨pt, pt.sub p.pos, p.like, p.wgt, false⟩

/-- The inner loop of lines 117-123: `n` new particles from `p`, the first with draw number `t`. -/
def spawn (E : Env) (f : Frame) (p : Particle) (t : Nat) : Nat → List Particle
  | 0 => []
  | n + 1 => child E f (E.draw t) p :: spawn E f p (t + 1) n

/-- The outer loop of lines 115-124 over the survivors still to visit, `k` being `P.size()` and
`t` the number of draws made so far: the content of `Pnew` and the new number of draws. -/
def resampleLoop (E : Env) (f : Frame) (k : Nat) : List Particle → Nat → Option (List Particle × Nat)
  | [], t => some ([], t)
  | p :: ps, t =>
    match num_new p.wgt k with
    | none => none
    | some n =>
      match resampleLoop E f k ps (t + n.toNat) with
      | none => none
      | some (rest, t1) => some (spawn E f p t n.toNat ++ rest, t1)

/-- Lines 113-125: `Pnew` is appended to the survivors. -/
def resample (E : Env) (f : Frame) (P : List Particle) (t : Nat) : Option (List Particle × Nat) :=
  match resampleLoop E f P.length P t with
  | none => none
  | some (Pnew, t1) => some (P ++ Pnew, t1)

/-! ## Centroid (lines 140-144) -/

/-- The accumulation of lines 141-143, started from the current value of `center`. -/
def accumulate (center : Point2d) (P : List Particle) : Point2d :=
  P.foldl (fun c p => c.add p.pos) center

/-- Lines 140-144: `center += pos` for every particle, then `center *= 1.0 / P.size()`.
The variable `center` is declared before the tracking loop (line 58) and keeps its value from
one tick to the next. -/
def estimate (center : Point2d) (P : List Particle) : Option Point2d :=
  match divD 1 (P.length : ℚ) with
  | none => none
  | some c => some ((accumulate center P).scale c)

/-! ## One pass of the tracking loop (lines 59-150) -/

/-- The variables that live across passes: the population `P`, the point `center` (`none` once
it is no longer a finite point) and the number of draws taken from the generator. -/
structure State where
  P : List Particle
  center : Option Point2d
  drawn : Nat

/-- The value of `center` at line 58. -/
def center0 (f : Frame) : Point2d := ⟨((Int.tdiv f.cols 2 : Int) : ℚ), ((Int.tdiv f.rows 2 : Int) : ℚ)⟩

/-- Lines 60-99 of one pass: the population `P` is moved, scored, sorted and pruned. -/
def survivors (f : Frame) (P : List Particle) : List Particle :=
  prune (sort (score f (predict P)))

/-- One pass of the `while` loop on the frame `f`; `none` when a weight is not a finite number
or a particle count does not fit in an `int`. -/
def tick (E : Env) (f : Frame) (st : State) : Option State :=
  match reweight (survivors f st.P) with
  | none => none
  | some W =>
    match resample E f W st.drawn with
    | none => none
    | some (Pfin, t) => some ⟨Pfin, st.center.bind (fun c => estimate c Pfin), t⟩

/-! ## The spec's wording of two steps, for comparison with the code -/

/-- The unweighted arithmetic mean of the positions of a population: the sum of all particle
positions divided by the number of particles (spec 4.6). -/
def meanPos (P : List Particle) : Point2d :=
  ⟨(P.map (fun p => p.pos.x)).sum / (P.length : ℚ), (P.map (fun p => p.pos.y)).sum / (P.length : ℚ)⟩

/-- The survival rule in the spec's words (spec 4.3, step 2) for the particle at index `i` of a
sorted population of `n` particles: likelihood above 0.9, or one of the last
`ceil(n * keep_fraction)` particles with `keep_fraction = 1/100`. -/
def specSurvives (n i : Nat) (p : Particle) : Prop :=
  p.like > 9 / 10 ∨ n - ⌈(n : ℚ) * (1 / 100)⌉₊ ≤ i

/-! ## Concrete inputs used to evaluate the embedding -/

/-- A frame of `w` by `h` pixels whose every pixel has hue 70 and saturation 200. -/
def flatFrame (w h : Int) : Frame := ⟨w, h, fun _ _ => 70, fun _ _ => 200⟩

/-- A particle at `(x, y)` with velocity zero, likelihood `l`, weight 0 and flag unset. -/
def still (x y l : ℚ) : Particle := ⟨⟨x, y⟩, ⟨0, 0⟩, l, 0, false⟩

/-- An environment whose `cos` is constantly 1, whose `sin` is constantly 0 and whose every draw
is `z = 1/10`, `ang = 0`. -/
def unitEnv : Env := ⟨fun _ => 1, fun _ => 0, fun _ => ⟨1 / 10, 0⟩⟩

/-! ## The same loops with their constants as parameters

The spec's scenarios use other values of the target size and of the keep fraction than the
program's `num = 1000` and `1/100`.  The definitions below are the loops above with the constant
replaced by a parameter; for the program's values they are the loops above. -/

/-- The test of line 92 with the threshold `T` in place of `thresh_like` and the divisor `d` in
place of 100 (keep fraction `1/d`). -/
def keepTestWith (T : ℚ) (d : Nat) (n i : Nat) (p : Particle) : Bool :=
  decide (p.like > T ∨ i > n - n / d)

/-- The loop of lines 91-94 with the parameters `T` and `d`. -/
def markFromWith (T : ℚ) (d : Nat) (n : Nat) : Nat → List Particle → List Particle
  | _, [] => []
  | i, p :: ps => { p with keep := keepTestWith T d n i p } :: markFromWith T d n (i + 1) ps

/-- Lines 88-99 with the parameters `T` and `d`. -/
def pruneWith (T : ℚ) (d : Nat) (P : List Particle) : List Particle :=
  eraseLoop (markFromWith T d P.length 0 P)

/-- The value `num_new` of line 116 with the target size `N` in place of `num`. -/
def num_newWith (N : Nat) (wgt : ℚ) (k : Nat) : Option Int :=
  toInt (wgt * (((((N : Int) - (k : Int)) % 2 ^ 64 : Int)) : ℚ))

/-- The outer loop of lines 115-124 with the target size `N` in place of `num`. -/
def resampleLoopWith (N : Nat) (E : Env) (f : Frame) (k : Nat) :
    List Particle → Nat → Option (List Particle × Nat)
  | [], t => some ([], t)
  | p :: ps, t =>
    match num_newWith N p.wgt k with
    | none => none
    | some n =>
      match resampleLoopWith N E f k ps (t + n.toNat) with
      | none => none
      | some (rest, t1) => some (spawn E f p t n.toNat ++ rest, t1)

/-- Lines 113-125 with the target size `N` in place of `num`. -/
def resampleWith (N : Nat) (E : Env) (f : Frame) (P : List Particle) (t : Nat) :
    Option (List Particle × Nat) :=
  match resampleLoopWith N E f P.length P t with
  | none => none
  | some (Pnew, t1) => some (P ++ Pnew, t1)

/-- A frame of `w` by `h` pixels whose every pixel has hue 160 and saturation 200. -/
def dullFrame (w h : Int) : Frame := ⟨w, h, fun _ _ => 160, fun _ _ => 200⟩

/-! ## Initialisation (lines 45-56) -/

/-- The call `rng.uniform(a, b)` for `int` bounds, `a == b ? a : (int)(next() % (b - a) + a)`
in OpenCV, where `r` is the 32-bit unsigned value returned by `next()`: the arithmetic is
unsigned, modulo `2 ^ 32`, and the result is converted back to `int`. -/
def rngUniform (r : Nat) (a b : Int) : Int :=
  if a = b then a
  else
    let d : Int := (b - a) % 2 ^ 32
    let v : Int := ((r : Int) % 2 ^ 32) % d
    let s : Int := (v + a) % 2 ^ 32
    if s < 2 ^ 31 then s else s - 2 ^ 32

/-- Lines 53-54: the particle made from the two values `rx` and `ry` of `next()` behind the two
calls of `rng.uniform`. -/
def initParticle (f : Frame) (rx ry : Nat) : Particle :=
  ⟨⟨((rngUniform rx 0 f.cols : Int) : ℚ), ((rngUniform ry 0 f.rows : Int) : ℚ)⟩,
    ⟨0, 0⟩, 1, 0, false⟩

/-- The loop of lines 52-56 from the pass `i` on, `n` passes; `raw i` holds the two values of
`next()` used in pass `i` for the `x` and for the `y` coordinate (the order of the two calls
within line 53 is not fixed by the language). -/
def initLoop (f : Frame) (raw : Nat → Nat × Nat) : Nat → Nat → List Particle
  | _, 0 => []
  | i, n + 1 => initParticle f (raw i).1 (raw i).2 :: initLoop f raw (i + 1) n

/-- Lines 51-56: the initial population. -/
def initPopulation (f : Frame) (raw : Nat → Nat × Nat) : List Particle := initLoop f raw 0 num

/-! ## Several passes of the tracking loop -/

/-- The passes of the `while` loop on the successive frames `fs`. -/
def ticks (E : Env) : List Frame → State → Option State
  | [], st => some st
  | f :: fs, st =>
    match tick E f st with
    | none => none
    | some st1 => ticks E fs st1

/-- The squared Euclidean distance of two points. -/
def sqDist (a b : Point2d) : ℚ := (a.x - b.x) ^ 2 + (a.y - b.y) ^ 2

/-! ## Double-precision arithmetic

Line 116 converts a `double` product to `int`, so that the rounding of the weight (line 110) and
of the product decides the number of new particles.  The definitions of this part follow
lines 60-125 with every arithmetic operation on `double`s rounded. -/

/-- The rounding of a real value to the nearest `double` (53 significant bits, ties to even).
The exponent range is not bounded: overflow and subnormal numbers, which the values of this
program do not reach, are not modelled. -/
def fl (q : ℚ) : ℚ :=
  if q = 0 then 0
  else
    let e : Int := Int.log 2 |q|
    let ulp : ℚ := (2 : ℚ) ^ (e - 52)
    (cvRound (q / ulp) : ℚ) * ulp

/-- Line 62 in doubles: `pos += vel`, each coordinate rounded. -/
def predictOneD (p : Particle) : Particle :=
  { p with pos := ⟨fl (p.pos.x + p.vel.x), fl (p.pos.y + p.vel.y)⟩ }

/-- Lines 75-78 in doubles: the divisions, the products by the doubles 0.8 and 0.2, the sum and
the difference `1 - like` are each rounded. -/
def likeD (h s : Fin 256) : ℚ :=
  let len_h : ℚ := (((70 : Int) - (h.val : Int)).natAbs : ℚ)
  let len_s : ℚ := (((200 : Int) - (s.val : Int)).natAbs : ℚ)
  let like : ℚ := fl (fl (fl (len_h / 180) * fl (4 / 5)) + fl (fl (len_s / 255) * fl (1 / 5)))
  fl (1 - like)

/-- One pass of the likelihood loop (lines 70-83) in doubles. -/
def scoreOneD (f : Frame) (p : Particle) : Particle :=
  if inFrame f p.pos then
    let px := pixelOf p.pos
    { p with like := likeD (f.hue px.1 px.2) (f.sat px.1 px.2) }
  else
    { p with like := 0 }

/-- Lines 60-99 in doubles: prediction, likelihood update, ranking and pruning, the threshold
being the double 0.9. -/
def survivorsD (f : Frame) (P : List Particle) : List Particle :=
  pruneWith (fl (9 / 10)) 100 (sort ((P.map predictOneD).map (scoreOneD f)))

/-- The accumulation of lines 103-106 in doubles: every partial sum is rounded. -/
def l_sumD (P : List Particle) : ℚ := P.foldl (fun acc p => fl (acc + p.like)) 0

/-- A division of doubles, rounded; a division by zero does not give a finite number. -/
def divDD (a b : ℚ) : Option ℚ := if b = 0 then none else some (fl (a / b))

/-- The loop of lines 109-111 in doubles with the sum `s` already computed. -/
def reweightLoopD (s : ℚ) : List Particle → Option (List Particle)
  | [] => some []
  | p :: ps =>
    match divDD p.like s, reweightLoopD s ps with
    | some w, some r => some ({ p with wgt := w } :: r)
    | _, _ => none

/-- Lines 101-111 in doubles. -/
def reweightD (P : List Particle) : Option (List Particle) := reweightLoopD (l_sumD P) P

/-- The value `num_new` of line 116 in doubles: the unsigned difference `num - P.size()` is
converted to `double`, the product with the weight is rounded, and the rounded product is
converted to `int`. -/
def num_newD (wgt : ℚ) (k : Nat) : Option Int := toInt (fl (wgt * fl (room k : ℚ)))

/-- Lines 118-121 in doubles: the new particle made from the survivor `p` with the draw `d`. -/
def childD (E : Env) (f : Frame) (d : Draw) (p : Particle) : Particle :=
  let r : ℚ := fl (fl (d.z * ((f.rows + f.cols : Int) : ℚ)) * fl (1 - p.like))
  let ang : ℚ := d.ang
  let pt : Point2d := ⟨fl (fl (r * E.cos ang) + p.pos.x), fl (fl (r * E.sin ang) + p.pos.y)⟩
  ⟨pt, ⟨fl (pt.x - p.pos.x), fl (pt.y - p.pos.y)⟩, p.like, p.wgt, false⟩

/-- The inner loop of lines 117-123 in doubles. -/
def spawnD (E : Env) (f : Frame) (p : Particle) (t : Nat) : Nat → List Particle
  | 0 => []
  | n + 1 => childD E f (E.draw t) p :: spawnD E f p (t + 1) n

/-- The outer loop of lines 115-124 in doubles. -/
def resampleLoopD (E : Env) (f : Frame) (k : Nat) :
    List Particle → Nat → Option (List Particle × Nat)
  | [], t => some ([], t)
  | p :: ps, t =>
    match num_newD p.wgt k with
    | none => none
    | some n =>
      match resampleLoopD E f k ps (t + n.toNat) with
      | none => none
      | some (rest, t1) => some (spawnD E f p t n.toNat ++ rest, t1)

/-- Lines 113-125 in doubles. -/
def resampleD (E : Env) (f : Frame) (P : List Particle) (t : Nat) :
    Option (List Particle × Nat) :=
  match resampleLoopD E f P.length P t with
  | none => none
  | some (Pnew, t1) => some (P ++ Pnew, t1)

/-- Lines 60-125 of one pass in doubles: the population after resampling and the number of draws
made; `none` when a weight is not a finite number or a particle count does not fit in an
`int`. -/
def passD (E : Env) (f : Frame) (P : List Particle) (t : Nat) : Option (List Particle × Nat) :=
  match reweightD (survivorsD f P) with
  | none => none
  | some W => resampleD E f W t

/-- A survivor at (100, 100) with the likelihood scored for hue 49 and saturation 208, the double
0.9003921568627451, and the weight it gets next to `pairB`, the double 0.49298597194388777. -/
def pairA : Particle :=
  ⟨⟨100, 100⟩, ⟨0, 0⟩, 506875722766797 / 562949953421312,
    8880845758181499 / 18014398509481984, true⟩

/-- A survivor at (100, 100) with the likelihood scored for hue 56 and saturation 185, the double
0.9260130718954248, and the weight it gets next to `pairA`, the double 0.5070140280561122. -/
def pairB : Particle :=
  ⟨⟨100, 100⟩, ⟨0, 0⟩, 8340784251056887 / 9007199254740992,
    2283388187825121 / 4503599627370496, true⟩


/-- A survivor at (100, 100) with the likelihood scored for hue 160 and saturation 200, the
double 0.6, and the weight it gets among five such survivors, the double
0.19999999999999998. -/
def dullSurvivor : Particle :=
  ⟨⟨100, 100⟩, ⟨0, 0⟩, 5404319552844595 / 9007199254740992,
    7205759403792793 / 36028797018963968, true⟩
/-! # Theorems -/

/-! ## Facts about the likelihood update -/

theorem cvRound_intCast (n : Int) : cvRound (n : ℚ) = n := by
  simp [cvRound]

theorem likeOf_nonneg (h s : Fin 256) : 0 ≤ likeOf h s := by
  have hh : (((70 : Int) - (h.val : Int)).natAbs : ℚ) ≤ 185 := by
    have : ((70 : Int) - (h.val : Int)).natAbs ≤ 185 := by have := h.isLt; omega
    exact_mod_cast this
  have hs : (((200 : Int) - (s.val : Int)).natAbs : ℚ) ≤ 200 := by
    have : ((200 : Int) - (s.val : Int)).natAbs ≤ 200 := by have := s.isLt; omega
    exact_mod_cast this
  simp only [likeOf]
  linarith

theorem likeOf_le_one (h s : Fin 256) : likeOf h s ≤ 1 := by
  have hh : (0 : ℚ) ≤ (((70 : Int) - (h.val : Int)).natAbs : ℚ) := Nat.cast_nonneg _
  have hs : (0 : ℚ) ≤ (((200 : Int) - (s.val : Int)).natAbs : ℚ) := Nat.cast_nonneg _
  simp only [likeOf]
  linarith

theorem likeOf_match : likeOf 70 200 = 1 := by
  have h1 : ((70 : Fin 256).val : Int) = 70 := rfl
  have h2 : ((200 : Fin 256).val : Int) = 200 := rfl
  simp only [likeOf, h1, h2]
  norm_num

theorem scoreRead_inside (f : Frame) (p : Particle)
    (h : 0 < p.pos.x ∧ p.pos.x < (f.cols : ℚ) ∧ 0 < p.pos.y ∧ p.pos.y < (f.rows : ℚ)) :
    scoreRead f p =
      ({ p with like := likeOf (f.hue (cvRound p.pos.x) (cvRound p.pos.y))
                          (f.sat (cvRound p.pos.x) (cvRound p.pos.y)) },
        [(cvRound p.pos.x, cvRound p.pos.y)]) := by
  simp [scoreRead, inFrame, h, pixelOf]

theorem scoreRead_outside (f : Frame) (p : Particle)
    (h : ¬ (0 < p.pos.x ∧ p.pos.x < (f.cols : ℚ) ∧ 0 < p.pos.y ∧ p.pos.y < (f.rows : ℚ))) :
    scoreRead f p = ({ p with like := 0 }, []) := by
  simp only [scoreRead, inFrame, decide_eq_true_eq, if_neg h]

theorem scoreOne_like_bounds (f : Frame) (p : Particle) :
    0 ≤ (scoreOne f p).like ∧ (scoreOne f p).like ≤ 1 := by
  by_cases h : 0 < p.pos.x ∧ p.pos.x < (f.cols : ℚ) ∧ 0 < p.pos.y ∧ p.pos.y < (f.rows : ℚ)
  · rw [scoreOne, scoreRead_inside f p h]
    exact ⟨likeOf_nonneg _ _, likeOf_le_one _ _⟩
  · rw [scoreOne, scoreRead_outside f p h]
    exact ⟨le_refl _, zero_le_one⟩

/-- C6: a particle whose position lies outside the frame (`x < 0`, `x ≥ cols`, `y < 0` or
`y ≥ rows`) leaves the likelihood update with likelihood exactly 0, all its other fields
unchanged, and no pixel of the image is read for it. -/
theorem score_outside_is_zero (f : Frame) (p : Particle)
    (h : p.pos.x < 0 ∨ (f.cols : ℚ) ≤ p.pos.x ∨ p.pos.y < 0 ∨ (f.rows : ℚ) ≤ p.pos.y) :
    (scoreOne f p).like = 0 ∧ (scoreRead f p).2 = [] ∧ scoreOne f p = { p with like := 0 } := by
  have hn : ¬ (0 < p.pos.x ∧ p.pos.x < (f.cols : ℚ) ∧ 0 < p.pos.y ∧ p.pos.y < (f.rows : ℚ)) := by
    rintro ⟨h1, h2, h3, h4⟩
    rcases h with h | h | h | h <;> linarith
  rw [scoreOne, scoreRead_outside f p hn]
  exact ⟨rfl, rfl, rfl⟩

theorem score_outside_is_zero_witness :
    ((flatFrame 4 4).cols : ℚ) ≤ (still 4 1 1).pos.x ∧
      (scoreOne (flatFrame 4 4) (still 4 1 1)).like = 0 ∧
      (scoreRead (flatFrame 4 4) (still 4 1 1)).2 = [] :=
  ⟨by simp [flatFrame, still],
   (score_outside_is_zero (flatFrame 4 4) (still 4 1 1)
      (Or.inr (Or.inl (by simp [flatFrame, still])))).1,
   (score_outside_is_zero (flatFrame 4 4) (still 4 1 1)
      (Or.inr (Or.inl (by simp [flatFrame, still])))).2.1⟩

/-- C7, as the code has it: in a frame more than one pixel wide and high, a particle exactly at
`(cols - 1, rows - 1)` is scored from the hue and saturation of the pixel `(cols - 1, rows - 1)`,
which is the one pixel read; a particle exactly at `(0, 0)` fails the strict test `0 < x` and
gets likelihood 0 without any pixel being read. -/
theorem score_at_corners (f : Frame) (p : Particle) :
    (1 < f.cols → 1 < f.rows → p.pos = ⟨((f.cols - 1 : Int) : ℚ), ((f.rows - 1 : Int) : ℚ)⟩ →
      (scoreOne f p).like = likeOf (f.hue (f.cols - 1) (f.rows - 1)) (f.sat (f.cols - 1) (f.rows - 1))
        ∧ (scoreRead f p).2 = [(f.cols - 1, f.rows - 1)]) ∧
    (p.pos = ⟨0, 0⟩ → (scoreOne f p).like = 0 ∧ (scoreRead f p).2 = []) := by
  constructor
  · intro hc hr hp
    have hc1 : (0 : ℚ) < ((f.cols - 1 : Int) : ℚ) := by exact_mod_cast (by omega : (0 : Int) < f.cols - 1)
    have hc2 : ((f.cols - 1 : Int) : ℚ) < (f.cols : ℚ) := by exact_mod_cast (by omega : f.cols - 1 < f.cols)
    have hr1 : (0 : ℚ) < ((f.rows - 1 : Int) : ℚ) := by exact_mod_cast (by omega : (0 : Int) < f.rows - 1)
    have hr2 : ((f.rows - 1 : Int) : ℚ) < (f.rows : ℚ) := by exact_mod_cast (by omega : f.rows - 1 < f.rows)
    have hin : 0 < p.pos.x ∧ p.pos.x < (f.cols : ℚ) ∧ 0 < p.pos.y ∧ p.pos.y < (f.rows : ℚ) := by
      rw [hp]; exact ⟨hc1, hc2, hr1, hr2⟩
    rw [scoreOne, scoreRead_inside f p hin, hp]
    simp only [cvRound_intCast]
    exact ⟨trivial, trivial⟩
  · intro hp
    have hn : ¬ (0 < p.pos.x ∧ p.pos.x < (f.cols : ℚ) ∧ 0 < p.pos.y ∧ p.pos.y < (f.rows : ℚ)) := by
      rw [hp]; rintro ⟨h1, -⟩; exact lt_irrefl _ h1
    rw [scoreOne, scoreRead_outside f p hn]
    exact ⟨rfl, rfl⟩

theorem score_at_corners_witness :
    ((scoreOne (flatFrame 4 3) (still 3 2 0)).like = 1 ∧
      (scoreRead (flatFrame 4 3) (still 3 2 0)).2 = [(3, 2)]) ∧
    ((scoreOne (flatFrame 4 3) (still 0 0 1)).like = 0 ∧
      (scoreRead (flatFrame 4 3) (still 0 0 1)).2 = []) := by
  have h := score_at_corners (flatFrame 4 3) (still 3 2 0)
  have h0 := score_at_corners (flatFrame 4 3) (still 0 0 1)
  refine ⟨?_, h0.2 rfl⟩
  have h1 := h.1 (by decide) (by decide) (by simp [flatFrame, still])
  refine ⟨?_, h1.2⟩
  rw [h1.1]
  exact likeOf_match

/-- C7 as the spec states it fails at `(0, 0)`: in a 4 by 3 frame whose pixel `(0, 0)` has hue 70
and saturation 200 (mismatch 0, likelihood 1 if scored), a particle exactly at `(0, 0)` is given
likelihood 0 and no pixel is read. -/
theorem score_origin_not_scored :
    (0 : Int) < (flatFrame 4 3).cols ∧ (0 : Int) < (flatFrame 4 3).rows ∧
    (still 0 0 1).pos = ⟨0, 0⟩ ∧
    (scoreOne (flatFrame 4 3) (still 0 0 1)).like = 0 ∧
    (scoreRead (flatFrame 4 3) (still 0 0 1)).2 = [] ∧
    likeOf ((flatFrame 4 3).hue 0 0) ((flatFrame 4 3).sat 0 0) = 1 ∧
    (scoreOne (flatFrame 4 3) (still 0 0 1)).like
      ≠ likeOf ((flatFrame 4 3).hue 0 0) ((flatFrame 4 3).sat 0 0) := by
  have hl : likeOf ((flatFrame 4 3).hue 0 0) ((flatFrame 4 3).sat 0 0) = 1 := likeOf_match
  have hs : scoreRead (flatFrame 4 3) (still 0 0 1) = ({ still 0 0 1 with like := 0 }, []) := by
    apply scoreRead_outside
    simp [still]
  refine ⟨by decide, by decide, rfl, ?_, ?_, hl, ?_⟩
  · rw [scoreOne, hs]
  · rw [hs]
  · rw [hl, scoreOne, hs]; norm_num

/-- C8: whatever the frame and the particle, the likelihood set by the likelihood update lies in
the closed interval from 0 to 1 (hue and saturation being any values 0..255). -/
theorem score_like_in_unit_interval (f : Frame) (p : Particle) :
    0 ≤ (scoreOne f p).like ∧ (scoreOne f p).like ≤ 1 ∧
    ∀ P : List Particle, ∀ q ∈ score f P, 0 ≤ q.like ∧ q.like ≤ 1 := by
  refine ⟨(scoreOne_like_bounds f p).1, (scoreOne_like_bounds f p).2, ?_⟩
  intro P q hq
  simp only [score, List.mem_map] at hq
  obtain ⟨a, -, rfl⟩ := hq
  exact scoreOne_like_bounds f a

/-- C9: a particle that passes the bounds test and reads hue `h` and saturation `s` at its pixel
gets likelihood `1 - (0.8 * |70 - h| / 180 + 0.2 * |200 - s| / 255)`; when `h = 70` and
`s = 200` the likelihood is exactly 1. -/
theorem score_like_formula (f : Frame) (p : Particle)
    (hin : 0 < p.pos.x ∧ p.pos.x < (f.cols : ℚ) ∧ 0 < p.pos.y ∧ p.pos.y < (f.rows : ℚ)) :
    (scoreOne f p).like
      = 1 - (4 / 5 * |(70 : ℚ) - ((f.hue (cvRound p.pos.x) (cvRound p.pos.y)).val : ℚ)| / 180
              + 1 / 5 * |(200 : ℚ) - ((f.sat (cvRound p.pos.x) (cvRound p.pos.y)).val : ℚ)| / 255) ∧
    (f.hue (cvRound p.pos.x) (cvRound p.pos.y) = 70 →
      f.sat (cvRound p.pos.x) (cvRound p.pos.y) = 200 → (scoreOne f p).like = 1) := by
  rw [scoreOne, scoreRead_inside f p hin]
  constructor
  · simp only [likeOf, Nat.cast_natAbs, Int.cast_abs, Int.cast_sub, Int.cast_ofNat, Int.cast_natCast]
    ring
  · intro hh hs
    rw [hh, hs]; exact likeOf_match

theorem score_like_formula_witness :
    (0 < (still 1 1 0).pos.x ∧ (still 1 1 0).pos.x < ((flatFrame 4 3).cols : ℚ) ∧
      0 < (still 1 1 0).pos.y ∧ (still 1 1 0).pos.y < ((flatFrame 4 3).rows : ℚ)) ∧
    (scoreOne (flatFrame 4 3) (still 1 1 0)).like = 1 :=
  ⟨by simp [flatFrame, still],
   (score_like_formula (flatFrame 4 3) (still 1 1 0) (by simp [flatFrame, still])).2 rfl rfl⟩

/-! ## Prediction -/

/-- C10: the prediction step keeps the size and the order of the population and replaces each
particle by the particle with position `pos + vel` and the same velocity, likelihood, weight and
flag; when every velocity is zero the population comes back unchanged. -/
theorem predict_adds_velocity (P : List Particle) :
    (predict P).length = P.length ∧
    (∀ (i : Nat) (p : Particle), P[i]? = some p →
      (predict P)[i]? = some ⟨⟨p.pos.x + p.vel.x, p.pos.y + p.vel.y⟩, p.vel, p.like, p.wgt, p.keep⟩) ∧
    ((∀ p ∈ P, p.vel = ⟨0, 0⟩) → predict P = P) := by
  refine ⟨by simp [predict], ?_, ?_⟩
  · intro i p hp
    simp [predict, hp, predictOne, Point2d.add]
  · intro hz
    unfold predict
    conv_rhs => rw [← List.map_id P]
    apply List.map_congr_left
    intro p hp
    have hv := hz p hp
    cases p with
    | mk pos vel like wgt keep =>
      cases pos with
      | mk x y =>
        simp only at hv
        subst hv
        simp [predictOne, Point2d.add]

theorem predict_adds_velocity_witness :
    (∀ p ∈ [still 3 2 1, still 5 7 0], p.vel = ⟨0, 0⟩) ∧
    predict [still 3 2 1, still 5 7 0] = [still 3 2 1, still 5 7 0] ∧
    (predict [⟨⟨3, 2⟩, ⟨1, -1⟩, 1, 0, false⟩])[0]? = some ⟨⟨3 + 1, 2 + -1⟩, ⟨1, -1⟩, 1, 0, false⟩ :=
  ⟨by simp [still],
   (predict_adds_velocity [still 3 2 1, still 5 7 0]).2.2 (by simp [still]),
   (predict_adds_velocity [⟨⟨3, 2⟩, ⟨1, -1⟩, 1, 0, false⟩]).2.1 0 _ rfl⟩

/-! ## Centroid -/

theorem accumulate_eq (P : List Particle) (c : Point2d) :
    accumulate c P
      = ⟨c.x + (P.map (fun p => p.pos.x)).sum, c.y + (P.map (fun p => p.pos.y)).sum⟩ := by
  induction P generalizing c with
  | nil => simp [accumulate]
  | cons p ps ih =>
    have h : accumulate c (p :: ps) = accumulate (c.add p.pos) ps := rfl
    rw [h, ih]
    simp [Point2d.add, add_assoc]

theorem estimate_eq (P : List Particle) (c : Point2d) (hP : P ≠ []) :
    estimate c P
      = some ⟨(c.x + (P.map (fun p => p.pos.x)).sum) / (P.length : ℚ),
              (c.y + (P.map (fun p => p.pos.y)).sum) / (P.length : ℚ)⟩ := by
  have hn : (P.length : ℚ) ≠ 0 := by
    have : P.length ≠ 0 := fun h => hP (List.length_eq_zero.mp h)
    exact_mod_cast this
  simp only [estimate, divD, if_neg hn, accumulate_eq, Point2d.scale]
  simp [div_eq_mul_inv]

/-! ## Survival and pruning -/

theorem markFrom_length (n : Nat) (P : List Particle) (i : Nat) :
    (markFrom n i P).length = P.length := by
  induction P generalizing i with
  | nil => rfl
  | cons p ps ih => simp [markFrom, ih]

theorem markFrom_getElem? (n : Nat) (P : List Particle) (i j : Nat) (p : Particle)
    (h : P[j]? = some p) :
    (markFrom n i P)[j]? = some { p with keep := keepTest n (i + j) p } := by
  induction P generalizing i j with
  | nil => simp at h
  | cons q qs ih =>
    cases j with
    | zero =>
      simp only [List.getElem?_cons_zero, Option.some.injEq] at h
      subst h
      simp [markFrom]
    | succ j =>
      simp only [List.getElem?_cons_succ] at h
      simp only [markFrom, List.getElem?_cons_succ]
      rw [ih (i + 1) j h]
      have : i + 1 + j = i + (j + 1) := by omega
      rw [this]

theorem eraseLoop_eq_filter (P : List Particle) : eraseLoop P = P.filter (fun p => p.keep) := by
  induction P with
  | nil => rfl
  | cons p ps ih =>
    by_cases h : p.keep = true
    · simp [eraseLoop, h, ih]
    · simp [eraseLoop, h, ih]

/-- C2, as the code has it: after the flags are set, pruning keeps exactly the flagged particles,
in order.  A particle at index `i` of `n` is flagged when its likelihood is above 0.9 or
`i > n - floor(n / 100)`, and it is not flagged when its likelihood is at most 0.9 and
`i < n - floor(n / 100)`. -/
theorem prune_threshold_or_rank (P : List Particle) :
    prune P = (mark P).filter (fun p => p.keep) ∧ (mark P).length = P.length ∧
    ∀ (i : Nat) (p : Particle), P[i]? = some p →
      ((p.like > 9 / 10 ∨ i > P.length - P.length / 100) →
        (mark P)[i]? = some { p with keep := true }) ∧
      ((p.like ≤ 9 / 10 ∧ i < P.length - P.length / 100) →
        (mark P)[i]? = some { p with keep := false }) := by
  refine ⟨eraseLoop_eq_filter _, markFrom_length _ _ _, ?_⟩
  intro i p hp
  have hm : (mark P)[i]? = some { p with keep := keepTest P.length i p } := by
    have := markFrom_getElem? P.length P 0 i p hp
    simpa [mark] using this
  constructor
  · intro h
    rw [hm]
    have : keepTest P.length i p = true := by
      simp only [keepTest, thresh_like, thresh_keep, decide_eq_true_eq]
      exact h
    rw [this]
  · intro h
    rw [hm]
    have : keepTest P.length i p = false := by
      simp only [keepTest, thresh_like, thresh_keep, decide_eq_false_iff_not, not_or, not_lt]
      exact ⟨h.1, by omega⟩
    rw [this]

theorem prune_threshold_or_rank_witness :
    ((List.replicate 4 (still 1 1 (1 / 2)))[3]? = some (still 1 1 (1 / 2)) ∧
      (still 1 1 (1 / 2)).like ≤ 9 / 10 ∧ 3 < 4 - 4 / 100) ∧
    (mark (List.replicate 4 (still 1 1 (1 / 2))))[3]? = some (still 1 1 (1 / 2)) := by
  have h := (prune_threshold_or_rank (List.replicate 4 (still 1 1 (1 / 2)))).2.2 3
    (still 1 1 (1 / 2)) rfl
  refine ⟨⟨rfl, by norm_num [still], by decide⟩, ?_⟩
  exact h.2 ⟨by norm_num [still], by decide⟩

/-- C2 as the spec states it fails: four particles of likelihood 0.5 form a sorted population in
which the last particle is one of the last `ceil(4 * 1/100) = 1`, so that it survives by the
spec's rule, but the code leaves its flag unset and pruning removes every particle. -/
theorem prune_rank_slice_not_ceil :
    List.Sorted (fun a b : Particle => a.like ≤ b.like) (List.replicate 4 (still 1 1 (1 / 2))) ∧
    (List.replicate 4 (still 1 1 (1 / 2)))[3]? = some (still 1 1 (1 / 2)) ∧
    specSurvives 4 3 (still 1 1 (1 / 2)) ∧
    (mark (List.replicate 4 (still 1 1 (1 / 2))))[3]? = some { still 1 1 (1 / 2) with keep := false } ∧
    prune (List.replicate 4 (still 1 1 (1 / 2))) = [] := by
  have hk : ∀ i : Nat, keepTest 4 i (still 1 1 (1 / 2)) = decide (i > 4) := by
    intro i
    simp only [keepTest, thresh_like, thresh_keep, still]
    norm_num
  have hr : List.replicate 4 (still 1 1 (1 / 2))
      = [still 1 1 (1 / 2), still 1 1 (1 / 2), still 1 1 (1 / 2), still 1 1 (1 / 2)] := rfl
  refine ⟨?_, rfl, ?_, ?_, ?_⟩
  · simp [List.Sorted, List.replicate]
  · right
    have : ⌈((4 : Nat) : ℚ) * (1 / 100)⌉₊ = 1 := by
      rw [Nat.ceil_eq_iff (by decide)]
      norm_num
    rw [this]
  · rw [hr]
    simp only [mark, markFrom, List.length, hk]
    rfl
  · rw [hr]
    simp only [prune, mark, markFrom, List.length, hk]
    rfl

/-! ## Reweighting -/

theorem foldl_like_eq (P : List Particle) (a : ℚ) :
    P.foldl (fun acc p => acc + p.like) a = a + (P.map (fun p => p.like)).sum := by
  induction P generalizing a with
  | nil => simp
  | cons p ps ih => simp [List.foldl_cons, ih, add_assoc]

theorem l_sum_eq_sum (P : List Particle) : l_sum P = (P.map (fun p => p.like)).sum := by
  simp [l_sum, foldl_like_eq]

theorem reweightLoop_eq (s : ℚ) (hs : s ≠ 0) (P : List Particle) :
    reweightLoop s P = some (P.map (fun p => { p with wgt := p.like / s })) := by
  induction P with
  | nil => rfl
  | cons p ps ih => simp [reweightLoop, ih, divD, hs]

theorem like_sum_nonneg (P : List Particle) (hl : ∀ p ∈ P, 0 ≤ p.like) :
    0 ≤ (P.map (fun p => p.like)).sum := by
  induction P with
  | nil => simp
  | cons p ps ih =>
    simp only [List.map_cons, List.sum_cons]
    have h1 := hl p (List.mem_cons_self _ _)
    have h2 := ih (fun q hq => hl q (List.mem_cons_of_mem _ hq))
    linarith

theorem like_le_sum (P : List Particle) (hl : ∀ p ∈ P, 0 ≤ p.like) (q : Particle) (hq : q ∈ P) :
    q.like ≤ (P.map (fun p => p.like)).sum := by
  induction P with
  | nil => simp at hq
  | cons p ps ih =>
    simp only [List.map_cons, List.sum_cons]
    have h1 := hl p (List.mem_cons_self _ _)
    have h2 := like_sum_nonneg ps (fun r hr => hl r (List.mem_cons_of_mem _ hr))
    rcases List.mem_cons.mp hq with h | h
    · rw [h]; linarith
    · have := ih (fun r hr => hl r (List.mem_cons_of_mem _ hr)) h
      linarith

theorem sum_like_div (P : List Particle) (s : ℚ) :
    (P.map (fun p => p.like / s)).sum = (P.map (fun p => p.like)).sum / s := by
  induction P with
  | nil => simp
  | cons p ps ih => simp only [List.map_cons, List.sum_cons, ih]; ring

theorem reweight_some_of_sum_ne_zero (P : List Particle)
    (hl : ∀ p ∈ P, 0 ≤ p.like ∧ p.like ≤ 1) (hs : (P.map (fun p => p.like)).sum ≠ 0) :
    ∃ W : List Particle, reweight P = some W ∧
      W = P.map (fun p => { p with wgt := p.like / (P.map (fun p => p.like)).sum }) ∧
      (∀ q ∈ W, 0 ≤ q.wgt ∧ q.wgt ≤ 1) ∧
      (W.map (fun q => q.wgt)).sum = 1 := by
  refine ⟨_, ?_, rfl, ?_, ?_⟩
  · rw [reweight, l_sum_eq_sum, reweightLoop_eq _ hs]
  · intro q hq
    simp only [List.mem_map] at hq
    obtain ⟨p, hp, rfl⟩ := hq
    have h0 := like_sum_nonneg P (fun r hr => (hl r hr).1)
    have hpos : 0 < (P.map (fun p => p.like)).sum := lt_of_le_of_ne h0 (Ne.symm hs)
    have hle := like_le_sum P (fun r hr => (hl r hr).1) p hp
    exact ⟨div_nonneg (hl p hp).1 h0, (div_le_one hpos).mpr hle⟩
  · simp only [List.map_map, Function.comp_def]
    rw [sum_like_div, div_self hs]

/-- C3: for a list of survivors with likelihoods in [0, 1] whose sum is not zero (such a list is
not empty), reweighting succeeds and gives every survivor the weight `like / (sum of the likelihoods)`,
all other fields unchanged; every weight lies in [0, 1] and the weights sum to exactly 1. -/
theorem reweight_normalises (P : List Particle)
    (hl : ∀ p ∈ P, 0 ≤ p.like ∧ p.like ≤ 1) (hs : (P.map (fun p => p.like)).sum ≠ 0) :
    ∃ W : List Particle, reweight P = some W ∧
      W = P.map (fun p => { p with wgt := p.like / (P.map (fun p => p.like)).sum }) ∧
      (∀ q ∈ W, 0 ≤ q.wgt ∧ q.wgt ≤ 1) ∧
      (W.map (fun q => q.wgt)).sum = 1 :=
  reweight_some_of_sum_ne_zero P hl hs

theorem reweight_normalises_witness :
    ([still 1 1 (1 / 2), still 2 2 (1 / 4)] ≠ [] ∧
      (([still 1 1 (1 / 2), still 2 2 (1 / 4)]).map (fun p => p.like)).sum ≠ 0) ∧
    ∃ W : List Particle, reweight [still 1 1 (1 / 2), still 2 2 (1 / 4)] = some W ∧
      (W.map (fun q => q.wgt)).sum = 1 := by
  have hne : [still 1 1 (1 / 2), still 2 2 (1 / 4)] ≠ [] := by simp
  have hs : (([still 1 1 (1 / 2), still 2 2 (1 / 4)]).map (fun p => p.like)).sum ≠ 0 := by
    norm_num [still]
  obtain ⟨W, h1, -, -, h4⟩ := reweight_normalises [still 1 1 (1 / 2), still 2 2 (1 / 4)]
    (by intro p hp; simp only [List.mem_cons, List.mem_singleton, List.not_mem_nil, or_false] at hp
        rcases hp with rfl | rfl <;> norm_num [still]) hs
  exact ⟨⟨hne, hs⟩, W, h1, h4⟩

/-! ## Resampling -/

theorem room_of_le (k : Nat) (hk : k ≤ num) : room k = ((num - k : Nat) : Int) := by
  have h1 : ((num : Int) - (k : Int)) = ((num - k : Nat) : Int) := by omega
  have h2 : ((num - k : Nat) : Int) < 2 ^ 64 := by
    have : num - k ≤ 1000 := by simp [num]
    have h3 : ((num - k : Nat) : Int) ≤ 1000 := by exact_mod_cast this
    have h4 : (1000 : Int) < 2 ^ 64 := by norm_num
    omega
  rw [room, h1]
  exact Int.emod_eq_of_lt (by omega) h2

theorem num_new_eq (w : ℚ) (k : Nat) (hk : k ≤ num) (h0 : 0 ≤ w) (h1 : w ≤ 1) :
    num_new w k = some ⌊w * ((num - k : Nat) : ℚ)⌋ ∧ 0 ≤ ⌊w * ((num - k : Nat) : ℚ)⌋ := by
  have hm0 : (0 : ℚ) ≤ ((num - k : Nat) : ℚ) := Nat.cast_nonneg _
  have hm1 : ((num - k : Nat) : ℚ) ≤ 1000 := by
    have : num - k ≤ 1000 := by simp [num]
    exact_mod_cast this
  have hv0 : 0 ≤ w * ((num - k : Nat) : ℚ) := mul_nonneg h0 hm0
  have hv1 : w * ((num - k : Nat) : ℚ) ≤ 1000 := by nlinarith
  have hf0 : 0 ≤ ⌊w * ((num - k : Nat) : ℚ)⌋ := Int.floor_nonneg.mpr hv0
  have hf1 : ⌊w * ((num - k : Nat) : ℚ)⌋ ≤ 1000 := by
    have : (⌊w * ((num - k : Nat) : ℚ)⌋ : ℚ) ≤ 1000 := le_trans (Int.floor_le _) hv1
    exact_mod_cast this
  refine ⟨?_, hf0⟩
  have hr : ((room k : Int) : ℚ) = ((num - k : Nat) : ℚ) := by
    rw [room_of_le k hk]; simp
  have hlo : (-2 : Int) ^ 31 ≤ ⌊w * ((num - k : Nat) : ℚ)⌋ := by
    have : (-2 : Int) ^ 31 ≤ 0 := by norm_num
    omega
  have hhi : ⌊w * ((num - k : Nat) : ℚ)⌋ < 2 ^ 31 := by
    have : (1000 : Int) < 2 ^ 31 := by norm_num
    omega
  simp only [num_new, toInt, hr, if_pos hv0]
  rw [if_pos ⟨hlo, hhi⟩]

theorem spawn_length (E : Env) (f : Frame) (p : Particle) (t n : Nat) :
    (spawn E f p t n).length = n := by
  induction n generalizing t with
  | zero => rfl
  | succ n ih => simp [spawn, ih]

theorem spawn_mem (E : Env) (f : Frame) (p : Particle) (t n : Nat) :
    ∀ c ∈ spawn E f p t n, ∃ d : Draw, c = child E f d p := by
  induction n generalizing t with
  | zero => intro c hc; simp [spawn] at hc
  | succ n ih =>
    intro c hc
    simp only [spawn, List.mem_cons] at hc
    rcases hc with rfl | hc
    · exact ⟨E.draw t, rfl⟩
    · exact ih (t + 1) c hc

/-- The outer loop for `k ≤ num` survivors with weights in [0, 1]: one block of new particles per
survivor, of the size given by the floor. -/
theorem resampleLoop_blocks (E : Env) (f : Frame) (k : Nat) (hk : k ≤ num) (P : List Particle)
    (hw : ∀ p ∈ P, 0 ≤ p.wgt ∧ p.wgt ≤ 1) (t : Nat) :
    ∃ blocks : List (List Particle),
      resampleLoop E f k P t = some (blocks.flatten, t + blocks.flatten.length) ∧
      blocks.length = P.length ∧
      (∀ (i : Nat) (p : Particle) (b : List Particle), P[i]? = some p → blocks[i]? = some b →
        (b.length : Int) = ⌊p.wgt * ((num - k : Nat) : ℚ)⌋ ∧ ∀ c ∈ b, ∃ d : Draw, c = child E f d p) ∧
      (blocks.flatten.length : Int)
        = (P.map (fun p => ⌊p.wgt * ((num - k : Nat) : ℚ)⌋)).sum := by
  induction P generalizing t with
  | nil => exact ⟨[], by simp [resampleLoop], rfl, by simp, by simp⟩
  | cons p ps ih =>
    obtain ⟨hn, hn0⟩ := num_new_eq p.wgt k hk (hw p (List.mem_cons_self _ _)).1
      (hw p (List.mem_cons_self _ _)).2
    obtain ⟨bs, hb1, hb2, hb3, hb4⟩ :=
      ih (fun q hq => hw q (List.mem_cons_of_mem _ hq)) (t + ⌊p.wgt * ((num - k : Nat) : ℚ)⌋.toNat)
    have hlen : ((spawn E f p t ⌊p.wgt * ((num - k : Nat) : ℚ)⌋.toNat).length : Int)
        = ⌊p.wgt * ((num - k : Nat) : ℚ)⌋ := by
      rw [spawn_length]; exact Int.toNat_of_nonneg hn0
    refine ⟨spawn E f p t ⌊p.wgt * ((num - k : Nat) : ℚ)⌋.toNat :: bs, ?_, ?_, ?_, ?_⟩
    · simp only [resampleLoop, hn, hb1, List.flatten_cons, List.length_append, spawn_length]
      simp [add_assoc]
    · simp [hb2]
    · intro i q b hq hb
      cases i with
      | zero =>
        simp only [List.getElem?_cons_zero, Option.some.injEq] at hq hb
        subst hq; subst hb
        exact ⟨hlen, spawn_mem E f p t _⟩
      | succ i =>
        simp only [List.getElem?_cons_succ] at hq hb
        exact hb3 i q b hq hb
    · simp only [List.flatten_cons, List.length_append, Nat.cast_add, List.map_cons, List.sum_cons]
      rw [hlen, hb4]

theorem resample_some_of_weights (E : Env) (f : Frame) (P : List Particle) (t : Nat)
    (hk : P.length ≤ num) (hw : ∀ p ∈ P, 0 ≤ p.wgt ∧ p.wgt ≤ 1) :
    ∃ Pnew : List Particle,
      resample E f P t = some (P ++ Pnew, t + Pnew.length) ∧
      (Pnew.length : Int) = (P.map (fun s => ⌊s.wgt * ((num - P.length : Nat) : ℚ)⌋)).sum := by
  obtain ⟨bs, h1, -, -, h4⟩ := resampleLoop_blocks E f P.length hk P hw t
  exact ⟨bs.flatten, by simp [resample, h1], h4⟩

/-! ## Size of the population after one pass -/

theorem floor_sum_bounds (m : ℚ) (ws : List ℚ) :
    (((ws.map (fun w => ⌊w * m⌋)).sum : Int) : ℚ) ≤ ws.sum * m ∧
    ws.sum * m - (ws.length : ℚ) ≤ (((ws.map (fun w => ⌊w * m⌋)).sum : Int) : ℚ) ∧
    (ws ≠ [] → ws.sum * m - (ws.length : ℚ) < (((ws.map (fun w => ⌊w * m⌋)).sum : Int) : ℚ)) := by
  induction ws with
  | nil => simp
  | cons w ws ih =>
    obtain ⟨ih1, ih2, -⟩ := ih
    have h1 : ((⌊w * m⌋ : Int) : ℚ) ≤ w * m := Int.floor_le _
    have h2 : w * m - 1 < ((⌊w * m⌋ : Int) : ℚ) := Int.sub_one_lt_floor _
    simp only [List.map_cons, List.sum_cons, List.length_cons, Int.cast_add, Nat.cast_add,
      Nat.cast_one]
    refine ⟨by linarith, by linarith, fun _ => by linarith⟩

theorem markFrom_like (n : Nat) (P : List Particle) (i : Nat) :
    ∀ q ∈ markFrom n i P, ∃ p ∈ P, q.like = p.like := by
  induction P generalizing i with
  | nil => intro q hq; simp [markFrom] at hq
  | cons p ps ih =>
    intro q hq
    simp only [markFrom, List.mem_cons] at hq
    rcases hq with rfl | hq
    · exact ⟨p, List.mem_cons_self _ _, rfl⟩
    · obtain ⟨r, hr, hqr⟩ := ih (i + 1) q hq
      exact ⟨r, List.mem_cons_of_mem _ hr, hqr⟩

theorem prune_like (P : List Particle) : ∀ q ∈ prune P, ∃ p ∈ P, q.like = p.like := by
  intro q hq
  rw [prune, eraseLoop_eq_filter] at hq
  exact markFrom_like _ _ _ q (List.mem_filter.mp hq).1

theorem prune_length_le (P : List Particle) : (prune P).length ≤ P.length := by
  rw [prune, eraseLoop_eq_filter]
  calc ((mark P).filter (fun p => p.keep)).length ≤ (mark P).length := List.length_filter_le _ _
    _ = P.length := markFrom_length _ _ _

theorem survivors_length_le (f : Frame) (P : List Particle) :
    (survivors f P).length ≤ P.length := by
  have h := prune_length_le (sort (score f (predict P)))
  simpa [survivors, sort, List.length_insertionSort, score, predict] using h

theorem survivors_like_bounds (f : Frame) (P : List Particle) :
    ∀ q ∈ survivors f P, 0 ≤ q.like ∧ q.like ≤ 1 := by
  intro q hq
  obtain ⟨p, hp, hqp⟩ := prune_like _ q hq
  have hp2 : p ∈ score f (predict P) := (List.perm_insertionSort _ _).mem_iff.mp hp
  simp only [score, List.mem_map] at hp2
  obtain ⟨a, -, rfl⟩ := hp2
  rw [hqp]
  exact scoreOne_like_bounds f a

/-! ## A pass on a population of equal particles -/

theorem sort_replicate (n : Nat) (p : Particle) :
    sort (List.replicate n p) = List.replicate n p := by
  induction n with
  | zero => rfl
  | succ n ih =>
    have ih2 : List.insertionSort (fun a b : Particle => a.like ≤ b.like) (List.replicate n p)
        = List.replicate n p := ih
    rw [sort, List.replicate_succ, List.insertionSort, ih2]
    cases n with
    | zero => rfl
    | succ n => simp [List.replicate_succ, List.orderedInsert]

theorem markFrom_replicate (m i n : Nat) (p : Particle) (hp : p.like > thresh_like) :
    markFrom m i (List.replicate n p) = List.replicate n { p with keep := true } := by
  induction n generalizing i with
  | zero => rfl
  | succ n ih =>
    have hk : keepTest m i p = true := by
      simp only [keepTest, decide_eq_true_eq]
      exact Or.inl hp
    rw [List.replicate_succ, markFrom, ih, hk, List.replicate_succ]

theorem eraseLoop_replicate (n : Nat) (p : Particle) (hp : p.keep = true) :
    eraseLoop (List.replicate n p) = List.replicate n p := by
  induction n with
  | zero => rfl
  | succ n ih => rw [List.replicate_succ, eraseLoop, if_pos hp, ih]

theorem resampleLoop_full (E : Env) (f : Frame) (P : List Particle) (t : Nat) :
    resampleLoop E f num P t = some ([], t) := by
  have hn : ∀ w : ℚ, num_new w num = some 0 := by
    intro w
    have hr : room num = 0 := by simp [room]
    simp [num_new, toInt, hr]
  induction P generalizing t with
  | nil => rfl
  | cons p ps ih => simp [resampleLoop, hn, ih, spawn]

/-- C1 fails on the code.  First pass on a 640 by 480 frame of hue 70 and saturation 200, started
as line 58 leaves it (`center` = (320, 240)) with 1000 particles all at (100, 100): every particle
survives, none is added, the final population is 1000 particles at (100, 100), whose mean
position is (100, 100), and lines 140-144 leave `center` = (100.32, 100.24). -/
theorem tick_center_adds_previous_center :
    center0 (flatFrame 640 480) = ⟨320, 240⟩ ∧
    tick unitEnv (flatFrame 640 480)
        ⟨List.replicate 1000 (still 100 100 1), some (center0 (flatFrame 640 480)), 0⟩
      = some ⟨List.replicate 1000 ⟨⟨100, 100⟩, ⟨0, 0⟩, 1, 1 / 1000, true⟩,
              some ⟨10032 / 100, 10024 / 100⟩, 0⟩ ∧
    meanPos (List.replicate 1000 ⟨⟨100, 100⟩, ⟨0, 0⟩, 1, 1 / 1000, true⟩) = ⟨100, 100⟩ ∧
    estimate ⟨320, 240⟩ (List.replicate 1000 ⟨⟨100, 100⟩, ⟨0, 0⟩, 1, 1 / 1000, true⟩)
      ≠ some (meanPos (List.replicate 1000 ⟨⟨100, 100⟩, ⟨0, 0⟩, 1, 1 / 1000, true⟩)) := by
  have hc : center0 (flatFrame 640 480) = ⟨320, 240⟩ := by
    simp only [center0, flatFrame]
    have h1 : Int.tdiv 640 2 = 320 := by decide
    have h2 : Int.tdiv 480 2 = 240 := by decide
    rw [h1, h2]
    norm_num
  have hne : List.replicate 1000 (⟨⟨100, 100⟩, ⟨0, 0⟩, 1, 1 / 1000, true⟩ : Particle) ≠ [] := by
    intro h
    have hl := congrArg List.length h
    rw [List.length_replicate, List.length_nil] at hl
    omega
  have hscore : scoreOne (flatFrame 640 480) (predictOne (still 100 100 1))
      = ⟨⟨100, 100⟩, ⟨0, 0⟩, 1, 0, false⟩ := by
    have hp : predictOne (still 100 100 1) = still 100 100 1 := by
      simp [predictOne, still, Point2d.add]
    rw [hp, scoreOne, scoreRead_inside _ _ (by norm_num [still, flatFrame])]
    simp only [flatFrame, still, likeOf_match]
  have hsurv : survivors (flatFrame 640 480) (List.replicate 1000 (still 100 100 1))
      = List.replicate 1000 ⟨⟨100, 100⟩, ⟨0, 0⟩, 1, 0, true⟩ := by
    rw [survivors, predict, List.map_replicate, score, List.map_replicate, hscore, sort_replicate,
      prune, mark, markFrom_replicate _ _ _ _ (by norm_num [thresh_like]),
      eraseLoop_replicate _ _ rfl]
  have hsum : l_sum (List.replicate 1000 (⟨⟨100, 100⟩, ⟨0, 0⟩, 1, 0, true⟩ : Particle)) = 1000 := by
    rw [l_sum_eq_sum, List.map_replicate, List.sum_replicate]
    norm_num
  have hrew : reweight (List.replicate 1000 (⟨⟨100, 100⟩, ⟨0, 0⟩, 1, 0, true⟩ : Particle))
      = some (List.replicate 1000 ⟨⟨100, 100⟩, ⟨0, 0⟩, 1, 1 / 1000, true⟩) := by
    rw [reweight, hsum, reweightLoop_eq _ (by norm_num), List.map_replicate]
  have hres : resample unitEnv (flatFrame 640 480)
      (List.replicate 1000 (⟨⟨100, 100⟩, ⟨0, 0⟩, 1, 1 / 1000, true⟩ : Particle)) 0
      = some (List.replicate 1000 ⟨⟨100, 100⟩, ⟨0, 0⟩, 1, 1 / 1000, true⟩, 0) := by
    have hlen : (List.replicate 1000 (⟨⟨100, 100⟩, ⟨0, 0⟩, 1, 1 / 1000, true⟩ : Particle)).length
        = num := by rw [List.length_replicate]; rfl
    rw [resample, hlen, resampleLoop_full]
    simp only [List.append_nil]
  have hest : estimate ⟨320, 240⟩
      (List.replicate 1000 (⟨⟨100, 100⟩, ⟨0, 0⟩, 1, 1 / 1000, true⟩ : Particle))
      = some ⟨10032 / 100, 10024 / 100⟩ := by
    rw [estimate_eq _ _ hne]
    simp only [List.map_replicate, List.sum_replicate, List.length_replicate]
    norm_num
  have hmean : meanPos (List.replicate 1000 (⟨⟨100, 100⟩, ⟨0, 0⟩, 1, 1 / 1000, true⟩ : Particle))
      = ⟨100, 100⟩ := by
    simp only [meanPos, List.map_replicate, List.sum_replicate, List.length_replicate]
    norm_num
  refine ⟨hc, ?_, hmean, ?_⟩
  · rw [tick]
    simp only [hsurv, hrew, hres, hc, Option.bind, hest]
  · rw [hest, hmean]
    intro h
    have hx := congrArg (fun o => o.map Point2d.x) h
    simp only [Option.map_some'] at hx
    norm_num at hx

/-! ## The loops with parameters agree with the program's loops -/

theorem markFromWith_program (n : Nat) (P : List Particle) (i : Nat) :
    markFromWith thresh_like 100 n i P = markFrom n i P := by
  induction P generalizing i with
  | nil => rfl
  | cons p ps ih => simp [markFromWith, markFrom, ih, keepTestWith, keepTest, thresh_keep]

theorem pruneWith_program (P : List Particle) : pruneWith thresh_like 100 P = prune P := by
  simp [pruneWith, prune, mark, markFromWith_program]

theorem resampleLoopWith_program (E : Env) (f : Frame) (k : Nat) (P : List Particle) (t : Nat) :
    resampleLoopWith num E f k P t = resampleLoop E f k P t := by
  induction P generalizing t with
  | nil => rfl
  | cons p ps ih =>
    have h : num_newWith num p.wgt k = num_new p.wgt k := rfl
    simp only [resampleLoopWith, resampleLoop, h, ih]

theorem resampleWith_program (E : Env) (f : Frame) (P : List Particle) (t : Nat) :
    resampleWith num E f P t = resample E f P t := by
  simp only [resampleWith, resample, resampleLoopWith_program]

/-! ## Pruning of populations without a particle above the threshold -/

theorem likeOf_dull : likeOf 160 200 = 3 / 5 := by
  have h1 : ((160 : Fin 256).val : Int) = 160 := rfl
  have h2 : ((200 : Fin 256).val : Int) = 200 := rfl
  simp only [likeOf, h1, h2]
  norm_num

theorem keepTest_of_low (n i : Nat) (p : Particle) (hp : p.like ≤ thresh_like) :
    keepTest n i p = decide (i > n - n / 100) := by
  have hn : ¬ p.like > thresh_like := not_lt.mpr hp
  simp [keepTest, thresh_keep, hn]

theorem eraseLoop_markFrom_replicate (m : Nat) (p : Particle) (hp : p.like ≤ thresh_like)
    (n i : Nat) :
    eraseLoop (markFrom m i (List.replicate n p))
      = List.replicate ((i + n) - max i (m - m / 100 + 1)) { p with keep := true } := by
  induction n generalizing i with
  | zero =>
    have h : (i + 0) - max i (m - m / 100 + 1) = 0 := by
      have := le_max_left i (m - m / 100 + 1)
      omega
    rw [h]
    rfl
  | succ n ih =>
    rw [List.replicate_succ, markFrom, keepTest_of_low m i p hp]
    by_cases hi : i > m - m / 100
    · have e : max (i + 1) (m - m / 100 + 1) = i + 1 := max_eq_left (by omega)
      have e0 : max i (m - m / 100 + 1) = i := max_eq_left (by omega)
      have hc : (i + (n + 1)) - max i (m - m / 100 + 1) = ((i + 1 + n) - max (i + 1) (m - m / 100 + 1)) + 1 := by
        rw [e, e0]; omega
      rw [eraseLoop, hc, List.replicate_succ, ← ih (i + 1)]
      simp [hi]
    · have e : max (i + 1) (m - m / 100 + 1) = m - m / 100 + 1 := max_eq_right (by omega)
      have e0 : max i (m - m / 100 + 1) = m - m / 100 + 1 := max_eq_right (by omega)
      have hc : (i + (n + 1)) - max i (m - m / 100 + 1) = (i + 1 + n) - max (i + 1) (m - m / 100 + 1) := by
        rw [e, e0]; omega
      rw [eraseLoop, hc, ← ih (i + 1)]
      simp [hi]

theorem prune_replicate_of_low (n : Nat) (p : Particle) (hp : p.like ≤ thresh_like) :
    prune (List.replicate n p) = List.replicate (n / 100 - 1) { p with keep := true } := by
  rw [prune, mark, List.length_replicate, eraseLoop_markFrom_replicate n p hp n 0]
  have h : (0 + n) - max 0 (n - n / 100 + 1) = n / 100 - 1 := by
    have e : max 0 (n - n / 100 + 1) = n - n / 100 + 1 := max_eq_right (by omega)
    rw [e]; omega
  rw [h]

theorem markFrom_keep_false (n : Nat) (hn : n / 100 = 0) (P : List Particle)
    (hl : ∀ p ∈ P, p.like ≤ thresh_like) (i : Nat) (hi : i + P.length ≤ n) :
    ∀ q ∈ markFrom n i P, q.keep = false := by
  induction P generalizing i with
  | nil => intro q hq; simp [markFrom] at hq
  | cons p ps ih =>
    intro q hq
    simp only [markFrom, List.mem_cons] at hq
    simp only [List.length_cons] at hi
    rcases hq with rfl | hq
    · simp only
      rw [keepTest_of_low n i p (hl p (List.mem_cons_self _ _)), hn]
      simp
      omega
    · exact ih (fun r hr => hl r (List.mem_cons_of_mem _ hr)) (i + 1) (by omega) q hq

theorem prune_nil_of_small (P : List Particle) (hn : P.length < 100)
    (hl : ∀ p ∈ P, p.like ≤ thresh_like) : prune P = [] := by
  rw [prune, eraseLoop_eq_filter, List.filter_eq_nil_iff]
  intro q hq
  have := markFrom_keep_false P.length (by omega) P hl 0 (by omega) q hq
  simp [this]

theorem prune_last_of_large (P : List Particle) (hn : 200 ≤ P.length) :
    ∃ p : Particle, P[P.length - 1]? = some p ∧ { p with keep := true } ∈ prune P := by
  have hlt : P.length - 1 < P.length := by omega
  refine ⟨P[P.length - 1], List.getElem?_eq_getElem hlt, ?_⟩
  have hm := markFrom_getElem? P.length P 0 (P.length - 1) _ (List.getElem?_eq_getElem hlt)
  have hk : keepTest P.length (0 + (P.length - 1)) P[P.length - 1] = true := by
    simp only [keepTest, thresh_keep, decide_eq_true_eq]
    right
    omega
  rw [hk] at hm
  rw [prune, eraseLoop_eq_filter, List.mem_filter]
  exact ⟨List.getElem?_mem hm, rfl⟩

/-- C11 fails on the code.  First pass on a 640 by 480 frame of hue 160 and saturation 200 with
the 1000 initial particles all at (100, 100): every particle is scored 0.6, which is above 0 and
not above 0.9, and pruning leaves 9 particles, fewer than `ceil(1000 * 1/100) = 10`. -/
theorem survivors_nine_of_thousand :
    (∀ q ∈ score (dullFrame 640 480) (predict (List.replicate 1000 (still 100 100 1))),
      q.like = 3 / 5) ∧
    survivors (dullFrame 640 480) (List.replicate 1000 (still 100 100 1))
      = List.replicate 9 ⟨⟨100, 100⟩, ⟨0, 0⟩, 3 / 5, 0, true⟩ ∧
    (survivors (dullFrame 640 480) (List.replicate 1000 (still 100 100 1))).length = 9 ∧
    ⌈((1000 : Nat) : ℚ) * (1 / 100)⌉₊ = 10 := by
  have hscore : scoreOne (dullFrame 640 480) (predictOne (still 100 100 1))
      = ⟨⟨100, 100⟩, ⟨0, 0⟩, 3 / 5, 0, false⟩ := by
    have hp : predictOne (still 100 100 1) = still 100 100 1 := by
      simp [predictOne, still, Point2d.add]
    rw [hp, scoreOne, scoreRead_inside _ _ (by norm_num [still, dullFrame])]
    simp only [dullFrame, still, likeOf_dull]
  have hsc : score (dullFrame 640 480) (predict (List.replicate 1000 (still 100 100 1)))
      = List.replicate 1000 ⟨⟨100, 100⟩, ⟨0, 0⟩, 3 / 5, 0, false⟩ := by
    rw [predict, List.map_replicate, score, List.map_replicate, hscore]
  have hsurv : survivors (dullFrame 640 480) (List.replicate 1000 (still 100 100 1))
      = List.replicate 9 ⟨⟨100, 100⟩, ⟨0, 0⟩, 3 / 5, 0, true⟩ := by
    rw [survivors, hsc, sort_replicate, prune_replicate_of_low _ _ (by norm_num [thresh_like])]
  refine ⟨?_, hsurv, ?_, ?_⟩
  · intro q hq
    rw [hsc] at hq
    rw [List.eq_of_mem_replicate hq]
  · rw [hsurv, List.length_replicate]
  · rw [Nat.ceil_eq_iff (by decide)]
    norm_num

/-- C12, as the code has it: in every scored population of at least 200 particles, whatever the
likelihoods, the last particle of the sorted order is flagged by the rank test and survives, so
that pruning leaves at least one survivor. -/
theorem prune_nonempty_of_large (P : List Particle) (hn : 200 ≤ P.length) :
    prune P ≠ [] ∧ 1 ≤ (prune P).length ∧
    ∃ p : Particle, P[P.length - 1]? = some p ∧ { p with keep := true } ∈ prune P := by
  obtain ⟨p, hp, hmem⟩ := prune_last_of_large P hn
  have hne : prune P ≠ [] := List.ne_nil_of_mem hmem
  exact ⟨hne, List.length_pos.mpr hne, p, hp, hmem⟩

theorem prune_nonempty_of_large_witness :
    200 ≤ (List.replicate 200 (still 1 1 (1 / 2))).length ∧
    prune (List.replicate 200 (still 1 1 (1 / 2))) ≠ [] :=
  ⟨by rw [List.length_replicate],
   (prune_nonempty_of_large (List.replicate 200 (still 1 1 (1 / 2)))
      (by rw [List.length_replicate])).1⟩

/-- C12 as the spec states it fails: three particles of likelihoods 0.1, 0.5 and 0.8 form a
non-empty sorted population without a particle above 0.9, and pruning removes all three. -/
theorem prune_collapses_small_population :
    [still 1 1 (1 / 10), still 2 2 (1 / 2), still 3 3 (4 / 5)] ≠ [] ∧
    List.Sorted (fun a b : Particle => a.like ≤ b.like)
      [still 1 1 (1 / 10), still 2 2 (1 / 2), still 3 3 (4 / 5)] ∧
    (∀ p ∈ [still 1 1 (1 / 10), still 2 2 (1 / 2), still 3 3 (4 / 5)], ¬ p.like > 9 / 10) ∧
    prune [still 1 1 (1 / 10), still 2 2 (1 / 2), still 3 3 (4 / 5)] = [] := by
  have hl : ∀ p ∈ [still 1 1 (1 / 10), still 2 2 (1 / 2), still 3 3 (4 / 5)],
      p.like ≤ thresh_like := by
    intro p hp
    simp only [List.mem_cons, List.mem_singleton, List.not_mem_nil, or_false] at hp
    rcases hp with rfl | rfl | rfl <;> norm_num [still, thresh_like]
  refine ⟨by simp, ?_, ?_, prune_nil_of_small _ (by simp) hl⟩
  · simp only [List.Sorted, List.pairwise_cons, List.mem_cons, List.mem_singleton,
      List.not_mem_nil, List.Pairwise.nil, and_true]
    norm_num [still]
  · intro p hp
    have := hl p hp
    rw [thresh_like] at this
    exact not_lt.mpr this

/-- C13, as the code has it: in a non-empty population of fewer than 100 particles the rank slice
`floor(size / 100)` is empty, so when no likelihood exceeds 0.9 no particle survives pruning. -/
theorem prune_none_below_hundred (P : List Particle) (hne : P ≠ []) (hn : P.length < 100)
    (hl : ∀ p ∈ P, p.like ≤ 9 / 10) :
    P.length / 100 = 0 ∧ prune P = [] ∧ (prune P).length = 0 := by
  have hp : prune P = [] := prune_nil_of_small P hn (by simpa [thresh_like] using hl)
  have h0 : 0 < P.length := List.length_pos.mpr hne
  exact ⟨by omega, hp, by rw [hp]; rfl⟩

theorem prune_none_below_hundred_witness :
    ([still 1 1 (1 / 2), still 2 2 (3 / 4)] ≠ [] ∧
      [still 1 1 (1 / 2), still 2 2 (3 / 4)].length < 100) ∧
    prune [still 1 1 (1 / 2), still 2 2 (3 / 4)] = [] :=
  ⟨⟨by simp, by simp⟩,
   (prune_none_below_hundred [still 1 1 (1 / 2), still 2 2 (3 / 4)] (by simp) (by simp)
      (by intro p hp
          simp only [List.mem_cons, List.mem_singleton, List.not_mem_nil, or_false] at hp
          rcases hp with rfl | rfl <;> norm_num [still])).2.1⟩

/-- C13 as the spec states it fails: for four particles all of likelihood 0.5 no likelihood
exceeds 0.9 and `ceil(4 * 1/100) = 1`, but pruning leaves no particle instead of one; with
the divisor 4 in place of 100 (keep fraction 0.25) the same loop also leaves no particle. -/
theorem prune_four_equal_leaves_none :
    List.replicate 4 (still 1 1 (1 / 2)) ≠ [] ∧
    (∀ p ∈ List.replicate 4 (still 1 1 (1 / 2)), ¬ p.like > 9 / 10) ∧
    ⌈((List.replicate 4 (still 1 1 (1 / 2))).length : ℚ) * (1 / 100)⌉₊ = 1 ∧
    prune (List.replicate 4 (still 1 1 (1 / 2))) = [] ∧
    (prune (List.replicate 4 (still 1 1 (1 / 2)))).length ≠ 1 ∧
    pruneWith (9 / 10) 4 (List.replicate 4 (still 1 1 (1 / 2))) = [] := by
  have hlike : (still 1 1 (1 / 2)).like ≤ thresh_like := by norm_num [still, thresh_like]
  have hp : prune (List.replicate 4 (still 1 1 (1 / 2))) = [] := by
    rw [prune_replicate_of_low 4 _ hlike]
    rfl
  have hk : ∀ i : Nat, keepTestWith (9 / 10) 4 4 i (still 1 1 (1 / 2)) = decide (i > 3) := by
    intro i
    simp only [keepTestWith, still]
    norm_num
  have hr : List.replicate 4 (still 1 1 (1 / 2))
      = [still 1 1 (1 / 2), still 1 1 (1 / 2), still 1 1 (1 / 2), still 1 1 (1 / 2)] := rfl
  refine ⟨?_, ?_, ?_, hp, ?_, ?_⟩
  · rw [hr]; simp
  · intro p hq
    rw [List.eq_of_mem_replicate hq]
    norm_num [still]
  · rw [List.length_replicate, Nat.ceil_eq_iff (by decide)]
    norm_num
  · rw [hp]; decide
  · rw [hr]
    simp only [pruneWith, markFromWith, List.length, hk]
    rfl

/-- C14: pruning leaves exactly the particles of the flagged population whose flag is set, in
their order and each once (a sub-list of the flagged population, which is the sorted population
with the flags updated); every particle left has its flag set and no unflagged particle remains.
The scored likelihoods 0.95, 0.2, 0.3, 0.1 leave exactly one particle, the one of likelihood
0.95, with the program's divisor 100 as well as with the divisor 4 (keep fraction 0.25). -/
theorem prune_is_flagged_sublist (P : List Particle) :
    prune P = (mark P).filter (fun p => p.keep) ∧
    List.Sublist (prune P) (mark P) ∧
    (mark P).length = P.length ∧
    (∀ (i : Nat) (p : Particle), P[i]? = some p →
      ∃ b : Bool, (mark P)[i]? = some { p with keep := b }) ∧
    (∀ q ∈ prune P, q.keep = true) ∧
    (∀ q ∈ mark P, q.keep = false → q ∉ prune P) ∧
    prune (sort [still 1 1 (19 / 20), still 2 2 (1 / 5), still 3 3 (3 / 10), still 4 4 (1 / 10)])
      = [⟨⟨1, 1⟩, ⟨0, 0⟩, 19 / 20, 0, true⟩] ∧
    pruneWith (9 / 10) 4
        (sort [still 1 1 (19 / 20), still 2 2 (1 / 5), still 3 3 (3 / 10), still 4 4 (1 / 10)])
      = [⟨⟨1, 1⟩, ⟨0, 0⟩, 19 / 20, 0, true⟩] := by
  have hf : prune P = (mark P).filter (fun p => p.keep) := eraseLoop_eq_filter _
  have hsort : sort [still 1 1 (19 / 20), still 2 2 (1 / 5), still 3 3 (3 / 10),
      still 4 4 (1 / 10)]
      = [still 4 4 (1 / 10), still 2 2 (1 / 5), still 3 3 (3 / 10), still 1 1 (19 / 20)] := by
    simp only [sort, List.insertionSort, List.orderedInsert, still]
    norm_num
  have k1 : ∀ i : Nat, i ≤ 3 → keepTest 4 i (still 4 4 (1 / 10)) = false := by
    intro i hi
    rw [keepTest_of_low _ _ _ (by norm_num [still, thresh_like])]
    simp; omega
  have k2 : ∀ i : Nat, i ≤ 3 → keepTest 4 i (still 2 2 (1 / 5)) = false := by
    intro i hi
    rw [keepTest_of_low _ _ _ (by norm_num [still, thresh_like])]
    simp; omega
  have k3 : ∀ i : Nat, i ≤ 3 → keepTest 4 i (still 3 3 (3 / 10)) = false := by
    intro i hi
    rw [keepTest_of_low _ _ _ (by norm_num [still, thresh_like])]
    simp; omega
  have k4 : ∀ i : Nat, keepTest 4 i (still 1 1 (19 / 20)) = true := by
    intro i
    simp only [keepTest, thresh_like, still, decide_eq_true_eq]
    left; norm_num
  have w1 : ∀ i : Nat, i ≤ 3 → keepTestWith (9 / 10) 4 4 i (still 4 4 (1 / 10)) = false := by
    intro i hi
    simp only [keepTestWith, still, decide_eq_false_iff_not, not_or, not_lt]
    exact ⟨by norm_num, by omega⟩
  have w2 : ∀ i : Nat, i ≤ 3 → keepTestWith (9 / 10) 4 4 i (still 2 2 (1 / 5)) = false := by
    intro i hi
    simp only [keepTestWith, still, decide_eq_false_iff_not, not_or, not_lt]
    exact ⟨by norm_num, by omega⟩
  have w3 : ∀ i : Nat, i ≤ 3 → keepTestWith (9 / 10) 4 4 i (still 3 3 (3 / 10)) = false := by
    intro i hi
    simp only [keepTestWith, still, decide_eq_false_iff_not, not_or, not_lt]
    exact ⟨by norm_num, by omega⟩
  have w4 : ∀ i : Nat, keepTestWith (9 / 10) 4 4 i (still 1 1 (19 / 20)) = true := by
    intro i
    simp only [keepTestWith, still, decide_eq_true_eq]
    left; norm_num
  refine ⟨hf, ?_, markFrom_length _ _ _, ?_, ?_, ?_, ?_, ?_⟩
  · rw [hf]; exact List.filter_sublist _
  · intro i p hp
    exact ⟨keepTest P.length (0 + i) p, markFrom_getElem? P.length P 0 i p hp⟩
  · intro q hq
    rw [hf] at hq
    simpa using (List.mem_filter.mp hq).2
  · intro q _ hk hq
    rw [hf] at hq
    have := (List.mem_filter.mp hq).2
    simp [hk] at this
  · rw [hsort]
    simp only [prune, mark, markFrom, List.length]
    rw [k1 0 (by omega), k2 (0 + 1) (by omega), k3 (0 + 1 + 1) (by omega), k4]
    rfl
  · rw [hsort]
    simp only [pruneWith, markFromWith, List.length]
    rw [w1 0 (by omega), w2 (0 + 1) (by omega), w3 (0 + 1 + 1) (by omega), w4]
    rfl

/-! ## Degenerate passes: zero total likelihood, no survivor -/

theorem reweight_none_of_sum_zero (S : List Particle) (hne : S ≠ []) (hs : l_sum S = 0) :
    reweight S = none := by
  cases S with
  | nil => exact absurd rfl hne
  | cons p ps =>
    rw [reweight, hs]
    simp [reweightLoop, divD]

theorem tick_none_of_sum_zero (E : Env) (f : Frame) (st : State)
    (hne : survivors f st.P ≠ []) (hs : l_sum (survivors f st.P) = 0) : tick E f st = none := by
  rw [tick, reweight_none_of_sum_zero _ hne hs]

theorem estimate_nil (c : Point2d) : estimate c [] = none := by
  simp [estimate, divD]

theorem tick_of_no_survivors (E : Env) (f : Frame) (st : State) (h : survivors f st.P = []) :
    tick E f st = some ⟨[], none, st.drawn⟩ := by
  have hr : reweight ([] : List Particle) = some [] := rfl
  have hs : resample E f [] st.drawn = some ([], st.drawn) := rfl
  have hc : st.center.bind (fun c => estimate c []) = none := by
    cases st.center with
    | none => rfl
    | some c => exact estimate_nil c
  simp only [tick, h, hr, hs, hc]

theorem survivors_nil (f : Frame) : survivors f [] = [] := rfl

theorem survivors_out_of_frame_pair :
    survivors (flatFrame 4 3) [still 9 9 1, still 9 9 1] = [] := by
  have hp : predictOne (still 9 9 1) = still 9 9 1 := by
    simp [predictOne, still, Point2d.add]
  have hs : scoreOne (flatFrame 4 3) (still 9 9 1) = still 9 9 0 := by
    rw [scoreOne, scoreRead_outside _ _ (by norm_num [still, flatFrame])]
    rfl
  have hr : [still 9 9 1, still 9 9 1] = List.replicate 2 (still 9 9 1) := rfl
  rw [hr, survivors, predict, List.map_replicate, hp, score, List.map_replicate, hs,
    sort_replicate, prune_replicate_of_low _ _ (by norm_num [still, thresh_like])]
  rfl

/-- C15, as the code has it: for a non-empty list of survivors whose likelihoods sum to zero
the division of line 110 is a division by zero, so that reweighting gives no survivor a finite
weight (in particular not the weight 0) and a pass that leaves such survivors has no defined
result. -/
theorem reweight_undefined_of_zero_sum (S : List Particle) (hne : S ≠ []) (hs : l_sum S = 0) :
    reweight S = none ∧
    reweight S ≠ some (S.map (fun p => { p with wgt := 0 })) ∧
    ∀ (E : Env) (f : Frame) (st : State), survivors f st.P = S → tick E f st = none := by
  have h := reweight_none_of_sum_zero S hne hs
  refine ⟨h, ?_, ?_⟩
  · rw [h]
    exact fun e => by cases e
  intro E f st hS
  exact tick_none_of_sum_zero E f st (by rw [hS]; exact hne) (by rw [hS]; exact hs)

theorem reweight_undefined_of_zero_sum_witness :
    ([still 5 5 0, still 6 6 0] ≠ [] ∧ l_sum [still 5 5 0, still 6 6 0] = 0) ∧
    reweight [still 5 5 0, still 6 6 0] = none :=
  ⟨⟨by simp, by simp [l_sum, still]⟩,
   (reweight_undefined_of_zero_sum [still 5 5 0, still 6 6 0] (by simp)
      (by simp [l_sum, still])).1⟩

/-- C15 as the spec states it fails.  First pass on a 640 by 480 frame with the 1000 initial
particles all at (0, 0): every particle fails the bounds test and is scored 0, the rank test
keeps 9 of them, their likelihoods sum to zero, and reweighting yields no weights (not the
weight 0 for every survivor); the pass has no defined result. -/
theorem tick_zero_sum_has_no_result :
    survivors (flatFrame 640 480) (List.replicate 1000 (still 0 0 1))
      = List.replicate 9 ⟨⟨0, 0⟩, ⟨0, 0⟩, 0, 0, true⟩ ∧
    l_sum (survivors (flatFrame 640 480) (List.replicate 1000 (still 0 0 1))) = 0 ∧
    reweight (survivors (flatFrame 640 480) (List.replicate 1000 (still 0 0 1)))
      ≠ some ((survivors (flatFrame 640 480) (List.replicate 1000 (still 0 0 1))).map
          (fun p => { p with wgt := 0 })) ∧
    tick unitEnv (flatFrame 640 480)
      ⟨List.replicate 1000 (still 0 0 1), some (center0 (flatFrame 640 480)), 0⟩ = none := by
  have hp : predictOne (still 0 0 1) = still 0 0 1 := by
    simp [predictOne, still, Point2d.add]
  have hsc : scoreOne (flatFrame 640 480) (still 0 0 1) = still 0 0 0 := by
    rw [scoreOne, scoreRead_outside _ _ (by norm_num [still, flatFrame])]
    rfl
  have hsurv : survivors (flatFrame 640 480) (List.replicate 1000 (still 0 0 1))
      = List.replicate 9 ⟨⟨0, 0⟩, ⟨0, 0⟩, 0, 0, true⟩ := by
    rw [survivors, predict, List.map_replicate, hp, score, List.map_replicate, hsc,
      sort_replicate, prune_replicate_of_low _ _ (by norm_num [still, thresh_like])]
    rfl
  have hne : List.replicate 9 (⟨⟨0, 0⟩, ⟨0, 0⟩, 0, 0, true⟩ : Particle) ≠ [] := by
    intro h
    have hl := congrArg List.length h
    rw [List.length_replicate, List.length_nil] at hl
    omega
  have hsum : l_sum (List.replicate 9 (⟨⟨0, 0⟩, ⟨0, 0⟩, 0, 0, true⟩ : Particle)) = 0 := by
    rw [l_sum_eq_sum, List.map_replicate, List.sum_replicate]
    norm_num
  have hnone := reweight_none_of_sum_zero _ hne hsum
  refine ⟨hsurv, ?_, ?_, ?_⟩
  · rw [hsurv, hsum]
  · rw [hsurv, hnone]
    exact fun e => by cases e
  · exact tick_none_of_sum_zero _ _ _ (by rw [hsurv]; exact hne) (by rw [hsurv]; exact hsum)

/-- C16, as the code has it: when pruning leaves no survivor the pass ends with an empty
population and line 144 multiplies `center` by `1.0 / 0`, so that `center` is no longer a finite
point; it is not the center of the previous pass. -/
theorem tick_center_lost_of_no_survivors (E : Env) (f : Frame) (st : State)
    (h : survivors f st.P = []) :
    ∃ st1 : State, tick E f st = some st1 ∧ st1.center = none ∧
      ∀ c : Point2d, st.center = some c → st1.center ≠ st.center := by
  refine ⟨⟨[], none, st.drawn⟩, tick_of_no_survivors E f st h, rfl, ?_⟩
  intro c hc
  rw [hc]
  exact fun e => by cases e

theorem tick_center_lost_of_no_survivors_witness :
    survivors (flatFrame 4 3) [still 9 9 1, still 9 9 1] = [] ∧
    ∃ st1 : State,
      tick unitEnv (flatFrame 4 3) ⟨[still 9 9 1, still 9 9 1], some ⟨2, 1⟩, 0⟩ = some st1 ∧
      st1.center = none := by
  obtain ⟨st1, h1, h2, -⟩ := tick_center_lost_of_no_survivors unitEnv (flatFrame 4 3)
    ⟨[still 9 9 1, still 9 9 1], some ⟨2, 1⟩, 0⟩ survivors_out_of_frame_pair
  exact ⟨survivors_out_of_frame_pair, st1, h1, h2⟩

/-- C16 as the spec states it fails: a pass on a 4 by 3 frame with two particles at (9, 9) and
`center` = (2, 1) leaves no survivor, and after the pass `center` is not (2, 1): it is no
longer a finite point. -/
theorem tick_center_not_kept :
    survivors (flatFrame 4 3) [still 9 9 1, still 9 9 1] = [] ∧
    tick unitEnv (flatFrame 4 3) ⟨[still 9 9 1, still 9 9 1], some ⟨2, 1⟩, 0⟩
      = some ⟨[], none, 0⟩ ∧
    (none : Option Point2d) ≠ some ⟨2, 1⟩ :=
  ⟨survivors_out_of_frame_pair,
   tick_of_no_survivors unitEnv (flatFrame 4 3) ⟨[still 9 9 1, still 9 9 1], some ⟨2, 1⟩, 0⟩
     survivors_out_of_frame_pair,
   fun e => by cases e⟩

/-- C17, as the code has it: when pruning leaves no survivor nothing reseeds the population; the
pass ends with an empty population, the next pass starts from it and, whatever its frame, ends
with an empty population too, without a draw from the generator. -/
theorem tick_no_reseed_of_no_survivors (E : Env) (f : Frame) (st : State)
    (h : survivors f st.P = []) :
    ∃ st1 : State, tick E f st = some st1 ∧ st1.P = [] ∧ st1.drawn = st.drawn ∧
      ∀ f2 : Frame, ∃ st2 : State, tick E f2 st1 = some st2 ∧ st2.P = [] := by
  refine ⟨⟨[], none, st.drawn⟩, tick_of_no_survivors E f st h, rfl, rfl, ?_⟩
  intro f2
  exact ⟨⟨[], none, st.drawn⟩, tick_of_no_survivors E f2 ⟨[], none, st.drawn⟩ (survivors_nil f2), rfl⟩

theorem tick_no_reseed_of_no_survivors_witness :
    survivors (flatFrame 4 3) [still 9 9 1, still 9 9 1] = [] ∧
    ∃ st1 : State,
      tick unitEnv (flatFrame 4 3) ⟨[still 9 9 1, still 9 9 1], some ⟨2, 1⟩, 0⟩ = some st1 ∧
      st1.P = [] := by
  obtain ⟨st1, h1, h2, -, -⟩ := tick_no_reseed_of_no_survivors unitEnv (flatFrame 4 3)
    ⟨[still 9 9 1, still 9 9 1], some ⟨2, 1⟩, 0⟩ survivors_out_of_frame_pair
  exact ⟨survivors_out_of_frame_pair, st1, h1, h2⟩

/-- C17 as the spec states it fails: a pass on a 4 by 3 frame with two particles at (9, 9)
leaves no survivor, and the population after the pass, from which the next pass starts, is
empty: it does not hold `num` = 1000 particles. -/
theorem tick_population_not_reseeded :
    survivors (flatFrame 4 3) [still 9 9 1, still 9 9 1] = [] ∧
    tick unitEnv (flatFrame 4 3) ⟨[still 9 9 1, still 9 9 1], some ⟨2, 1⟩, 0⟩
      = some ⟨[], none, 0⟩ ∧
    ([] : List Particle).length ≠ num :=
  ⟨survivors_out_of_frame_pair,
   tick_of_no_survivors unitEnv (flatFrame 4 3) ⟨[still 9 9 1, still 9 9 1], some ⟨2, 1⟩, 0⟩
     survivors_out_of_frame_pair,
   by simp [num]⟩

/-! ## Resampling: exact fill, children, order -/

theorem floor_sum_of_integral (m : ℚ) (P : List Particle)
    (hint : ∀ p ∈ P, ∃ z : Int, p.wgt * m = (z : ℚ)) :
    (((P.map (fun s => ⌊s.wgt * m⌋)).sum : Int) : ℚ) = (P.map (fun s => s.wgt)).sum * m := by
  induction P with
  | nil => simp
  | cons p ps ih =>
    obtain ⟨z, hz⟩ := hint p (List.mem_cons_self _ _)
    have hf : ((⌊p.wgt * m⌋ : Int) : ℚ) = p.wgt * m := by
      rw [hz, Int.floor_intCast]
    simp only [List.map_cons, List.sum_cons, Int.cast_add, hf,
      ih (fun q hq => hint q (List.mem_cons_of_mem _ hq))]
    ring

theorem num_newWith_example_first : num_newWith 12 (4 / 5) 2 = some 8 := by
  have h : ((4 / 5 : ℚ) * (((((12 : Nat) : Int) - ((2 : Nat) : Int)) % 2 ^ 64 : Int) : ℚ))
      = ((8 : Int) : ℚ) := by norm_num
  rw [num_newWith, h]
  simp only [toInt, Int.floor_intCast]
  norm_num

theorem num_newWith_example_second : num_newWith 12 (1 / 5) 2 = some 2 := by
  have h : ((1 / 5 : ℚ) * (((((12 : Nat) : Int) - ((2 : Nat) : Int)) % 2 ^ 64 : Int) : ℚ))
      = ((2 : Int) : ℚ) := by norm_num
  rw [num_newWith, h]
  simp only [toInt, Int.floor_intCast]
  norm_num

theorem resample_exact_of_integral (E : Env) (f : Frame) (P : List Particle) (t : Nat)
    (hk : P.length ≤ num) (hw : ∀ p ∈ P, 0 ≤ p.wgt ∧ p.wgt ≤ 1)
    (hsum : (P.map (fun s => s.wgt)).sum = 1)
    (hint : ∀ p ∈ P, ∃ z : Int, p.wgt * ((num - P.length : Nat) : ℚ) = (z : ℚ)) :
    ∃ Pnew : List Particle, resample E f P t = some (P ++ Pnew, t + Pnew.length) ∧
      Pnew.length = num - P.length ∧ (P ++ Pnew).length = num := by
  obtain ⟨Pnew, hr, hcount⟩ := resample_some_of_weights E f P t hk hw
  have hq : ((Pnew.length : Int) : ℚ) = ((num - P.length : Nat) : ℚ) := by
    rw [hcount, floor_sum_of_integral _ P hint, hsum, one_mul]
  have hn : Pnew.length = num - P.length := by exact_mod_cast hq
  refine ⟨Pnew, hr, hn, ?_⟩
  rw [List.length_append, hn]
  omega

theorem resampleWith_pair (N : Nat) (E : Env) (f : Frame) (t : Nat) (s1 s2 : Particle)
    (n1 n2 : Nat) (h1 : num_newWith N s1.wgt 2 = some (n1 : Int))
    (h2 : num_newWith N s2.wgt 2 = some (n2 : Int)) :
    resampleWith N E f [s1, s2] t
      = some ([s1, s2] ++ (spawn E f s1 t n1 ++ spawn E f s2 (t + n1) n2), t + (n1 + n2)) := by
  have hlen : [s1, s2].length = 2 := rfl
  simp only [resampleWith, hlen, resampleLoopWith, h1, h2, Int.toNat_ofNat, List.append_nil,
    add_assoc]

/-- C18: for `k ≤ num` survivors with weights in [0, 1] that sum to 1 and products
`weight * (num - k)` that are all integers, resampling appends exactly `num - k` particles and
the population after it has exactly `num` particles.  With the target size 12 in place of `num`,
two survivors of weights 0.8 and 0.2 (so that 10 particles are missing) get 8 and 2 children,
10 in total, and the population has 12 particles. -/
theorem resample_fills_target :
    (∀ (E : Env) (f : Frame) (P : List Particle) (t : Nat),
      P.length ≤ num → (∀ p ∈ P, 0 ≤ p.wgt ∧ p.wgt ≤ 1) →
      (P.map (fun s => s.wgt)).sum = 1 →
      (∀ p ∈ P, ∃ z : Int, p.wgt * ((num - P.length : Nat) : ℚ) = (z : ℚ)) →
      ∃ Pnew : List Particle, resample E f P t = some (P ++ Pnew, t + Pnew.length) ∧
        Pnew.length = num - P.length ∧ (P ++ Pnew).length = num) ∧
    (∀ (E : Env) (f : Frame) (t : Nat) (a b : Point2d),
      ∃ b1 b2 : List Particle,
        resampleWith 12 E f [⟨a, ⟨0, 0⟩, 4 / 5, 4 / 5, true⟩, ⟨b, ⟨0, 0⟩, 1 / 5, 1 / 5, true⟩] t
          = some ([⟨a, ⟨0, 0⟩, 4 / 5, 4 / 5, true⟩, ⟨b, ⟨0, 0⟩, 1 / 5, 1 / 5, true⟩] ++ (b1 ++ b2),
                  t + 10) ∧
        b1.length = 8 ∧ b2.length = 2 ∧
        (∀ c ∈ b1, ∃ d : Draw, c = child E f d ⟨a, ⟨0, 0⟩, 4 / 5, 4 / 5, true⟩) ∧
        (∀ c ∈ b2, ∃ d : Draw, c = child E f d ⟨b, ⟨0, 0⟩, 1 / 5, 1 / 5, true⟩)) := by
  refine ⟨fun E f P t hk hw hsum hint => resample_exact_of_integral E f P t hk hw hsum hint, ?_⟩
  intro E f t a b
  refine ⟨spawn E f ⟨a, ⟨0, 0⟩, 4 / 5, 4 / 5, true⟩ t 8,
    spawn E f ⟨b, ⟨0, 0⟩, 1 / 5, 1 / 5, true⟩ (t + 8) 2, ?_, spawn_length _ _ _ _ _,
    spawn_length _ _ _ _ _, spawn_mem _ _ _ _ _, spawn_mem _ _ _ _ _⟩
  exact resampleWith_pair 12 E f t ⟨a, ⟨0, 0⟩, 4 / 5, 4 / 5, true⟩ ⟨b, ⟨0, 0⟩, 1 / 5, 1 / 5, true⟩
    8 2 num_newWith_example_first num_newWith_example_second

theorem resample_fills_target_witness :
    ([(⟨⟨1, 1⟩, ⟨0, 0⟩, 1, 1 / 2, true⟩ : Particle), ⟨⟨2, 2⟩, ⟨0, 0⟩, 1, 1 / 2, true⟩].length ≤ num ∧
      (([(⟨⟨1, 1⟩, ⟨0, 0⟩, 1, 1 / 2, true⟩ : Particle), ⟨⟨2, 2⟩, ⟨0, 0⟩, 1, 1 / 2, true⟩]).map
        (fun s => s.wgt)).sum = 1) ∧
    ∃ Pnew : List Particle,
      resample unitEnv (flatFrame 4 3)
          [⟨⟨1, 1⟩, ⟨0, 0⟩, 1, 1 / 2, true⟩, ⟨⟨2, 2⟩, ⟨0, 0⟩, 1, 1 / 2, true⟩] 0
        = some ([⟨⟨1, 1⟩, ⟨0, 0⟩, 1, 1 / 2, true⟩, ⟨⟨2, 2⟩, ⟨0, 0⟩, 1, 1 / 2, true⟩] ++ Pnew,
                0 + Pnew.length) ∧
      Pnew.length = 998 := by
  have hk : [(⟨⟨1, 1⟩, ⟨0, 0⟩, 1, 1 / 2, true⟩ : Particle),
      ⟨⟨2, 2⟩, ⟨0, 0⟩, 1, 1 / 2, true⟩].length ≤ num := by simp [num]
  have hsum : (([(⟨⟨1, 1⟩, ⟨0, 0⟩, 1, 1 / 2, true⟩ : Particle),
      ⟨⟨2, 2⟩, ⟨0, 0⟩, 1, 1 / 2, true⟩]).map (fun s => s.wgt)).sum = 1 := by
    norm_num
  obtain ⟨Pnew, h1, h2, -⟩ := resample_fills_target.1 unitEnv (flatFrame 4 3)
    [⟨⟨1, 1⟩, ⟨0, 0⟩, 1, 1 / 2, true⟩, ⟨⟨2, 2⟩, ⟨0, 0⟩, 1, 1 / 2, true⟩] 0 hk
    (by intro p hp
        simp only [List.mem_cons, List.mem_singleton, List.not_mem_nil, or_false] at hp
        rcases hp with rfl | rfl <;> norm_num)
    hsum
    (by intro p hp
        simp only [List.mem_cons, List.mem_singleton, List.not_mem_nil, or_false] at hp
        refine ⟨499, ?_⟩
        rcases hp with rfl | rfl <;> norm_num [num])
  exact ⟨⟨hk, hsum⟩, Pnew, h1, by rw [h2]; simp [num]⟩

theorem spawn_mem_index (E : Env) (f : Frame) (p : Particle) (t n : Nat) :
    ∀ c ∈ spawn E f p t n, ∃ j : Nat, t ≤ j ∧ j < t + n ∧ c = child E f (E.draw j) p := by
  induction n generalizing t with
  | zero => intro c hc; simp [spawn] at hc
  | succ n ih =>
    intro c hc
    simp only [spawn, List.mem_cons] at hc
    rcases hc with rfl | hc
    · exact ⟨t, le_refl _, by omega, rfl⟩
    · obtain ⟨j, h1, h2, h3⟩ := ih (t + 1) c hc
      exact ⟨j, by omega, by omega, h3⟩

/-- C19: the child made from a survivor `s` with a draw of noise `z` and angle `ang` has, for
the radius `r = z * (rows + cols) * (1 - s.like)`, the position
`s.pos + (r * cos ang, r * sin ang)`, the velocity `child position - s.pos`, and the likelihood
and weight of `s`; every particle made by the inner loop for `s` is such a child, for one of
the draws consumed by the loop. -/
theorem child_fields (E : Env) (f : Frame) (d : Draw) (s : Particle) :
    (child E f d s).pos
      = ⟨s.pos.x + (d.z * ((f.rows + f.cols : Int) : ℚ) * (1 - s.like)) * E.cos d.ang,
         s.pos.y + (d.z * ((f.rows + f.cols : Int) : ℚ) * (1 - s.like)) * E.sin d.ang⟩ ∧
    (child E f d s).vel
      = ⟨(child E f d s).pos.x - s.pos.x, (child E f d s).pos.y - s.pos.y⟩ ∧
    (child E f d s).like = s.like ∧ (child E f d s).wgt = s.wgt ∧
    ∀ (t n : Nat), ∀ c ∈ spawn E f s t n,
      ∃ j : Nat, t ≤ j ∧ j < t + n ∧ c = child E f (E.draw j) s := by
  refine ⟨?_, rfl, rfl, rfl, fun t n => spawn_mem_index E f s t n⟩
  simp only [child, Point2d.mk.injEq]
  constructor <;> ring

theorem child_fields_witness :
    (child unitEnv (flatFrame 4 3) ⟨1 / 10, 0⟩ (still 1 1 (1 / 2))) ∈
      spawn unitEnv (flatFrame 4 3) (still 1 1 (1 / 2)) 0 1 ∧
    ∃ j : Nat, 0 ≤ j ∧ j < 0 + 1 ∧
      child unitEnv (flatFrame 4 3) ⟨1 / 10, 0⟩ (still 1 1 (1 / 2))
        = child unitEnv (flatFrame 4 3) (unitEnv.draw j) (still 1 1 (1 / 2)) :=
  ⟨by simp [spawn, unitEnv],
   (child_fields unitEnv (flatFrame 4 3) ⟨1 / 10, 0⟩ (still 1 1 (1 / 2))).2.2.2.2 0 1 _
     (by simp [spawn, unitEnv])⟩

theorem resampleLoop_mem (E : Env) (f : Frame) (k : Nat) (P : List Particle) (t : Nat)
    (Pnew : List Particle) (t1 : Nat) (h : resampleLoop E f k P t = some (Pnew, t1)) :
    ∀ c ∈ Pnew, ∃ s ∈ P, ∃ d : Draw, c = child E f d s := by
  induction P generalizing t Pnew t1 with
  | nil =>
    simp only [resampleLoop, Option.some.injEq, Prod.mk.injEq] at h
    intro c hc
    rw [← h.1] at hc
    simp at hc
  | cons p ps ih =>
    simp only [resampleLoop] at h
    cases hn : num_new p.wgt k with
    | none => simp [hn] at h
    | some n =>
      simp only [hn] at h
      cases hrest : resampleLoop E f k ps (t + n.toNat) with
      | none => simp [hrest] at h
      | some r =>
        obtain ⟨rest, t2⟩ := r
        simp only [hrest, Option.some.injEq, Prod.mk.injEq] at h
        intro c hc
        rw [← h.1, List.mem_append] at hc
        rcases hc with hc | hc
        · obtain ⟨d, hd⟩ := spawn_mem E f p t n.toNat c hc
          exact ⟨p, List.mem_cons_self _ _, d, hd⟩
        · obtain ⟨s, hs, d, hd⟩ := ih (t + n.toNat) rest t2 hrest c hc
          exact ⟨s, List.mem_cons_of_mem _ hs, d, hd⟩

/-- C20: whenever resampling yields a population, it is the list of survivors itself, unchanged
and in the same order, followed by the new particles, each of which is the child of one of the
survivors; and for `k ≤ num` survivors with weights in [0, 1] resampling does yield a
population. -/
theorem resample_appends_children (E : Env) (f : Frame) (P : List Particle) (t : Nat) :
    (∀ (R : List Particle) (t1 : Nat), resample E f P t = some (R, t1) →
      ∃ Pnew : List Particle, R = P ++ Pnew ∧
        ∀ c ∈ Pnew, ∃ s ∈ P, ∃ d : Draw, c = child E f d s) ∧
    (P.length ≤ num → (∀ p ∈ P, 0 ≤ p.wgt ∧ p.wgt ≤ 1) →
      ∃ (Pnew : List Particle) (t1 : Nat), resample E f P t = some (P ++ Pnew, t1) ∧
        ∀ c ∈ Pnew, ∃ s ∈ P, ∃ d : Draw, c = child E f d s) := by
  have key : ∀ (R : List Particle) (t1 : Nat), resample E f P t = some (R, t1) →
      ∃ Pnew : List Particle, R = P ++ Pnew ∧
        ∀ c ∈ Pnew, ∃ s ∈ P, ∃ d : Draw, c = child E f d s := by
    intro R t1 h
    simp only [resample] at h
    cases hl : resampleLoop E f P.length P t with
    | none => simp [hl] at h
    | some r =>
      obtain ⟨Pnew, t2⟩ := r
      simp only [hl, Option.some.injEq, Prod.mk.injEq] at h
      exact ⟨Pnew, h.1.symm, resampleLoop_mem E f P.length P t Pnew t2 hl⟩
  refine ⟨key, ?_⟩
  intro hk hw
  obtain ⟨Pnew, hr, -⟩ := resample_some_of_weights E f P t hk hw
  obtain ⟨Pnew2, he, hc⟩ := key _ _ hr
  have : Pnew = Pnew2 := List.append_cancel_left he
  subst this
  exact ⟨Pnew, _, hr, hc⟩

theorem resample_appends_children_witness :
    ([(⟨⟨1, 1⟩, ⟨0, 0⟩, 1, 1 / 2, true⟩ : Particle), ⟨⟨2, 2⟩, ⟨0, 0⟩, 1, 1 / 2, true⟩].length ≤ num) ∧
    ∃ (Pnew : List Particle) (t1 : Nat),
      resample unitEnv (flatFrame 4 3)
          [⟨⟨1, 1⟩, ⟨0, 0⟩, 1, 1 / 2, true⟩, ⟨⟨2, 2⟩, ⟨0, 0⟩, 1, 1 / 2, true⟩] 0
        = some ([⟨⟨1, 1⟩, ⟨0, 0⟩, 1, 1 / 2, true⟩, ⟨⟨2, 2⟩, ⟨0, 0⟩, 1, 1 / 2, true⟩] ++ Pnew, t1) := by
  have hk : [(⟨⟨1, 1⟩, ⟨0, 0⟩, 1, 1 / 2, true⟩ : Particle),
      ⟨⟨2, 2⟩, ⟨0, 0⟩, 1, 1 / 2, true⟩].length ≤ num := by simp [num]
  obtain ⟨Pnew, t1, h1, -⟩ := (resample_appends_children unitEnv (flatFrame 4 3)
    [⟨⟨1, 1⟩, ⟨0, 0⟩, 1, 1 / 2, true⟩, ⟨⟨2, 2⟩, ⟨0, 0⟩, 1, 1 / 2, true⟩] 0).2 hk
    (by intro p hp
        simp only [List.mem_cons, List.mem_singleton, List.not_mem_nil, or_false] at hp
        rcases hp with rfl | rfl <;> norm_num)
  exact ⟨hk, Pnew, t1, h1⟩

/-! ## Initialisation -/

theorem rngUniform_range (r : Nat) (b : Int) (h0 : 0 < b) (h1 : b < 2 ^ 31) :
    0 ≤ rngUniform r 0 b ∧ rngUniform r 0 b < b := by
  have hb : (0 : Int) ≠ b := by omega
  have hd : (b - 0) % 2 ^ 32 = b := by
    rw [sub_zero]
    exact Int.emod_eq_of_lt (by omega) (by omega)
  have hv0 : 0 ≤ ((r : Int) % 2 ^ 32) % b := Int.emod_nonneg _ (by omega)
  have hv1 : ((r : Int) % 2 ^ 32) % b < b := Int.emod_lt_of_pos _ h0
  have hs : (((r : Int) % 2 ^ 32) % b + 0) % 2 ^ 32 = ((r : Int) % 2 ^ 32) % b := by
    rw [add_zero]
    exact Int.emod_eq_of_lt hv0 (by omega)
  simp only [rngUniform, if_neg hb, hd, hs]
  rw [if_pos (by omega)]
  exact ⟨hv0, hv1⟩

theorem initLoop_length (f : Frame) (raw : Nat → Nat × Nat) (i n : Nat) :
    (initLoop f raw i n).length = n := by
  induction n generalizing i with
  | zero => rfl
  | succ n ih => simp [initLoop, ih]

theorem initLoop_mem (f : Frame) (raw : Nat → Nat × Nat) (i n : Nat) :
    ∀ p ∈ initLoop f raw i n, ∃ j : Nat, p = initParticle f (raw j).1 (raw j).2 := by
  induction n generalizing i with
  | zero => intro p hp; simp [initLoop] at hp
  | succ n ih =>
    intro p hp
    simp only [initLoop, List.mem_cons] at hp
    rcases hp with rfl | hp
    · exact ⟨i, rfl⟩
    · exact ih (i + 1) p hp

/-- C21: for a frame of width `cols > 0` and height `rows > 0` (both C `int`s, below `2 ^ 31`)
and every sequence of values of the generator, initialisation produces exactly `num` = 1000
particles, each with likelihood 1, weight 0, velocity (0, 0), flag unset and a position
`(x, y)` with `0 ≤ x < cols` and `0 ≤ y < rows`. -/
theorem initPopulation_spec (f : Frame) (raw : Nat → Nat × Nat)
    (hc : 0 < f.cols) (hr : 0 < f.rows) (hc2 : f.cols < 2 ^ 31) (hr2 : f.rows < 2 ^ 31) :
    (initPopulation f raw).length = 1000 ∧
    ∀ p ∈ initPopulation f raw,
      p.like = 1 ∧ p.wgt = 0 ∧ p.vel = ⟨0, 0⟩ ∧ p.keep = false ∧
      0 ≤ p.pos.x ∧ p.pos.x < (f.cols : ℚ) ∧ 0 ≤ p.pos.y ∧ p.pos.y < (f.rows : ℚ) := by
  refine ⟨initLoop_length f raw 0 num, ?_⟩
  intro p hp
  obtain ⟨j, rfl⟩ := initLoop_mem f raw 0 num p hp
  obtain ⟨hx0, hx1⟩ := rngUniform_range (raw j).1 f.cols hc hc2
  obtain ⟨hy0, hy1⟩ := rngUniform_range (raw j).2 f.rows hr hr2
  refine ⟨rfl, rfl, rfl, rfl, ?_, ?_, ?_, ?_⟩
  · simp only [initParticle]; exact_mod_cast hx0
  · simp only [initParticle]; exact_mod_cast hx1
  · simp only [initParticle]; exact_mod_cast hy0
  · simp only [initParticle]; exact_mod_cast hy1

theorem initPopulation_spec_witness :
    (0 < (flatFrame 640 480).cols ∧ (flatFrame 640 480).cols < 2 ^ 31) ∧
    (initPopulation (flatFrame 640 480) (fun i => (i, 2 * i + 1))).length = 1000 :=
  ⟨⟨by decide, by decide⟩,
   (initPopulation_spec (flatFrame 640 480) (fun i => (i, 2 * i + 1))
      (by decide) (by decide) (by decide) (by decide)).1⟩

/-! ## Ranking -/

/-- C22: the ranking step returns a permutation of the scored population, so that no particle is
lost or duplicated and the size is kept, in ascending order of likelihood: every particle has a
likelihood at most that of every later particle, in particular of the next one. -/
theorem sort_perm_ascending (P : List Particle) :
    List.Perm (sort P) P ∧ (sort P).length = P.length ∧
    List.Sorted (fun a b : Particle => a.like ≤ b.like) (sort P) ∧
    ∀ (i : Nat) (a b : Particle), (sort P)[i]? = some a → (sort P)[i + 1]? = some b →
      a.like ≤ b.like := by
  haveI : IsTotal Particle (fun a b : Particle => a.like ≤ b.like) :=
    ⟨fun a b => le_total a.like b.like⟩
  haveI : IsTrans Particle (fun a b : Particle => a.like ≤ b.like) :=
    ⟨fun a b c hab hbc => le_trans hab hbc⟩
  have hs : List.Sorted (fun a b : Particle => a.like ≤ b.like) (sort P) :=
    List.sorted_insertionSort _ P
  refine ⟨List.perm_insertionSort _ P, List.length_insertionSort _ P, hs, ?_⟩
  intro i a b ha hb
  have hp : List.Pairwise (fun a b : Particle => a.like ≤ b.like) (sort P) := hs
  rw [List.pairwise_iff_getElem] at hp
  obtain ⟨hi, rfl⟩ := List.getElem?_eq_some_iff.mp ha
  obtain ⟨hj, rfl⟩ := List.getElem?_eq_some_iff.mp hb
  exact hp i (i + 1) hi hj (by omega)

theorem sort_perm_ascending_witness :
    (sort [still 1 1 (1 / 2), still 2 2 (1 / 4)])[0]? = some (still 2 2 (1 / 4)) ∧
    (sort [still 1 1 (1 / 2), still 2 2 (1 / 4)])[0 + 1]? = some (still 1 1 (1 / 2)) ∧
    (still 2 2 (1 / 4)).like ≤ (still 1 1 (1 / 2)).like := by
  have hs : sort [still 1 1 (1 / 2), still 2 2 (1 / 4)]
      = [still 2 2 (1 / 4), still 1 1 (1 / 2)] := by
    simp only [sort, List.insertionSort, List.orderedInsert, still]
    norm_num
  have h0 : (sort [still 1 1 (1 / 2), still 2 2 (1 / 4)])[0]? = some (still 2 2 (1 / 4)) := by
    rw [hs]; rfl
  have h1 : (sort [still 1 1 (1 / 2), still 2 2 (1 / 4)])[0 + 1]? = some (still 1 1 (1 / 2)) := by
    rw [hs]; rfl
  exact ⟨h0, h1, (sort_perm_ascending [still 1 1 (1 / 2), still 2 2 (1 / 4)]).2.2.2 0 _ _ h0 h1⟩

/-! ## Centroid of a pass -/

theorem tick_center_eq (E : Env) (f : Frame) (st st1 : State) (h : tick E f st = some st1) :
    st1.center = st.center.bind (fun c => estimate c st1.P) := by
  simp only [tick] at h
  cases hr : reweight (survivors f st.P) with
  | none => simp [hr] at h
  | some W =>
    simp only [hr] at h
    cases hs : resample E f W st.drawn with
    | none => simp [hs] at h
    | some r =>
      obtain ⟨Pfin, t⟩ := r
      simp only [hs, Option.some.injEq] at h
      rw [← h]

theorem estimate_eq_mean_iff (P : List Particle) (c : Point2d) (hP : P ≠ []) :
    estimate c P = some (meanPos P) ↔ c = ⟨0, 0⟩ := by
  have hn : (P.length : ℚ) ≠ 0 := by
    have : P.length ≠ 0 := fun h => hP (List.length_eq_zero.mp h)
    exact_mod_cast this
  rw [estimate_eq P c hP, meanPos]
  simp only [Option.some.injEq, Point2d.mk.injEq]
  constructor
  · rintro ⟨hx, hy⟩
    have hx2 := (div_left_inj' hn).mp hx
    have hy2 := (div_left_inj' hn).mp hy
    cases c with
    | mk x y =>
      simp only at hx2 hy2
      have h1 : x = 0 := by linarith
      have h2 : y = 0 := by linarith
      rw [h1, h2]
  · intro hc
    rw [hc]
    simp

/-- C24: for a non-empty population `P` and a previous center `c`, lines 140-144 give the point
`(c + sum of the positions of P) / |P|`, which is the arithmetic mean of the positions exactly
when `c = (0, 0)`; and a pass that ends with a non-empty population `P` from a previous center
`c` ends with that point as its center. -/
theorem estimate_includes_previous_center :
    (∀ (P : List Particle) (c : Point2d), P ≠ [] →
      estimate c P
        = some ⟨(c.x + (P.map (fun p => p.pos.x)).sum) / (P.length : ℚ),
                (c.y + (P.map (fun p => p.pos.y)).sum) / (P.length : ℚ)⟩ ∧
      (estimate c P = some (meanPos P) ↔ c = ⟨0, 0⟩)) ∧
    (∀ (E : Env) (f : Frame) (st st1 : State) (c : Point2d),
      tick E f st = some st1 → st.center = some c → st1.P ≠ [] →
      st1.center
        = some ⟨(c.x + (st1.P.map (fun p => p.pos.x)).sum) / (st1.P.length : ℚ),
                (c.y + (st1.P.map (fun p => p.pos.y)).sum) / (st1.P.length : ℚ)⟩) := by
  refine ⟨fun P c hP => ⟨estimate_eq P c hP, estimate_eq_mean_iff P c hP⟩, ?_⟩
  intro E f st st1 c ht hc hP
  rw [tick_center_eq E f st st1 ht, hc]
  exact estimate_eq st1.P c hP

theorem estimate_includes_previous_center_witness :
    [still 10 20 1] ≠ [] ∧
    estimate ⟨2, 4⟩ [still 10 20 1] = some ⟨12, 24⟩ ∧
    estimate ⟨2, 4⟩ [still 10 20 1] ≠ some (meanPos [still 10 20 1]) := by
  have h := estimate_includes_previous_center.1 [still 10 20 1] ⟨2, 4⟩ (by simp)
  refine ⟨by simp, ?_, ?_⟩
  · rw [h.1]
    simp only [List.map_cons, List.map_nil, List.sum_cons, List.sum_nil, List.length_cons,
      List.length_nil, still]
    norm_num
  · intro he
    have hc := h.2.mp he
    simp only [Point2d.mk.injEq] at hc
    norm_num at hc

/-! ## The empty population -/

theorem ticks_of_empty (E : Env) (fs : List Frame) (st : State) (h : st.P = []) :
    ∃ st1 : State, ticks E fs st = some st1 ∧ st1.P = [] ∧ st1.drawn = st.drawn := by
  induction fs generalizing st with
  | nil => exact ⟨st, rfl, h, rfl⟩
  | cons f fs ih =>
    have hs : survivors f st.P = [] := by rw [h]; rfl
    obtain ⟨st2, h1, h2, h3⟩ := ih ⟨[], none, st.drawn⟩ rfl
    exact ⟨st2, by simp only [ticks, tick_of_no_survivors E f st hs, h1], h2, h3⟩

/-- C27: a pass started with an empty population ends with an empty population, whatever the
frame and the random source, and so does every sequence of passes; hence after a pass in which
pruning removed every particle, the population is empty after every later pass. -/
theorem empty_population_absorbing (E : Env) :
    (∀ (f : Frame) (st : State), st.P = [] →
      ∃ st1 : State, tick E f st = some st1 ∧ st1.P = []) ∧
    (∀ (fs : List Frame) (st : State), st.P = [] →
      ∃ st1 : State, ticks E fs st = some st1 ∧ st1.P = []) ∧
    (∀ (f : Frame) (fs : List Frame) (st : State), survivors f st.P = [] →
      ∃ st1 : State, ticks E (f :: fs) st = some st1 ∧ st1.P = []) := by
  refine ⟨?_, ?_, ?_⟩
  · intro f st h
    have hs : survivors f st.P = [] := by rw [h]; rfl
    exact ⟨_, tick_of_no_survivors E f st hs, rfl⟩
  · intro fs st h
    obtain ⟨st1, h1, h2, -⟩ := ticks_of_empty E fs st h
    exact ⟨st1, h1, h2⟩
  · intro f fs st hs
    obtain ⟨st1, h1, h2, -⟩ := ticks_of_empty E fs ⟨[], none, st.drawn⟩ rfl
    exact ⟨st1, by simp only [ticks, tick_of_no_survivors E f st hs, h1], h2⟩

theorem empty_population_absorbing_witness :
    (⟨[], some ⟨2, 1⟩, 0⟩ : State).P = [] ∧
    ∃ st1 : State,
      ticks unitEnv [flatFrame 4 3, dullFrame 4 3] ⟨[], some ⟨2, 1⟩, 0⟩ = some st1 ∧ st1.P = [] :=
  ⟨rfl, (empty_population_absorbing unitEnv).2.1 [flatFrame 4 3, dullFrame 4 3]
    ⟨[], some ⟨2, 1⟩, 0⟩ rfl⟩

/-! ## Likelihood values 0 and 1; the pixel read -/

theorem likeOf_lower (h s : Fin 256) :
    1 - (4 / 5 * (185 : ℚ) / 180 + 1 / 5 * (200 : ℚ) / 255) ≤ likeOf h s := by
  have hh : (((70 : Int) - (h.val : Int)).natAbs : ℚ) ≤ 185 := by
    have : ((70 : Int) - (h.val : Int)).natAbs ≤ 185 := by have := h.isLt; omega
    exact_mod_cast this
  have hs : (((200 : Int) - (s.val : Int)).natAbs : ℚ) ≤ 200 := by
    have : ((200 : Int) - (s.val : Int)).natAbs ≤ 200 := by have := s.isLt; omega
    exact_mod_cast this
  simp only [likeOf]
  linarith

theorem likeOf_pos (h s : Fin 256) : 0 < likeOf h s :=
  lt_of_lt_of_le (by norm_num) (likeOf_lower h s)

theorem likeOf_eq_one_iff (h s : Fin 256) : likeOf h s = 1 ↔ h = 70 ∧ s = 200 := by
  constructor
  · intro he
    have ha : (0 : ℚ) ≤ (((70 : Int) - (h.val : Int)).natAbs : ℚ) := Nat.cast_nonneg _
    have hb : (0 : ℚ) ≤ (((200 : Int) - (s.val : Int)).natAbs : ℚ) := Nat.cast_nonneg _
    simp only [likeOf] at he
    have ha0 : (((70 : Int) - (h.val : Int)).natAbs : ℚ) = 0 := by linarith
    have hb0 : (((200 : Int) - (s.val : Int)).natAbs : ℚ) = 0 := by linarith
    have ha1 : ((70 : Int) - (h.val : Int)).natAbs = 0 := by exact_mod_cast ha0
    have hb1 : ((200 : Int) - (s.val : Int)).natAbs = 0 := by exact_mod_cast hb0
    constructor
    · apply Fin.ext
      have : (70 : Fin 256).val = 70 := rfl
      omega
    · apply Fin.ext
      have : (200 : Fin 256).val = 200 := rfl
      omega
  · rintro ⟨rfl, rfl⟩
    exact likeOf_match

/-- C28: a particle that passes the bounds test gets a likelihood that is strictly positive, at
least `1 - (0.8 * 185/180 + 0.2 * 200/255)`, whatever the hue and saturation read; hence after
the likelihood update a particle has likelihood 0 exactly when it failed the bounds test, and
likelihood 1 exactly when it passed the test and read hue 70 and saturation 200. -/
theorem score_like_zero_and_one (f : Frame) (p : Particle) :
    ((0 < p.pos.x ∧ p.pos.x < (f.cols : ℚ) ∧ 0 < p.pos.y ∧ p.pos.y < (f.rows : ℚ)) →
      0 < (scoreOne f p).like ∧
      1 - (4 / 5 * (185 : ℚ) / 180 + 1 / 5 * (200 : ℚ) / 255) ≤ (scoreOne f p).like) ∧
    ((scoreOne f p).like = 0 ↔
      ¬ (0 < p.pos.x ∧ p.pos.x < (f.cols : ℚ) ∧ 0 < p.pos.y ∧ p.pos.y < (f.rows : ℚ))) ∧
    ((scoreOne f p).like = 1 ↔
      (0 < p.pos.x ∧ p.pos.x < (f.cols : ℚ) ∧ 0 < p.pos.y ∧ p.pos.y < (f.rows : ℚ)) ∧
      f.hue (cvRound p.pos.x) (cvRound p.pos.y) = 70 ∧
      f.sat (cvRound p.pos.x) (cvRound p.pos.y) = 200) := by
  by_cases hin : 0 < p.pos.x ∧ p.pos.x < (f.cols : ℚ) ∧ 0 < p.pos.y ∧ p.pos.y < (f.rows : ℚ)
  · have hl : (scoreOne f p).like = likeOf (f.hue (cvRound p.pos.x) (cvRound p.pos.y))
        (f.sat (cvRound p.pos.x) (cvRound p.pos.y)) := by
      rw [scoreOne, scoreRead_inside f p hin]
    refine ⟨fun _ => ?_, ?_, ?_⟩
    · rw [hl]; exact ⟨likeOf_pos _ _, likeOf_lower _ _⟩
    · rw [hl]
      constructor
      · intro h0
        exact absurd h0 (ne_of_gt (likeOf_pos _ _))
      · intro hn
        exact absurd hin hn
    · rw [hl, likeOf_eq_one_iff]
      exact ⟨fun h => ⟨hin, h⟩, fun h => h.2⟩
  · have hl : (scoreOne f p).like = 0 := by
      rw [scoreOne, scoreRead_outside f p hin]
    refine ⟨fun h => absurd h hin, ?_, ?_⟩
    · exact ⟨fun _ => hin, fun _ => hl⟩
    · rw [hl]
      constructor
      · intro h01
        norm_num at h01
      · intro h
        exact absurd h.1 hin

theorem score_like_zero_and_one_witness :
    (0 < (still 1 1 0).pos.x ∧ (still 1 1 0).pos.x < ((dullFrame 4 3).cols : ℚ) ∧
      0 < (still 1 1 0).pos.y ∧ (still 1 1 0).pos.y < ((dullFrame 4 3).rows : ℚ)) ∧
    0 < (scoreOne (dullFrame 4 3) (still 1 1 0)).like :=
  ⟨by simp [dullFrame, still],
   ((score_like_zero_and_one (dullFrame 4 3) (still 1 1 0)).1 (by simp [dullFrame, still])).1⟩

theorem cvRound_example : cvRound (3198 / 5) = 640 := by
  have hf : ⌊(3198 / 5 : ℚ)⌋ = 639 := by
    rw [Int.floor_eq_iff]
    norm_num
  simp only [cvRound, hf]
  norm_num

theorem cvRound_hundred : cvRound 100 = 100 := by
  have h := cvRound_intCast 100
  simpa using h

/-- C29 fails on the code: in a 640 by 480 frame a particle at (639.6, 100) passes the bounds
test `0 < x < 640`, `0 < y < 480`, and the pixel read for it is (640, 100), the position rounded
to the nearest integers, whose column 640 is not a column of the frame (0..639). -/
theorem score_reads_outside_frame :
    (0 < (still (3198 / 5) 100 1).pos.x ∧
      (still (3198 / 5) 100 1).pos.x < ((flatFrame 640 480).cols : ℚ) ∧
      0 < (still (3198 / 5) 100 1).pos.y ∧
      (still (3198 / 5) 100 1).pos.y < ((flatFrame 640 480).rows : ℚ)) ∧
    (scoreRead (flatFrame 640 480) (still (3198 / 5) 100 1)).2 = [(640, 100)] ∧
    ¬ (flatFrame 640 480).validPixel (640, 100) ∧
    ¬ cvRound (still (3198 / 5) 100 1).pos.x ≤ (flatFrame 640 480).cols - 1 := by
  have hin : 0 < (still (3198 / 5) 100 1).pos.x ∧
      (still (3198 / 5) 100 1).pos.x < ((flatFrame 640 480).cols : ℚ) ∧
      0 < (still (3198 / 5) 100 1).pos.y ∧
      (still (3198 / 5) 100 1).pos.y < ((flatFrame 640 480).rows : ℚ) := by
    norm_num [still, flatFrame]
  have hx : cvRound (still (3198 / 5) 100 1).pos.x = 640 := cvRound_example
  have hy : cvRound (still (3198 / 5) 100 1).pos.y = 100 := cvRound_hundred
  refine ⟨hin, ?_, ?_, ?_⟩
  · rw [scoreRead_inside _ _ hin, hx, hy]
  · simp [Frame.validPixel, flatFrame]
  · rw [hx]
    simp [flatFrame]

/-! ## Scatter of the children -/

theorem child_sqDist (E : Env) (f : Frame) (d : Draw) (s : Particle)
    (hcs : E.cos d.ang ^ 2 + E.sin d.ang ^ 2 = 1) :
    sqDist (child E f d s).pos s.pos
      = (|d.z * ((f.rows + f.cols : Int) : ℚ)| * (1 - s.like)) ^ 2 := by
  have h : sqDist (child E f d s).pos s.pos
      = (d.z * ((f.rows + f.cols : Int) : ℚ) * (1 - s.like)) ^ 2
          * (E.cos d.ang ^ 2 + E.sin d.ang ^ 2) := by
    simp only [sqDist, child]
    ring
  rw [h, hcs, mul_one, mul_pow (|d.z * ((f.rows + f.cols : Int) : ℚ)|), sq_abs]
  ring

/-- C23: when `cos` and `sin` of the angle satisfy `cos² + sin² = 1` and the survivor's
likelihood `L` is at most 1, the Euclidean distance between a child and its survivor is
`|g| * (1 - L)`, where `g = z * (rows + cols)` is the noise value; for the same draw a survivor
of higher likelihood has its child no farther away; and a survivor of likelihood exactly 1 has
its children at exactly its own position, with velocity (0, 0). -/
theorem child_scatter_radius (E : Env) (f : Frame) (d : Draw) (s : Particle) :
    (E.cos d.ang ^ 2 + E.sin d.ang ^ 2 = 1 → s.like ≤ 1 →
      sqDist (child E f d s).pos s.pos
        = (|d.z * ((f.rows + f.cols : Int) : ℚ)| * (1 - s.like)) ^ 2 ∧
      Real.sqrt ((sqDist (child E f d s).pos s.pos : ℚ) : ℝ)
        = ((|d.z * ((f.rows + f.cols : Int) : ℚ)| * (1 - s.like) : ℚ) : ℝ) ∧
      ∀ s2 : Particle, s.like ≤ s2.like → s2.like ≤ 1 →
        sqDist (child E f d s2).pos s2.pos ≤ sqDist (child E f d s).pos s.pos ∧
        |d.z * ((f.rows + f.cols : Int) : ℚ)| * (1 - s2.like)
          ≤ |d.z * ((f.rows + f.cols : Int) : ℚ)| * (1 - s.like)) ∧
    (s.like = 1 → (child E f d s).pos = s.pos ∧ (child E f d s).vel = ⟨0, 0⟩) := by
  constructor
  · intro hcs hL
    have hg : 0 ≤ |d.z * ((f.rows + f.cols : Int) : ℚ)| := abs_nonneg _
    have hr : 0 ≤ |d.z * ((f.rows + f.cols : Int) : ℚ)| * (1 - s.like) :=
      mul_nonneg hg (by linarith)
    refine ⟨child_sqDist E f d s hcs, ?_, ?_⟩
    · rw [child_sqDist E f d s hcs]
      push_cast
      rw [Real.sqrt_sq]
      have : ((|d.z * ((f.rows + f.cols : Int) : ℚ)| * (1 - s.like) : ℚ) : ℝ) ≥ 0 := by
        exact_mod_cast hr
      push_cast at this
      exact this
    · intro s2 h12 h2
      have hr2 : 0 ≤ |d.z * ((f.rows + f.cols : Int) : ℚ)| * (1 - s2.like) :=
        mul_nonneg hg (by linarith)
      have hle : |d.z * ((f.rows + f.cols : Int) : ℚ)| * (1 - s2.like)
          ≤ |d.z * ((f.rows + f.cols : Int) : ℚ)| * (1 - s.like) :=
        mul_le_mul_of_nonneg_left (by linarith) hg
      refine ⟨?_, hle⟩
      rw [child_sqDist E f d s hcs, child_sqDist E f d s2 hcs]
      exact pow_le_pow_left₀ hr2 hle 2
  · intro h1
    cases s with
    | mk pos vel like wgt keep =>
      cases pos with
      | mk x y =>
        simp only at h1
        subst h1
        simp [child, Point2d.sub]

theorem child_scatter_radius_witness :
    (unitEnv.cos (⟨1 / 10, 0⟩ : Draw).ang ^ 2 + unitEnv.sin (⟨1 / 10, 0⟩ : Draw).ang ^ 2 = 1 ∧
      (still 1 1 (1 / 2)).like ≤ 1) ∧
    sqDist (child unitEnv (flatFrame 4 3) ⟨1 / 10, 0⟩ (still 1 1 (1 / 2))).pos (still 1 1 (1 / 2)).pos
      = (|(⟨1 / 10, 0⟩ : Draw).z * (((flatFrame 4 3).rows + (flatFrame 4 3).cols : Int) : ℚ)|
          * (1 - (still 1 1 (1 / 2)).like)) ^ 2 := by
  have h1 : unitEnv.cos (⟨1 / 10, 0⟩ : Draw).ang ^ 2 + unitEnv.sin (⟨1 / 10, 0⟩ : Draw).ang ^ 2
      = 1 := by norm_num [unitEnv]
  have h2 : (still 1 1 (1 / 2)).like ≤ 1 := by norm_num [still]
  exact ⟨⟨h1, h2⟩,
    ((child_scatter_radius unitEnv (flatFrame 4 3) ⟨1 / 10, 0⟩ (still 1 1 (1 / 2))).1 h1 h2).1⟩

/-! ## Number and place of the survivors in a sorted population -/

theorem sort_sorted (P : List Particle) :
    List.Sorted (fun a b : Particle => a.like ≤ b.like) (sort P) := by
  haveI : IsTotal Particle (fun a b : Particle => a.like ≤ b.like) :=
    ⟨fun a b => le_total a.like b.like⟩
  haveI : IsTrans Particle (fun a b : Particle => a.like ≤ b.like) :=
    ⟨fun a b c hab hbc => le_trans hab hbc⟩
  exact List.sorted_insertionSort _ P

theorem keepTest_mono (n i j : Nat) (p q : Particle) (h : keepTest n i p = true)
    (hl : p.like ≤ q.like) (hij : i ≤ j) : keepTest n j q = true := by
  simp only [keepTest, decide_eq_true_eq] at h ⊢
  rcases h with h | h
  · exact Or.inl (lt_of_lt_of_le h hl)
  · exact Or.inr (by omega)

theorem eraseLoop_markFrom_all (n : Nat) (P : List Particle) (i : Nat)
    (h : ∀ (j : Nat) (q : Particle), P[j]? = some q → keepTest n (i + j) q = true) :
    eraseLoop (markFrom n i P) = P.map (fun p => { p with keep := true }) := by
  induction P generalizing i with
  | nil => rfl
  | cons p ps ih =>
    have h0 : keepTest n i p = true := h 0 p (by simp)
    have hr : ∀ (j : Nat) (q : Particle), ps[j]? = some q → keepTest n (i + 1 + j) q = true := by
      intro j q hq
      have := h (j + 1) q (by simpa using hq)
      have e : i + 1 + j = i + (j + 1) := by omega
      rw [e]; exact this
    simp only [markFrom, eraseLoop, h0, if_true, List.map_cons, ih (i + 1) hr]

theorem eraseLoop_markFrom_suffix (n : Nat) (P : List Particle) (i : Nat)
    (hs : List.Sorted (fun a b : Particle => a.like ≤ b.like) P) :
    ∃ m : Nat, m ≤ P.length ∧
      eraseLoop (markFrom n i P) = (P.drop m).map (fun p => { p with keep := true }) := by
  induction P generalizing i with
  | nil => exact ⟨0, le_refl _, rfl⟩
  | cons p ps ih =>
    have hps : List.Sorted (fun a b : Particle => a.like ≤ b.like) ps := hs.of_cons
    have hle : ∀ q ∈ ps, p.like ≤ q.like := List.rel_of_sorted_cons hs
    by_cases hk : keepTest n i p = true
    · refine ⟨0, Nat.zero_le _, ?_⟩
      rw [List.drop_zero]
      apply eraseLoop_markFrom_all
      intro j q hq
      cases j with
      | zero =>
        simp only [List.getElem?_cons_zero, Option.some.injEq] at hq
        rw [← hq]; exact hk
      | succ j =>
        simp only [List.getElem?_cons_succ] at hq
        exact keepTest_mono n i _ p q hk (hle q (List.getElem?_mem hq)) (by omega)
    · obtain ⟨m, hm, he⟩ := ih (i + 1) hps
      refine ⟨m + 1, by simp only [List.length_cons]; omega, ?_⟩
      have hk2 : keepTest n i p = false := by simpa using hk
      simp only [markFrom, eraseLoop, hk2, List.drop_succ_cons]
      simpa using he

theorem eraseLoop_markFrom_count (n : Nat) (P : List Particle) (i : Nat)
    (hs : List.Sorted (fun a b : Particle => a.like ≤ b.like) P) (hi : i + P.length = n) :
    (eraseLoop (markFrom n i P)).length
      = max (P.countP (fun p => decide (p.like > thresh_like))) (min P.length (n / 100 - 1)) := by
  induction P generalizing i with
  | nil => simp [markFrom, eraseLoop]
  | cons p ps ih =>
    have hps : List.Sorted (fun a b : Particle => a.like ≤ b.like) ps := hs.of_cons
    have hle : ∀ q ∈ ps, p.like ≤ q.like := List.rel_of_sorted_cons hs
    simp only [List.length_cons] at hi
    have IH := ih (i + 1) hps (by omega)
    have hc : ps.countP (fun p => decide (p.like > thresh_like)) ≤ ps.length :=
      List.countP_le_length _
    by_cases hp : p.like > thresh_like
    · have hk : keepTest n i p = true := by
        simp only [keepTest, decide_eq_true_eq]; exact Or.inl hp
      have hall : ps.countP (fun p => decide (p.like > thresh_like)) = ps.length := by
        rw [List.countP_eq_length]
        intro q hq
        simp only [decide_eq_true_eq]
        exact lt_of_lt_of_le hp (hle q hq)
      have hcp : (p :: ps).countP (fun p => decide (p.like > thresh_like))
          = ps.countP (fun p => decide (p.like > thresh_like)) + 1 := by
        rw [List.countP_cons_of_pos]; simpa using hp
      simp only [markFrom, eraseLoop, hk, if_true, List.length_cons, IH, hcp, hall]
      omega
    · have hlow : p.like ≤ thresh_like := not_lt.mp hp
      have hcp : (p :: ps).countP (fun p => decide (p.like > thresh_like))
          = ps.countP (fun p => decide (p.like > thresh_like)) := by
        rw [List.countP_cons_of_neg]; simpa using hp
      rw [hcp]
      by_cases hidx : i > n - n / 100
      · have hk : keepTest n i p = true := by
          rw [keepTest_of_low n i p hlow]; simpa using hidx
        simp only [markFrom, eraseLoop, hk, if_true, List.length_cons, IH]
        omega
      · have hk : keepTest n i p = false := by
          rw [keepTest_of_low n i p hlow]; simpa using hidx
        simp only [markFrom, eraseLoop, hk, List.length_cons, IH]
        simp only [Bool.false_eq_true, if_false, IH]
        omega

theorem prune_length_sorted (P : List Particle)
    (hs : List.Sorted (fun a b : Particle => a.like ≤ b.like) P) :
    (prune P).length
      = max (P.countP (fun p => decide (p.like > thresh_like))) (P.length / 100 - 1) := by
  rw [prune, mark, eraseLoop_markFrom_count P.length P 0 hs (by omega)]
  have : P.length / 100 - 1 ≤ P.length := by omega
  rw [min_eq_right this]

/-- C25: for a scored population of `n` particles of which `c` have a likelihood above 0.9, the
number of survivors of ranking and pruning is `max(c, max(0, floor(n / 100) - 1))`, and the same
holds for pruning any population sorted by likelihood ascending; when no likelihood is above 0.9
exactly `floor(n / 100) - 1` particles (truncated at 0) survive, and none when `n < 200`. -/
theorem prune_survivor_count (S : List Particle) :
    ((prune (sort S)).length : Int)
      = max ((S.countP (fun p => decide (p.like > 9 / 10)) : Nat) : Int)
          (max 0 (((S.length / 100 : Nat) : Int) - 1)) ∧
    (∀ P : List Particle, List.Sorted (fun a b : Particle => a.like ≤ b.like) P →
      (prune P).length = max (P.countP (fun p => decide (p.like > 9 / 10))) (P.length / 100 - 1)) ∧
    ((∀ p ∈ S, p.like ≤ 9 / 10) →
      (prune (sort S)).length = S.length / 100 - 1 ∧ (S.length < 200 → prune (sort S) = [])) := by
  have hlen : (sort S).length = S.length := List.length_insertionSort _ S
  have hcnt : (sort S).countP (fun p => decide (p.like > thresh_like))
      = S.countP (fun p => decide (p.like > thresh_like)) :=
    (List.perm_insertionSort _ S).countP_eq _
  have hmain : (prune (sort S)).length
      = max (S.countP (fun p => decide (p.like > thresh_like))) (S.length / 100 - 1) := by
    rw [prune_length_sorted (sort S) (sort_sorted S), hlen, hcnt]
  refine ⟨?_, fun P hP => prune_length_sorted P hP, ?_⟩
  · have h := hmain
    simp only [thresh_like] at h
    rw [h]
    omega
  · intro hlow
    have hzero : S.countP (fun p => decide (p.like > thresh_like)) = 0 := by
      rw [List.countP_eq_zero]
      intro p hp
      have := hlow p hp
      simp only [thresh_like, decide_eq_true_eq, not_lt]
      exact this
    have hl : (prune (sort S)).length = S.length / 100 - 1 := by
      rw [hmain, hzero]; omega
    refine ⟨hl, fun h200 => ?_⟩
    apply List.eq_nil_of_length_eq_zero
    rw [hl]; omega

theorem prune_survivor_count_witness :
    (∀ p ∈ [still 1 1 (1 / 2), still 2 2 (1 / 4)], p.like ≤ 9 / 10) ∧
    [still 1 1 (1 / 2), still 2 2 (1 / 4)].length < 200 ∧
    prune (sort [still 1 1 (1 / 2), still 2 2 (1 / 4)]) = [] := by
  have hl : ∀ p ∈ [still 1 1 (1 / 2), still 2 2 (1 / 4)], p.like ≤ 9 / 10 := by
    intro p hp
    simp only [List.mem_cons, List.mem_singleton, List.not_mem_nil, or_false] at hp
    rcases hp with rfl | rfl <;> norm_num [still]
  exact ⟨hl, by simp,
    ((prune_survivor_count [still 1 1 (1 / 2), still 2 2 (1 / 4)]).2.2 hl).2 (by simp)⟩

/-- C26: when the population is sorted by likelihood ascending, the survivors of pruning are a
contiguous suffix of it (the particles from some index `m` on, with their flag set); hence every
removed particle has a likelihood at most that of every survivor, and the survivors are in
ascending order of likelihood.  This holds in particular for the population as ranked. -/
theorem prune_keeps_suffix :
    (∀ P : List Particle, List.Sorted (fun a b : Particle => a.like ≤ b.like) P →
      ∃ m : Nat, m ≤ P.length ∧
        prune P = (P.drop m).map (fun p => { p with keep := true }) ∧
        (∀ q ∈ P.take m, ∀ s ∈ prune P, q.like ≤ s.like) ∧
        List.Sorted (fun a b : Particle => a.like ≤ b.like) (prune P)) ∧
    (∀ S : List Particle, ∃ m : Nat, m ≤ S.length ∧
      prune (sort S) = ((sort S).drop m).map (fun p => { p with keep := true })) := by
  have key : ∀ P : List Particle, List.Sorted (fun a b : Particle => a.like ≤ b.like) P →
      ∃ m : Nat, m ≤ P.length ∧
        prune P = (P.drop m).map (fun p => { p with keep := true }) ∧
        (∀ q ∈ P.take m, ∀ s ∈ prune P, q.like ≤ s.like) ∧
        List.Sorted (fun a b : Particle => a.like ≤ b.like) (prune P) := by
    intro P hs
    obtain ⟨m, hm, he⟩ := eraseLoop_markFrom_suffix P.length P 0 hs
    have hp : prune P = (P.drop m).map (fun p => { p with keep := true }) := he
    have hsplit : List.Pairwise (fun a b : Particle => a.like ≤ b.like) (P.take m ++ P.drop m) := by
      rw [List.take_append_drop]; exact hs
    rw [List.pairwise_append] at hsplit
    refine ⟨m, hm, hp, ?_, ?_⟩
    · intro q hq s hsv
      rw [hp, List.mem_map] at hsv
      obtain ⟨s0, hs0, rfl⟩ := hsv
      exact hsplit.2.2 q hq s0 hs0
    · rw [hp]
      exact List.Pairwise.map _ (fun a b hab => hab) hsplit.2.1
  refine ⟨key, ?_⟩
  intro S
  obtain ⟨m, hm, hp, -, -⟩ := key (sort S) (sort_sorted S)
  exact ⟨m, by rw [← List.length_insertionSort (fun a b : Particle => a.like ≤ b.like) S]; exact hm, hp⟩

theorem prune_keeps_suffix_witness :
    List.Sorted (fun a b : Particle => a.like ≤ b.like) (sort [still 1 1 1, still 2 2 (1 / 4)]) ∧
    ∃ m : Nat, m ≤ (sort [still 1 1 1, still 2 2 (1 / 4)]).length ∧
      prune (sort [still 1 1 1, still 2 2 (1 / 4)])
        = ((sort [still 1 1 1, still 2 2 (1 / 4)]).drop m).map (fun p => { p with keep := true }) := by
  obtain ⟨m, hm, hp, -, -⟩ := prune_keeps_suffix.1 (sort [still 1 1 1, still 2 2 (1 / 4)])
    (sort_sorted _)
  exact ⟨sort_sorted _, m, hm, hp⟩

/-! ## Facts about the rounding to `double` -/

theorem cvRound_eq_of_abs_lt (y : ℚ) (n : Int) (h : |y - (n : ℚ)| < 1 / 2) : cvRound y = n := by
  rw [abs_lt] at h
  obtain ⟨h1, h2⟩ := h
  by_cases hy : (n : ℚ) ≤ y
  · have hf : ⌊y⌋ = n := by
      rw [Int.floor_eq_iff]
      constructor
      · exact hy
      · linarith
    simp only [cvRound, hf]
    rw [if_pos (by linarith)]
  · have hy2 : y < (n : ℚ) := not_le.mp hy
    have hf : ⌊y⌋ = n - 1 := by
      rw [Int.floor_eq_iff]
      push_cast
      constructor
      · linarith
      · linarith
    simp only [cvRound, hf]
    push_cast
    rw [if_neg (by linarith), if_pos (by linarith)]
    ring

theorem cvRound_abs_sub_le (y : ℚ) : |(cvRound y : ℚ) - y| ≤ 1 / 2 := by
  have h1 : ((⌊y⌋ : Int) : ℚ) ≤ y := Int.floor_le y
  have h2 : y < ((⌊y⌋ : Int) : ℚ) + 1 := Int.lt_floor_add_one y
  rw [abs_le]
  simp only [cvRound]
  split_ifs with ha hb hc
  · constructor <;> linarith
  · push_cast; constructor <;> linarith
  · have : y - ((⌊y⌋ : Int) : ℚ) = 1 / 2 := le_antisymm (not_lt.mp hb) (not_lt.mp ha)
    constructor <;> linarith
  · have : y - ((⌊y⌋ : Int) : ℚ) = 1 / 2 := le_antisymm (not_lt.mp hb) (not_lt.mp ha)
    push_cast; constructor <;> linarith

theorem fl_zero : fl 0 = 0 := by simp [fl]

theorem log_two_eq (q : ℚ) (e : Int) (h1 : (2 : ℚ) ^ e ≤ q) (h2 : q < (2 : ℚ) ^ (e + 1)) :
    Int.log 2 q = e := by
  have hq : 0 < q := lt_of_lt_of_le (by positivity) h1
  have ha : e ≤ Int.log 2 q := by
    have := (Int.zpow_le_iff_le_log (b := 2) (by norm_num) hq (x := e)).mp (by exact_mod_cast h1)
    exact this
  have hb : Int.log 2 q < e + 1 := by
    have := (Int.lt_zpow_iff_log_lt (b := 2) (by norm_num) hq (x := e + 1)).mp
      (by exact_mod_cast h2)
    exact this
  omega

/-- The value of `fl` at a positive `q` with `2 ^ e ≤ q < 2 ^ (e + 1)`: the multiple `n` of
`2 ^ (e - 52)` within less than half a unit of `q`. -/
theorem fl_eq (q : ℚ) (e n : Int) (h1 : (2 : ℚ) ^ e ≤ q) (h2 : q < (2 : ℚ) ^ (e + 1))
    (hn : |q / (2 : ℚ) ^ (e - 52) - (n : ℚ)| < 1 / 2) : fl q = (n : ℚ) * (2 : ℚ) ^ (e - 52) := by
  have hq : 0 < q := lt_of_lt_of_le (by positivity) h1
  have habs : |q| = q := abs_of_pos hq
  simp only [fl, if_neg (ne_of_gt hq), habs, log_two_eq q e h1 h2, cvRound_eq_of_abs_lt _ n hn]

/-- The relative error of the rounding is at most `2 ^ (-53)`. -/
theorem fl_rel (q : ℚ) : |fl q - q| ≤ |q| * (1 / 2 ^ 53) := by
  by_cases hq : q = 0
  · simp [hq, fl_zero]
  · have habs : 0 < |q| := abs_pos.mpr hq
    have hlog : (2 : ℚ) ^ (Int.log 2 |q|) ≤ |q| := by
      have := Int.zpow_log_le_self (b := 2) (r := |q|) (by norm_num) habs
      exact_mod_cast this
    have hu : (0 : ℚ) < (2 : ℚ) ^ (Int.log 2 |q| - 52) := by positivity
    have hulp : (2 : ℚ) ^ (Int.log 2 |q| - 52) = (2 : ℚ) ^ (Int.log 2 |q|) / 2 ^ 52 := by
      rw [zpow_sub₀ (by norm_num : (2 : ℚ) ≠ 0)]
      norm_num
    have hr := cvRound_abs_sub_le (q / (2 : ℚ) ^ (Int.log 2 |q| - 52))
    have e1 : fl q - q
        = ((cvRound (q / (2 : ℚ) ^ (Int.log 2 |q| - 52)) : ℚ)
            - q / (2 : ℚ) ^ (Int.log 2 |q| - 52)) * (2 : ℚ) ^ (Int.log 2 |q| - 52) := by
      simp only [fl, if_neg hq]
      field_simp
    rw [e1, abs_mul, abs_of_pos hu]
    calc |(cvRound (q / (2 : ℚ) ^ (Int.log 2 |q| - 52)) : ℚ)
            - q / (2 : ℚ) ^ (Int.log 2 |q| - 52)| * (2 : ℚ) ^ (Int.log 2 |q| - 52)
        ≤ 1 / 2 * (2 : ℚ) ^ (Int.log 2 |q| - 52) := mul_le_mul_of_nonneg_right hr (le_of_lt hu)
      _ = (2 : ℚ) ^ (Int.log 2 |q|) * (1 / 2 ^ 53) := by rw [hulp]; ring
      _ ≤ |q| * (1 / 2 ^ 53) := mul_le_mul_of_nonneg_right hlog (by positivity)

theorem fl_lower (q : ℚ) (hq : 0 ≤ q) : q * (1 - 1 / 2 ^ 53) ≤ fl q := by
  have h := fl_rel q
  rw [abs_of_nonneg hq, abs_le] at h
  linarith [h.1]

theorem fl_upper (q : ℚ) (hq : 0 ≤ q) : fl q ≤ q * (1 + 1 / 2 ^ 53) := by
  have h := fl_rel q
  rw [abs_of_nonneg hq, abs_le] at h
  linarith [h.2]

theorem fl_nonneg (q : ℚ) (hq : 0 ≤ q) : 0 ≤ fl q :=
  le_trans (mul_nonneg hq (by norm_num)) (fl_lower q hq)

/-- Natural numbers below `2 ^ 53` are `double`s. -/
theorem fl_natCast (n : Nat) (hn : n < 2 ^ 53) : fl (n : ℚ) = n := by
  by_cases h0 : n = 0
  · simp [h0, fl_zero]
  · have hpos : (0 : ℚ) < (n : ℚ) := by exact_mod_cast Nat.pos_of_ne_zero h0
    have hlog : Int.log 2 ((n : ℚ)) = (Nat.log 2 n : Int) := Int.log_natCast 2 n
    have hj : Nat.log 2 n < 53 := Nat.log_lt_of_lt_pow h0 hn
    have hulp : (2 : ℚ) ^ ((Nat.log 2 n : Int) - 52) = 1 / 2 ^ (52 - Nat.log 2 n) := by
      have e : ((Nat.log 2 n : Int) - 52) = -((52 - Nat.log 2 n : Nat) : Int) := by omega
      rw [e, zpow_neg, zpow_natCast]
      simp
    have hdiv : (n : ℚ) / (1 / 2 ^ (52 - Nat.log 2 n))
        = (((n * 2 ^ (52 - Nat.log 2 n) : Nat) : Int) : ℚ) := by
      push_cast
      field_simp
    simp only [fl, if_neg (ne_of_gt hpos), abs_of_pos hpos, hlog, hulp, hdiv, cvRound_intCast]
    push_cast
    field_simp

theorem cvRound_tie_up (y : ℚ) (n : Int) (hn : n % 2 = 0) (hy : y = (n : ℚ) - 1 / 2) :
    cvRound y = n := by
  have hf : ⌊y⌋ = n - 1 := by
    rw [Int.floor_eq_iff]
    push_cast
    constructor <;> linarith
  have hodd : ¬ (n - 1) % 2 = 0 := by omega
  simp only [cvRound, hf]
  push_cast
  rw [if_neg (by linarith), if_neg (by linarith), if_neg hodd]
  ring

theorem cvRound_tie_down (y : ℚ) (n : Int) (hn : n % 2 = 0) (hy : y = (n : ℚ) + 1 / 2) :
    cvRound y = n := by
  have hf : ⌊y⌋ = n := by
    rw [Int.floor_eq_iff]
    constructor <;> linarith
  simp only [cvRound, hf]
  rw [if_neg (by linarith), if_neg (by linarith), if_pos hn]

/-- The value of `fl` at a positive `q` half-way between two multiples of `2 ^ (e - 52)`: the
even multiple above. -/
theorem fl_eval_tie_up (q v : ℚ) (e n : Int) (h1 : (2 : ℚ) ^ e ≤ q) (h2 : q < (2 : ℚ) ^ (e + 1))
    (hn : n % 2 = 0) (hy : q / (2 : ℚ) ^ (e - 52) = (n : ℚ) - 1 / 2)
    (hv : v = (n : ℚ) * (2 : ℚ) ^ (e - 52)) : fl q = v := by
  have hq : 0 < q := lt_of_lt_of_le (by positivity) h1
  have habs : |q| = q := abs_of_pos hq
  rw [hv]
  simp only [fl, if_neg (ne_of_gt hq), habs, log_two_eq q e h1 h2, cvRound_tie_up _ n hn hy]

/-- The value of `fl` at a positive `q` half-way between two multiples of `2 ^ (e - 52)`: the
even multiple below. -/
theorem fl_eval_tie_down (q v : ℚ) (e n : Int) (h1 : (2 : ℚ) ^ e ≤ q)
    (h2 : q < (2 : ℚ) ^ (e + 1)) (hn : n % 2 = 0)
    (hy : q / (2 : ℚ) ^ (e - 52) = (n : ℚ) + 1 / 2)
    (hv : v = (n : ℚ) * (2 : ℚ) ^ (e - 52)) : fl q = v := by
  have hq : 0 < q := lt_of_lt_of_le (by positivity) h1
  have habs : |q| = q := abs_of_pos hq
  rw [hv]
  simp only [fl, if_neg (ne_of_gt hq), habs, log_two_eq q e h1 h2, cvRound_tie_down _ n hn hy]

/-! ## Resampling in doubles -/

theorem fl_ge_floor (x : ℚ) (hx0 : 0 ≤ x) (hx1 : x < 2 ^ 52) : ((⌊x⌋ : Int) : ℚ) ≤ fl x := by
  by_cases h0 : x = 0
  · simp [h0, fl_zero]
  · have hpos : 0 < x := lt_of_le_of_ne hx0 (Ne.symm h0)
    have habs : |x| = x := abs_of_pos hpos
    have hlog : Int.log 2 x < 52 := by
      have := (Int.lt_zpow_iff_log_lt (b := 2) (by norm_num) hpos (x := 52)).mp
        (by exact_mod_cast hx1)
      exact this
    obtain ⟨j, hj⟩ : ∃ j : Nat, (52 : Int) - Int.log 2 x = (j : Int) :=
      ⟨(52 - Int.log 2 x).toNat, by omega⟩
    have hulp : (2 : ℚ) ^ (Int.log 2 x - 52) = 1 / 2 ^ j := by
      have e : Int.log 2 x - 52 = -(j : Int) := by omega
      rw [e, zpow_neg, zpow_natCast]
      simp
    have hfl : (0 : Int) ≤ ⌊x⌋ := Int.floor_nonneg.mpr hx0
    have hle : ((⌊x⌋ : Int) : ℚ) ≤ x := Int.floor_le x
    have hy : (((⌊x⌋ * 2 ^ j : Int)) : ℚ) ≤ x / (1 / 2 ^ j) := by
      push_cast
      rw [div_div_eq_mul_div, div_one]
      exact mul_le_mul_of_nonneg_right hle (by positivity)
    have hr := cvRound_abs_sub_le (x / (1 / 2 ^ j))
    rw [abs_le] at hr
    have hc : (⌊x⌋ * 2 ^ j : Int) ≤ cvRound (x / (1 / 2 ^ j)) := by
      have hlt : (((⌊x⌋ * 2 ^ j : Int)) : ℚ) - 1 < (cvRound (x / (1 / 2 ^ j)) : ℚ) := by
        linarith [hr.1]
      have hlt2 : (⌊x⌋ * 2 ^ j : Int) - 1 < cvRound (x / (1 / 2 ^ j)) := by exact_mod_cast hlt
      omega
    have hcq : (((⌊x⌋ * 2 ^ j : Int)) : ℚ) ≤ (cvRound (x / (1 / 2 ^ j)) : ℚ) := by
      exact_mod_cast hc
    simp only [fl, if_neg h0, habs, hulp]
    have hp : (0 : ℚ) < 1 / 2 ^ j := by positivity
    calc ((⌊x⌋ : Int) : ℚ) = (((⌊x⌋ * 2 ^ j : Int)) : ℚ) * (1 / 2 ^ j) := by
          push_cast; field_simp
      _ ≤ (cvRound (x / (1 / 2 ^ j)) : ℚ) * (1 / 2 ^ j) :=
          mul_le_mul_of_nonneg_right hcq (le_of_lt hp)

theorem num_newD_eq (w : ℚ) (k : Nat) (hk : k ≤ num) (h0 : 0 ≤ w) (h1 : w ≤ 2) :
    num_newD w k = some ⌊fl (w * ((num - k : Nat) : ℚ))⌋ ∧
    0 ≤ ⌊fl (w * ((num - k : Nat) : ℚ))⌋ := by
  have hm0 : (0 : ℚ) ≤ ((num - k : Nat) : ℚ) := Nat.cast_nonneg _
  have hm1 : ((num - k : Nat) : ℚ) ≤ 1000 := by
    have : num - k ≤ 1000 := by simp [num]
    exact_mod_cast this
  have hr : ((room k : Int) : ℚ) = ((num - k : Nat) : ℚ) := by
    rw [room_of_le k hk]; simp
  have hflm : fl ((num - k : Nat) : ℚ) = ((num - k : Nat) : ℚ) := by
    apply fl_natCast
    have : num - k ≤ 1000 := by simp [num]
    have h2 : (1000 : Nat) < 2 ^ 53 := by norm_num
    omega
  have hv0 : 0 ≤ w * ((num - k : Nat) : ℚ) := mul_nonneg h0 hm0
  have hv1 : w * ((num - k : Nat) : ℚ) ≤ 2000 := by nlinarith
  have hf0 : 0 ≤ fl (w * ((num - k : Nat) : ℚ)) := fl_nonneg _ hv0
  have hf1 : fl (w * ((num - k : Nat) : ℚ)) ≤ 2001 := by
    have := fl_upper _ hv0
    have h3 : w * ((num - k : Nat) : ℚ) * (1 + 1 / 2 ^ 53) ≤ 2001 := by nlinarith
    linarith
  have hz0 : 0 ≤ ⌊fl (w * ((num - k : Nat) : ℚ))⌋ := Int.floor_nonneg.mpr hf0
  have hz1 : ⌊fl (w * ((num - k : Nat) : ℚ))⌋ ≤ 2001 := by
    have : ((⌊fl (w * ((num - k : Nat) : ℚ))⌋ : Int) : ℚ) ≤ 2001 := le_trans (Int.floor_le _) hf1
    exact_mod_cast this
  refine ⟨?_, hz0⟩
  have hlo : (-2 : Int) ^ 31 ≤ ⌊fl (w * ((num - k : Nat) : ℚ))⌋ := by
    have : (-2 : Int) ^ 31 ≤ 0 := by norm_num
    omega
  have hhi : ⌊fl (w * ((num - k : Nat) : ℚ))⌋ < 2 ^ 31 := by
    have : (2001 : Int) < 2 ^ 31 := by norm_num
    omega
  simp only [num_newD, toInt, hr, hflm, if_pos hf0]
  rw [if_pos ⟨hlo, hhi⟩]

theorem spawnD_length (E : Env) (f : Frame) (p : Particle) (t n : Nat) :
    (spawnD E f p t n).length = n := by
  induction n generalizing t with
  | zero => rfl
  | succ n ih => simp [spawnD, ih]

theorem spawnD_mem (E : Env) (f : Frame) (p : Particle) (t n : Nat) :
    ∀ c ∈ spawnD E f p t n, ∃ d : Draw, c = childD E f d p := by
  induction n generalizing t with
  | zero => intro c hc; simp [spawnD] at hc
  | succ n ih =>
    intro c hc
    simp only [spawnD, List.mem_cons] at hc
    rcases hc with rfl | hc
    · exact ⟨E.draw t, rfl⟩
    · exact ih (t + 1) c hc

theorem resampleLoopD_blocks (E : Env) (f : Frame) (k : Nat) (hk : k ≤ num) (P : List Particle)
    (hw : ∀ p ∈ P, 0 ≤ p.wgt ∧ p.wgt ≤ 2) (t : Nat) :
    ∃ blocks : List (List Particle),
      resampleLoopD E f k P t = some (blocks.flatten, t + blocks.flatten.length) ∧
      blocks.length = P.length ∧
      (∀ (i : Nat) (p : Particle) (b : List Particle), P[i]? = some p → blocks[i]? = some b →
        (b.length : Int) = ⌊fl (p.wgt * ((num - k : Nat) : ℚ))⌋ ∧
        ∀ c ∈ b, ∃ d : Draw, c = childD E f d p) ∧
      (blocks.flatten.length : Int)
        = (P.map (fun p => ⌊fl (p.wgt * ((num - k : Nat) : ℚ))⌋)).sum := by
  induction P generalizing t with
  | nil => exact ⟨[], by simp [resampleLoopD], rfl, by simp, by simp⟩
  | cons p ps ih =>
    obtain ⟨hn, hn0⟩ := num_newD_eq p.wgt k hk (hw p (List.mem_cons_self _ _)).1
      (hw p (List.mem_cons_self _ _)).2
    obtain ⟨bs, hb1, hb2, hb3, hb4⟩ :=
      ih (fun q hq => hw q (List.mem_cons_of_mem _ hq))
        (t + ⌊fl (p.wgt * ((num - k : Nat) : ℚ))⌋.toNat)
    have hlen : ((spawnD E f p t ⌊fl (p.wgt * ((num - k : Nat) : ℚ))⌋.toNat).length : Int)
        = ⌊fl (p.wgt * ((num - k : Nat) : ℚ))⌋ := by
      rw [spawnD_length]; exact Int.toNat_of_nonneg hn0
    refine ⟨spawnD E f p t ⌊fl (p.wgt * ((num - k : Nat) : ℚ))⌋.toNat :: bs, ?_, ?_, ?_, ?_⟩
    · simp only [resampleLoopD, hn, hb1, List.flatten_cons, List.length_append, spawnD_length]
      simp [add_assoc]
    · simp [hb2]
    · intro i q b hq hb
      cases i with
      | zero =>
        simp only [List.getElem?_cons_zero, Option.some.injEq] at hq hb
        subst hq; subst hb
        exact ⟨hlen, spawnD_mem E f p t _⟩
      | succ i =>
        simp only [List.getElem?_cons_succ] at hq hb
        exact hb3 i q b hq hb
    · simp only [List.flatten_cons, List.length_append, Nat.cast_add, List.map_cons, List.sum_cons]
      rw [hlen, hb4]

theorem resampleD_some_of_weights (E : Env) (f : Frame) (P : List Particle) (t : Nat)
    (hk : P.length ≤ num) (hw : ∀ p ∈ P, 0 ≤ p.wgt ∧ p.wgt ≤ 2) :
    ∃ Pnew : List Particle,
      resampleD E f P t = some (P ++ Pnew, t + Pnew.length) ∧
      (Pnew.length : Int)
        = (P.map (fun s => ⌊fl (s.wgt * ((num - P.length : Nat) : ℚ))⌋)).sum := by
  obtain ⟨bs, h1, -, -, h4⟩ := resampleLoopD_blocks E f P.length hk P hw t
  exact ⟨bs.flatten, by simp [resampleD, h1], h4⟩

theorem floor_fl_between (w : ℚ) (m : Nat) (h0 : 0 ≤ w) (h1 : w ≤ 2) (hm : m ≤ 1000) :
    ⌊w * (m : ℚ)⌋ ≤ ⌊fl (w * (m : ℚ))⌋ ∧ ⌊fl (w * (m : ℚ))⌋ ≤ ⌊w * (m : ℚ)⌋ + 1 := by
  have hm0 : (0 : ℚ) ≤ (m : ℚ) := Nat.cast_nonneg _
  have hm1 : (m : ℚ) ≤ 1000 := by exact_mod_cast hm
  have hx0 : 0 ≤ w * (m : ℚ) := mul_nonneg h0 hm0
  have hx1 : w * (m : ℚ) ≤ 2000 := by nlinarith
  constructor
  · apply Int.le_floor.mpr
    exact fl_ge_floor _ hx0 (lt_of_le_of_lt hx1 (by norm_num))
  · have hup := fl_upper _ hx0
    have hlt : fl (w * (m : ℚ)) < w * (m : ℚ) + 1 := by
      have : w * (m : ℚ) * (1 / 2 ^ 53) < 1 := by nlinarith
      linarith
    have h3 : w * (m : ℚ) < ((⌊w * (m : ℚ)⌋ : Int) : ℚ) + 1 := Int.lt_floor_add_one _
    have h4 : ⌊fl (w * (m : ℚ))⌋ < ⌊w * (m : ℚ)⌋ + 1 + 1 := by
      apply Int.floor_lt.mpr
      push_cast
      linarith
    omega

theorem fl_eval (q v : ℚ) (e n : Int) (h1 : (2 : ℚ) ^ e ≤ q) (h2 : q < (2 : ℚ) ^ (e + 1))
    (hn : |q / (2 : ℚ) ^ (e - 52) - (n : ℚ)| < 1 / 2) (hv : v = (n : ℚ) * (2 : ℚ) ^ (e - 52)) :
    fl q = v := by
  rw [hv]; exact fl_eq q e n h1 h2 hn

theorem toInt_natCast (n : Nat) (hn : n < 2 ^ 31) : toInt (n : ℚ) = some (n : Int) := by
  have h0 : (0 : ℚ) ≤ (n : ℚ) := Nat.cast_nonneg _
  have hf : ⌊(n : ℚ)⌋ = (n : Int) := Int.floor_natCast n
  have hlo : (-2 : Int) ^ 31 ≤ (n : Int) := by
    have : (-2 : Int) ^ 31 ≤ 0 := by norm_num
    omega
  have hhi : (n : Int) < 2 ^ 31 := by exact_mod_cast hn
  simp only [toInt, if_pos h0, hf]
  rw [if_pos ⟨hlo, hhi⟩]

theorem resampleD_pair (E : Env) (f : Frame) (t : Nat) (s1 s2 : Particle)
    (n1 n2 : Nat) (h1 : num_newD s1.wgt 2 = some (n1 : Int))
    (h2 : num_newD s2.wgt 2 = some (n2 : Int)) :
    resampleD E f [s1, s2] t
      = some ([s1, s2] ++ (spawnD E f s1 t n1 ++ spawnD E f s2 (t + n1) n2), t + (n1 + n2)) := by
  have hlen : [s1, s2].length = 2 := rfl
  simp only [resampleD, hlen, resampleLoopD, h1, h2, Int.toNat_ofNat, List.append_nil,
    add_assoc]

theorem reweightD_pair (s1 s2 : Particle) (L w1 w2 : ℚ)
    (hL : fl (fl (0 + s1.like) + s2.like) = L) (hL0 : L ≠ 0)
    (h1 : fl (s1.like / L) = w1) (h2 : fl (s2.like / L) = w2) :
    reweightD [s1, s2] = some [{ s1 with wgt := w1 }, { s2 with wgt := w2 }] := by
  have hs : l_sumD [s1, s2] = L := by
    rw [← hL]; rfl
  simp only [reweightD, hs, reweightLoopD, divDD, if_neg hL0, h1, h2]

theorem room_two : ((room 2 : Int) : ℚ) = 998 := by
  rw [room_of_le 2 (by simp [num])]
  norm_num [num]

theorem fl_998 : fl 998 = 998 := by
  have h := fl_natCast 998 (by norm_num)
  exact_mod_cast h

theorem num_newD_pairA : num_newD pairA.wgt 2 = some ((492 : Nat) : Int) := by
  have hp : fl (pairA.wgt * 998) = ((492 : Nat) : ℚ) := by
    apply fl_eval _ _ 8 8655355533852672
    · norm_num [pairA]
    · norm_num [pairA]
    · norm_num [pairA, abs_lt]
    · norm_num
  rw [num_newD, room_two, fl_998, hp]
  exact toInt_natCast 492 (by norm_num)

theorem num_newD_pairB : num_newD pairB.wgt 2 = some ((505 : Nat) : Int) := by
  have hp : fl (pairB.wgt * 998) = 8901646138474495 / 17592186044416 := by
    apply fl_eval _ _ 8 8901646138474495
    · norm_num [pairB]
    · norm_num [pairB]
    · norm_num [pairB, abs_lt]
    · norm_num
  have hf : ⌊(8901646138474495 / 17592186044416 : ℚ)⌋ = 505 := by
    rw [Int.floor_eq_iff]
    norm_num
  rw [num_newD, room_two, fl_998, hp]
  simp only [toInt, hf]
  norm_num

theorem reweightD_pairAB :
    reweightD [{ pairA with wgt := 0 }, { pairB with wgt := 0 }] = some [pairA, pairB] := by
  have hL : fl (fl (0 + ({ pairA with wgt := 0 } : Particle).like)
      + ({ pairB with wgt := 0 } : Particle).like) = 2056349476915705 / 1125899906842624 := by
    have h1 : fl (0 + ({ pairA with wgt := 0 } : Particle).like)
        = 506875722766797 / 562949953421312 := by
      apply fl_eval _ _ (-1) 8110011564268752
      · norm_num [pairA]
      · norm_num [pairA]
      · norm_num [pairA, abs_lt]
      · norm_num
    rw [h1]
    apply fl_eval_tie_up _ _ 0 8225397907662820
    · norm_num [pairB]
    · norm_num [pairB]
    · decide
    · norm_num [pairB]
    · norm_num
  have hw1 : fl (({ pairA with wgt := 0 } : Particle).like
      / (2056349476915705 / 1125899906842624)) = 8880845758181499 / 18014398509481984 := by
    apply fl_eval _ _ (-2) 8880845758181499
    · norm_num [pairA]
    · norm_num [pairA]
    · norm_num [pairA, abs_lt]
    · norm_num
  have hw2 : fl (({ pairB with wgt := 0 } : Particle).like
      / (2056349476915705 / 1125899906842624)) = 2283388187825121 / 4503599627370496 := by
    apply fl_eval _ _ (-1) 4566776375650242
    · norm_num [pairB]
    · norm_num [pairB]
    · norm_num [pairB, abs_lt]
    · norm_num
  have h := reweightD_pair { pairA with wgt := 0 } { pairB with wgt := 0 } _ _ _ hL
    (by norm_num) hw1 hw2
  rw [h]
  rfl

/-- C4, as the code has it: for `k ≤ num` survivors with weights in [0, 1], resampling in doubles
succeeds and appends to the survivors one block of new particles per survivor, in order; the
block of a survivor `s` holds exactly `floor(fl(weight(s) * (num - k)))` particles, `fl` being
the rounding of the product to a double, which is `floor(weight(s) * (num - k))` or one more;
each is made from `s`, and the number of particles appended is the sum of these counts. -/
theorem resampleD_spawn_counts (E : Env) (f : Frame) (P : List Particle) (t : Nat)
    (hk : P.length ≤ num) (hw : ∀ p ∈ P, 0 ≤ p.wgt ∧ p.wgt ≤ 1) :
    ∃ blocks : List (List Particle),
      resampleD E f P t = some (P ++ blocks.flatten, t + blocks.flatten.length) ∧
      blocks.length = P.length ∧
      (∀ (i : Nat) (s : Particle) (b : List Particle), P[i]? = some s → blocks[i]? = some b →
        (b.length : Int) = ⌊fl (s.wgt * ((num - P.length : Nat) : ℚ))⌋ ∧
        ⌊s.wgt * ((num - P.length : Nat) : ℚ)⌋ ≤ (b.length : Int) ∧
        (b.length : Int) ≤ ⌊s.wgt * ((num - P.length : Nat) : ℚ)⌋ + 1 ∧
        ∀ c ∈ b, ∃ d : Draw, c = childD E f d s) ∧
      (blocks.flatten.length : Int)
        = (P.map (fun s => ⌊fl (s.wgt * ((num - P.length : Nat) : ℚ))⌋)).sum := by
  have hw2 : ∀ p ∈ P, 0 ≤ p.wgt ∧ p.wgt ≤ 2 := fun p hp => ⟨(hw p hp).1, by linarith [(hw p hp).2]⟩
  obtain ⟨bs, h1, h2, h3, h4⟩ := resampleLoopD_blocks E f P.length hk P hw2 t
  refine ⟨bs, by simp [resampleD, h1], h2, ?_, h4⟩
  intro i s b hs hb
  obtain ⟨hlen, hch⟩ := h3 i s b hs hb
  have hmem : s ∈ P := List.getElem?_mem hs
  have hbt := floor_fl_between s.wgt (num - P.length) (hw2 s hmem).1 (hw2 s hmem).2
    (by simp [num])
  refine ⟨hlen, ?_, ?_, hch⟩
  · rw [hlen]; exact hbt.1
  · rw [hlen]; exact hbt.2

theorem resampleD_spawn_counts_witness :
    ([pairA, pairB].length ≤ num ∧ ∀ p ∈ [pairA, pairB], 0 ≤ p.wgt ∧ p.wgt ≤ 1) ∧
    ∃ blocks : List (List Particle),
      resampleD unitEnv (flatFrame 640 480) [pairA, pairB] 0
        = some ([pairA, pairB] ++ blocks.flatten, 0 + blocks.flatten.length) ∧
      blocks.length = [pairA, pairB].length := by
  have hk : [pairA, pairB].length ≤ num := by simp [num]
  have hw : ∀ p ∈ [pairA, pairB], 0 ≤ p.wgt ∧ p.wgt ≤ 1 := by
    intro p hp
    simp only [List.mem_cons, List.mem_singleton, List.not_mem_nil, or_false] at hp
    rcases hp with rfl | rfl
    · norm_num [pairA]
    · norm_num [pairB]
  obtain ⟨bs, h1, h2, -, -⟩ :=
    resampleD_spawn_counts unitEnv (flatFrame 640 480) [pairA, pairB] 0 hk hw
  exact ⟨⟨hk, hw⟩, bs, h1, h2⟩

/-- C4 as the spec states it fails.  Two survivors of likelihoods 0.9003921568627451 and
0.9260130718954248 (hue 49 with saturation 208, hue 56 with saturation 185) are given the
weights 0.49298597194388777 and 0.5070140280561122 by lines 103-110; for the first,
`floor(weight * 998) = 491`, but the product rounds to the double 492.0 and line 116 makes 492
new particles from it. -/
theorem resampleD_count_above_floor :
    reweightD [{ pairA with wgt := 0 }, { pairB with wgt := 0 }] = some [pairA, pairB] ∧
    [pairA, pairB].length ≤ num ∧
    ⌊pairA.wgt * ((num - [pairA, pairB].length : Nat) : ℚ)⌋ = 491 ∧
    fl (pairA.wgt * ((num - [pairA, pairB].length : Nat) : ℚ)) = 492 ∧
    resampleD unitEnv (flatFrame 640 480) [pairA, pairB] 0
      = some ([pairA, pairB]
          ++ (spawnD unitEnv (flatFrame 640 480) pairA 0 492
              ++ spawnD unitEnv (flatFrame 640 480) pairB (0 + 492) 505), 0 + (492 + 505)) ∧
    (spawnD unitEnv (flatFrame 640 480) pairA 0 492).length = 492 ∧
    (492 : Int) ≠ ⌊pairA.wgt * ((num - [pairA, pairB].length : Nat) : ℚ)⌋ := by
  have hm : ((num - [pairA, pairB].length : Nat) : ℚ) = 998 := by
    norm_num [num]
  have hfloor : ⌊pairA.wgt * ((num - [pairA, pairB].length : Nat) : ℚ)⌋ = 491 := by
    rw [hm, Int.floor_eq_iff]
    norm_num [pairA]
  have hfl : fl (pairA.wgt * ((num - [pairA, pairB].length : Nat) : ℚ)) = 492 := by
    rw [hm]
    apply fl_eval _ _ 8 8655355533852672
    · norm_num [pairA]
    · norm_num [pairA]
    · norm_num [pairA, abs_lt]
    · norm_num
  refine ⟨reweightD_pairAB, by simp [num], hfloor, hfl, ?_, spawnD_length _ _ _ _ _, ?_⟩
  · exact resampleD_pair unitEnv (flatFrame 640 480) 0 pairA pairB 492 505 num_newD_pairA
      num_newD_pairB
  · rw [hfloor]; norm_num

/-! ## Size of the population after one pass in doubles -/

theorem l_sumD_fold_bounds (P : List Particle) (hl : ∀ p ∈ P, 0 ≤ p.like) (a : ℚ) (ha : 0 ≤ a) :
    0 ≤ P.foldl (fun acc p => fl (acc + p.like)) a ∧
    (1 - 1 / 2 ^ 53) ^ P.length * (a + (P.map (fun p => p.like)).sum)
      ≤ P.foldl (fun acc p => fl (acc + p.like)) a ∧
    P.foldl (fun acc p => fl (acc + p.like)) a
      ≤ (1 + 1 / 2 ^ 53) ^ P.length * (a + (P.map (fun p => p.like)).sum) := by
  induction P generalizing a with
  | nil => simp [ha]
  | cons p ps ih =>
    have hp : 0 ≤ p.like := hl p (List.mem_cons_self _ _)
    have hps : ∀ q ∈ ps, 0 ≤ q.like := fun q hq => hl q (List.mem_cons_of_mem _ hq)
    have hT : 0 ≤ (ps.map (fun p => p.like)).sum := like_sum_nonneg ps hps
    have hs : 0 ≤ a + p.like := add_nonneg ha hp
    have hf0 : 0 ≤ fl (a + p.like) := fl_nonneg _ hs
    obtain ⟨i0, i1, i2⟩ := ih hps (fl (a + p.like)) hf0
    have hlo := fl_lower _ hs
    have hup := fl_upper _ hs
    have hbl : (0 : ℚ) ≤ (1 - 1 / 2 ^ 53) ^ ps.length := by positivity
    have hbu : (0 : ℚ) ≤ (1 + 1 / 2 ^ 53) ^ ps.length := by positivity
    have hu1 : (0 : ℚ) ≤ 1 - 1 / 2 ^ 53 := by norm_num
    have hu2 : (1 : ℚ) - 1 / 2 ^ 53 ≤ 1 := by norm_num
    have hu3 : (1 : ℚ) ≤ 1 + 1 / 2 ^ 53 := by norm_num
    simp only [List.foldl_cons, List.length_cons, List.map_cons, List.sum_cons]
    refine ⟨i0, ?_, ?_⟩
    · calc (1 - 1 / 2 ^ 53) ^ (ps.length + 1) * (a + (p.like + (ps.map (fun p => p.like)).sum))
          = (1 - 1 / 2 ^ 53) ^ ps.length
              * ((1 - 1 / 2 ^ 53) * (a + p.like)
                  + (1 - 1 / 2 ^ 53) * (ps.map (fun p => p.like)).sum) := by ring
        _ ≤ (1 - 1 / 2 ^ 53) ^ ps.length
              * (fl (a + p.like) + (ps.map (fun p => p.like)).sum) := by
            apply mul_le_mul_of_nonneg_left _ hbl
            have h1 : (1 - 1 / 2 ^ 53) * (a + p.like) ≤ fl (a + p.like) := by linarith
            have h2 : (1 - 1 / 2 ^ 53) * (ps.map (fun p => p.like)).sum
                ≤ (ps.map (fun p => p.like)).sum := by nlinarith
            linarith
        _ ≤ _ := i1
    · calc List.foldl (fun acc p => fl (acc + p.like)) (fl (a + p.like)) ps
          ≤ (1 + 1 / 2 ^ 53) ^ ps.length
              * (fl (a + p.like) + (ps.map (fun p => p.like)).sum) := i2
        _ ≤ (1 + 1 / 2 ^ 53) ^ ps.length
              * ((1 + 1 / 2 ^ 53) * (a + p.like)
                  + (1 + 1 / 2 ^ 53) * (ps.map (fun p => p.like)).sum) := by
            apply mul_le_mul_of_nonneg_left _ hbu
            have h1 : fl (a + p.like) ≤ (1 + 1 / 2 ^ 53) * (a + p.like) := by linarith
            have h2 : (ps.map (fun p => p.like)).sum
                ≤ (1 + 1 / 2 ^ 53) * (ps.map (fun p => p.like)).sum := by nlinarith
            linarith
        _ = (1 + 1 / 2 ^ 53) ^ (ps.length + 1)
              * (a + (p.like + (ps.map (fun p => p.like)).sum)) := by ring

theorem pow_one_sub_ge (k : Nat) (hk : k ≤ 1000) :
    (1 : ℚ) - 1000 * (1 / 2 ^ 53) ≤ (1 - 1 / 2 ^ 53) ^ k := by
  have hb := one_add_mul_le_pow (a := (-(1 / 2 ^ 53) : ℚ)) (by norm_num) k
  have hk2 : (k : ℚ) ≤ 1000 := by exact_mod_cast hk
  have e : (1 : ℚ) + -(1 / 2 ^ 53) = 1 - 1 / 2 ^ 53 := by ring
  rw [e] at hb
  have h3 : (1 : ℚ) - 1000 * (1 / 2 ^ 53) ≤ 1 + (k : ℚ) * -(1 / 2 ^ 53) := by nlinarith
  linarith

theorem pow_one_add_mul_le (k : Nat) (hk : k ≤ 1000) :
    (1 + 1 / 2 ^ 53 : ℚ) ^ k * (1 - 1000 * (1 / 2 ^ 53)) ≤ 1 := by
  have h1 := pow_one_sub_ge k hk
  have hpos : (0 : ℚ) ≤ (1 + 1 / 2 ^ 53) ^ k := by positivity
  have h2 : (1 + 1 / 2 ^ 53 : ℚ) ^ k * (1 - 1 / 2 ^ 53) ^ k ≤ 1 := by
    rw [← mul_pow]
    apply pow_le_one₀
    · norm_num
    · norm_num
  calc (1 + 1 / 2 ^ 53 : ℚ) ^ k * (1 - 1000 * (1 / 2 ^ 53))
      ≤ (1 + 1 / 2 ^ 53 : ℚ) ^ k * (1 - 1 / 2 ^ 53) ^ k := mul_le_mul_of_nonneg_left h1 hpos
    _ ≤ 1 := h2

/-- The rounded sum `L` of `k ≤ 1000` non-negative likelihoods against their exact sum `T`. -/
theorem l_sumD_bounds (S : List Particle) (hl : ∀ p ∈ S, 0 ≤ p.like) (hk : S.length ≤ 1000) :
    0 ≤ l_sumD S ∧
    (1 - 1000 * (1 / 2 ^ 53)) * (S.map (fun p => p.like)).sum ≤ l_sumD S ∧
    (1 - 1000 * (1 / 2 ^ 53)) * l_sumD S ≤ (S.map (fun p => p.like)).sum := by
  obtain ⟨h0, h1, h2⟩ := l_sumD_fold_bounds S hl 0 (le_refl _)
  rw [zero_add] at h1 h2
  have hT : 0 ≤ (S.map (fun p => p.like)).sum := like_sum_nonneg S hl
  have hc : (0 : ℚ) ≤ 1 - 1000 * (1 / 2 ^ 53) := by norm_num
  refine ⟨h0, ?_, ?_⟩
  · calc (1 - 1000 * (1 / 2 ^ 53)) * (S.map (fun p => p.like)).sum
        ≤ (1 - 1 / 2 ^ 53) ^ S.length * (S.map (fun p => p.like)).sum :=
          mul_le_mul_of_nonneg_right (pow_one_sub_ge S.length hk) hT
      _ ≤ l_sumD S := h1
  · calc (1 - 1000 * (1 / 2 ^ 53)) * l_sumD S
        ≤ (1 - 1000 * (1 / 2 ^ 53))
            * ((1 + 1 / 2 ^ 53) ^ S.length * (S.map (fun p => p.like)).sum) :=
          mul_le_mul_of_nonneg_left h2 hc
      _ = ((1 + 1 / 2 ^ 53) ^ S.length * (1 - 1000 * (1 / 2 ^ 53)))
            * (S.map (fun p => p.like)).sum := by ring
      _ ≤ 1 * (S.map (fun p => p.like)).sum :=
          mul_le_mul_of_nonneg_right (pow_one_add_mul_le S.length hk) hT
      _ = (S.map (fun p => p.like)).sum := one_mul _

theorem reweightLoopD_eq (s : ℚ) (hs : s ≠ 0) (P : List Particle) :
    reweightLoopD s P = some (P.map (fun p => { p with wgt := fl (p.like / s) })) := by
  induction P with
  | nil => rfl
  | cons p ps ih => simp [reweightLoopD, ih, divDD, hs]

theorem sum_map_le_sum_map (P : List Particle) (g h : Particle → ℚ)
    (hgh : ∀ p ∈ P, g p ≤ h p) : (P.map g).sum ≤ (P.map h).sum := by
  induction P with
  | nil => simp
  | cons p ps ih =>
    simp only [List.map_cons, List.sum_cons]
    have h1 := hgh p (List.mem_cons_self _ _)
    have h2 := ih (fun q hq => hgh q (List.mem_cons_of_mem _ hq))
    linarith

theorem sum_map_const_mul (P : List Particle) (c : ℚ) :
    (P.map (fun p => c * p.like)).sum = c * (P.map (fun p => p.like)).sum := by
  induction P with
  | nil => simp
  | cons p ps ih => simp only [List.map_cons, List.sum_cons, ih]; ring

theorem fl_le_of_le (x c : ℚ) (hx : 0 ≤ x) (hc : x ≤ c) : fl x ≤ c * (1001 / 1000) := by
  have h := fl_upper x hx
  have h2 : x * (1 + 1 / 2 ^ 53) ≤ x * (1001 / 1000) :=
    mul_le_mul_of_nonneg_left (by norm_num) hx
  have h3 : x * (1001 / 1000) ≤ c * (1001 / 1000) :=
    mul_le_mul_of_nonneg_right hc (by norm_num)
  linarith

theorem likeD_nonneg (h s : Fin 256) : 0 ≤ likeD h s := by
  have hh : (((70 : Int) - (h.val : Int)).natAbs : ℚ) ≤ 185 := by
    have : ((70 : Int) - (h.val : Int)).natAbs ≤ 185 := by have := h.isLt; omega
    exact_mod_cast this
  have hs : (((200 : Int) - (s.val : Int)).natAbs : ℚ) ≤ 200 := by
    have : ((200 : Int) - (s.val : Int)).natAbs ≤ 200 := by have := s.isLt; omega
    exact_mod_cast this
  have hh0 : (0 : ℚ) ≤ (((70 : Int) - (h.val : Int)).natAbs : ℚ) := Nat.cast_nonneg _
  have hs0 : (0 : ℚ) ≤ (((200 : Int) - (s.val : Int)).natAbs : ℚ) := Nat.cast_nonneg _
  simp only [likeD]
  generalize (((70 : Int) - (h.val : Int)).natAbs : ℚ) = a at hh hh0
  generalize (((200 : Int) - (s.val : Int)).natAbs : ℚ) = b at hs hs0
  have a0 : 0 ≤ a / 180 := by positivity
  have a1 : 0 ≤ fl (a / 180) := fl_nonneg _ a0
  have a2 : fl (a / 180) ≤ 185 / 180 * (1001 / 1000) :=
    fl_le_of_le _ _ a0 (by linarith)
  have c1 : 0 ≤ fl (4 / 5) := fl_nonneg _ (by norm_num)
  have c2 : fl (4 / 5) ≤ 4 / 5 * (1001 / 1000) := fl_le_of_le _ _ (by norm_num) (le_refl _)
  have p0 : 0 ≤ fl (a / 180) * fl (4 / 5) := mul_nonneg a1 c1
  have p1 : fl (a / 180) * fl (4 / 5) ≤ 185 / 180 * (1001 / 1000) * (4 / 5 * (1001 / 1000)) :=
    mul_le_mul a2 c2 c1 (by norm_num)
  have p2 : 0 ≤ fl (fl (a / 180) * fl (4 / 5)) := fl_nonneg _ p0
  have p3 := fl_le_of_le _ _ p0 p1
  have b0 : 0 ≤ b / 255 := by positivity
  have b1 : 0 ≤ fl (b / 255) := fl_nonneg _ b0
  have b2 : fl (b / 255) ≤ 200 / 255 * (1001 / 1000) :=
    fl_le_of_le _ _ b0 (by linarith)
  have d1 : 0 ≤ fl (1 / 5) := fl_nonneg _ (by norm_num)
  have d2 : fl (1 / 5) ≤ 1 / 5 * (1001 / 1000) := fl_le_of_le _ _ (by norm_num) (le_refl _)
  have q0 : 0 ≤ fl (b / 255) * fl (1 / 5) := mul_nonneg b1 d1
  have q1 : fl (b / 255) * fl (1 / 5) ≤ 200 / 255 * (1001 / 1000) * (1 / 5 * (1001 / 1000)) :=
    mul_le_mul b2 d2 d1 (by norm_num)
  have q2 : 0 ≤ fl (fl (b / 255) * fl (1 / 5)) := fl_nonneg _ q0
  have q3 := fl_le_of_le _ _ q0 q1
  have s0 : 0 ≤ fl (fl (a / 180) * fl (4 / 5)) + fl (fl (b / 255) * fl (1 / 5)) :=
    add_nonneg p2 q2
  have s1 := fl_le_of_le _ _ s0 (add_le_add p3 q3)
  apply fl_nonneg
  have : (185 / 180 * (1001 / 1000) * (4 / 5 * (1001 / 1000)) * (1001 / 1000)
      + 200 / 255 * (1001 / 1000) * (1 / 5 * (1001 / 1000)) * (1001 / 1000)) * (1001 / 1000)
        ≤ (1 : ℚ) := by norm_num
  linarith

theorem scoreOneD_like_nonneg (f : Frame) (p : Particle) : 0 ≤ (scoreOneD f p).like := by
  unfold scoreOneD
  split
  · exact likeD_nonneg _ _
  · exact le_refl _

theorem markFromWith_like (T : ℚ) (d n : Nat) (P : List Particle) (i : Nat) :
    ∀ q ∈ markFromWith T d n i P, ∃ p ∈ P, q.like = p.like := by
  induction P generalizing i with
  | nil => intro q hq; simp [markFromWith] at hq
  | cons p ps ih =>
    intro q hq
    simp only [markFromWith, List.mem_cons] at hq
    rcases hq with rfl | hq
    · exact ⟨p, List.mem_cons_self _ _, rfl⟩
    · obtain ⟨r, hr, hqr⟩ := ih (i + 1) q hq
      exact ⟨r, List.mem_cons_of_mem _ hr, hqr⟩

theorem markFromWith_length (T : ℚ) (d n : Nat) (P : List Particle) (i : Nat) :
    (markFromWith T d n i P).length = P.length := by
  induction P generalizing i with
  | nil => rfl
  | cons p ps ih => simp [markFromWith, ih]

theorem pruneWith_like (T : ℚ) (d : Nat) (P : List Particle) :
    ∀ q ∈ pruneWith T d P, ∃ p ∈ P, q.like = p.like := by
  intro q hq
  rw [pruneWith, eraseLoop_eq_filter] at hq
  exact markFromWith_like _ _ _ _ _ q (List.mem_filter.mp hq).1

theorem pruneWith_length_le (T : ℚ) (d : Nat) (P : List Particle) :
    (pruneWith T d P).length ≤ P.length := by
  rw [pruneWith, eraseLoop_eq_filter]
  calc ((markFromWith T d P.length 0 P).filter (fun p => p.keep)).length
      ≤ (markFromWith T d P.length 0 P).length := List.length_filter_le _ _
    _ = P.length := markFromWith_length _ _ _ _ _

theorem survivorsD_length_le (f : Frame) (P : List Particle) :
    (survivorsD f P).length ≤ P.length := by
  have h := pruneWith_length_le (fl (9 / 10)) 100 (sort ((P.map predictOneD).map (scoreOneD f)))
  simpa [survivorsD, sort, List.length_insertionSort] using h

theorem survivorsD_like_nonneg (f : Frame) (P : List Particle) :
    ∀ q ∈ survivorsD f P, 0 ≤ q.like := by
  intro q hq
  obtain ⟨p, hp, hqp⟩ := pruneWith_like _ _ _ q hq
  have hp2 : p ∈ (P.map predictOneD).map (scoreOneD f) :=
    (List.perm_insertionSort _ _).mem_iff.mp hp
  simp only [List.mem_map] at hp2
  obtain ⟨a, -, rfl⟩ := hp2
  rw [hqp]
  exact scoreOneD_like_nonneg f a

/-- The weights of lines 108-111 in doubles and the rounded products of line 116: for at most
1000 survivors with non-negative likelihoods and a rounded sum `L` that is not zero, every weight
lies in [0, 2] and the rounded products `fl (w * m)` add up to `m` within one half. -/
theorem reweightD_products (S : List Particle) (hl : ∀ p ∈ S, 0 ≤ p.like)
    (hk : S.length ≤ 1000) (hL : l_sumD S ≠ 0) (m : Nat) (hm : m ≤ 1000) :
    (∀ p ∈ S, 0 ≤ fl (p.like / l_sumD S) ∧ fl (p.like / l_sumD S) ≤ 2) ∧
    (m : ℚ) - 1 / 2 ≤ (S.map (fun p => fl (fl (p.like / l_sumD S) * (m : ℚ)))).sum ∧
    (S.map (fun p => fl (fl (p.like / l_sumD S) * (m : ℚ)))).sum ≤ (m : ℚ) + 1 / 2 := by
  obtain ⟨hL0, hTL, hLT⟩ := l_sumD_bounds S hl hk
  have hLpos : 0 < l_sumD S := lt_of_le_of_ne hL0 (Ne.symm hL)
  generalize l_sumD S = L at *
  have hT0 : 0 ≤ (S.map (fun p => p.like)).sum := like_sum_nonneg S hl
  have hm0 : (0 : ℚ) ≤ (m : ℚ) := Nat.cast_nonneg _
  have hm1 : (m : ℚ) ≤ 1000 := by exact_mod_cast hm
  have hx0 : ∀ p ∈ S, 0 ≤ p.like / L := fun p hp => div_nonneg (hl p hp) (le_of_lt hLpos)
  have hw0 : ∀ p ∈ S, 0 ≤ fl (p.like / L) := fun p hp => fl_nonneg _ (hx0 p hp)
  -- the exact sum of the quotients
  have hsumx : (S.map (fun p => p.like / L)).sum = (S.map (fun p => p.like)).sum / L := by
    have : (fun p : Particle => p.like / L) = (fun p : Particle => (1 / L) * p.like) := by
      funext p; ring
    rw [this, sum_map_const_mul]; ring
  have hq_up : (S.map (fun p => p.like)).sum / L * (1 - 1000 * (1 / 2 ^ 53)) ≤ 1 := by
    rw [div_mul_eq_mul_div, div_le_one hLpos]
    linarith
  have hq_lo : 1 - 1000 * (1 / 2 ^ 53) ≤ (S.map (fun p => p.like)).sum / L := by
    rw [le_div_iff₀ hLpos]
    exact hLT
  refine ⟨?_, ?_, ?_⟩
  · intro p hp
    refine ⟨hw0 p hp, ?_⟩
    have h1 : p.like / L ≤ (S.map (fun p => p.like)).sum / L :=
      div_le_div_of_nonneg_right (like_le_sum S hl p hp) (le_of_lt hLpos)
    have h2 := fl_upper _ (hx0 p hp)
    have h3 : (S.map (fun p => p.like)).sum / L ≤ 3 / 2 := by
      have hq0 : 0 ≤ (S.map (fun p => p.like)).sum / L := div_nonneg hT0 (le_of_lt hLpos)
      have : (1 : ℚ) - 1000 * (1 / 2 ^ 53) ≥ 2 / 3 := by norm_num
      nlinarith
    have h4 : p.like / L * (1 + 1 / 2 ^ 53) ≤ 3 / 2 * (1 + 1 / 2 ^ 53) :=
      mul_le_mul_of_nonneg_right (le_trans h1 h3) (by norm_num)
    have h5 : (3 / 2 : ℚ) * (1 + 1 / 2 ^ 53) ≤ 2 := by norm_num
    linarith
  · have hstep : ∀ p ∈ S, (1 - 1 / 2 ^ 53) * (1 - 1 / 2 ^ 53) * (m : ℚ) * (p.like / L)
        ≤ fl (fl (p.like / L) * (m : ℚ)) := by
      intro p hp
      have h1 := fl_lower _ (hx0 p hp)
      have h2 := fl_lower _ (mul_nonneg (hw0 p hp) hm0)
      have h3 : p.like / L * (1 - 1 / 2 ^ 53) * (m : ℚ) * (1 - 1 / 2 ^ 53)
          ≤ fl (p.like / L) * (m : ℚ) * (1 - 1 / 2 ^ 53) :=
        mul_le_mul_of_nonneg_right (mul_le_mul_of_nonneg_right h1 hm0) (by norm_num)
      calc (1 - 1 / 2 ^ 53) * (1 - 1 / 2 ^ 53) * (m : ℚ) * (p.like / L)
          = p.like / L * (1 - 1 / 2 ^ 53) * (m : ℚ) * (1 - 1 / 2 ^ 53) := by ring
        _ ≤ fl (fl (p.like / L) * (m : ℚ)) := le_trans h3 h2
    have hsum := sum_map_le_sum_map S _ _ hstep
    have e : (S.map (fun p => (1 - 1 / 2 ^ 53) * (1 - 1 / 2 ^ 53) * (m : ℚ) * (p.like / L))).sum
        = (1 - 1 / 2 ^ 53) * (1 - 1 / 2 ^ 53) * (m : ℚ) * ((S.map (fun p => p.like)).sum / L) := by
      have : (fun p : Particle => (1 - 1 / 2 ^ 53) * (1 - 1 / 2 ^ 53) * (m : ℚ) * (p.like / L))
          = (fun p : Particle =>
              ((1 - 1 / 2 ^ 53) * (1 - 1 / 2 ^ 53) * (m : ℚ) * (1 / L)) * p.like) := by
        funext p; ring
      rw [this, sum_map_const_mul]; ring
    rw [e] at hsum
    have hc : (0 : ℚ) ≤ (1 - 1 / 2 ^ 53) * (1 - 1 / 2 ^ 53) * (m : ℚ) :=
      mul_nonneg (by norm_num) hm0
    have h6 := mul_le_mul_of_nonneg_left hq_lo hc
    have h7 : (m : ℚ) - 1 / 2
        ≤ (1 - 1 / 2 ^ 53) * (1 - 1 / 2 ^ 53) * (m : ℚ) * (1 - 1000 * (1 / 2 ^ 53)) := by
      have hn : (1 : ℚ) - 1 / 2000
          ≤ (1 - 1 / 2 ^ 53) * (1 - 1 / 2 ^ 53) * (1 - 1000 * (1 / 2 ^ 53)) := by norm_num
      nlinarith
    linarith
  · have hstep : ∀ p ∈ S, fl (fl (p.like / L) * (m : ℚ))
        ≤ (1 + 1 / 2 ^ 53) * (1 + 1 / 2 ^ 53) * (m : ℚ) * (p.like / L) := by
      intro p hp
      have h1 := fl_upper _ (hx0 p hp)
      have h2 := fl_upper _ (mul_nonneg (hw0 p hp) hm0)
      have h3 : fl (p.like / L) * (m : ℚ) * (1 + 1 / 2 ^ 53)
          ≤ p.like / L * (1 + 1 / 2 ^ 53) * (m : ℚ) * (1 + 1 / 2 ^ 53) :=
        mul_le_mul_of_nonneg_right (mul_le_mul_of_nonneg_right h1 hm0) (by norm_num)
      calc fl (fl (p.like / L) * (m : ℚ))
          ≤ p.like / L * (1 + 1 / 2 ^ 53) * (m : ℚ) * (1 + 1 / 2 ^ 53) := le_trans h2 h3
        _ = (1 + 1 / 2 ^ 53) * (1 + 1 / 2 ^ 53) * (m : ℚ) * (p.like / L) := by ring
    have hsum := sum_map_le_sum_map S _ _ hstep
    have e : (S.map (fun p => (1 + 1 / 2 ^ 53) * (1 + 1 / 2 ^ 53) * (m : ℚ) * (p.like / L))).sum
        = (1 + 1 / 2 ^ 53) * (1 + 1 / 2 ^ 53) * (m : ℚ) * ((S.map (fun p => p.like)).sum / L) := by
      have : (fun p : Particle => (1 + 1 / 2 ^ 53) * (1 + 1 / 2 ^ 53) * (m : ℚ) * (p.like / L))
          = (fun p : Particle =>
              ((1 + 1 / 2 ^ 53) * (1 + 1 / 2 ^ 53) * (m : ℚ) * (1 / L)) * p.like) := by
        funext p; ring
      rw [this, sum_map_const_mul]; ring
    rw [e] at hsum
    -- T / L ≤ 1 / c, and (1 + u)^2 ≤ (1 + 1/2000) c
    have hn : (1 + 1 / 2 ^ 53 : ℚ) * (1 + 1 / 2 ^ 53)
        ≤ (1 + 1 / 2000) * (1 - 1000 * (1 / 2 ^ 53)) := by norm_num
    have hq0 : 0 ≤ (S.map (fun p => p.like)).sum / L := div_nonneg hT0 (le_of_lt hLpos)
    have h8 : (1 + 1 / 2 ^ 53 : ℚ) * (1 + 1 / 2 ^ 53) * ((S.map (fun p => p.like)).sum / L)
        ≤ 1 + 1 / 2000 := by
      calc (1 + 1 / 2 ^ 53 : ℚ) * (1 + 1 / 2 ^ 53) * ((S.map (fun p => p.like)).sum / L)
          ≤ (1 + 1 / 2000) * (1 - 1000 * (1 / 2 ^ 53)) * ((S.map (fun p => p.like)).sum / L) :=
            mul_le_mul_of_nonneg_right hn hq0
        _ = (1 + 1 / 2000) * ((S.map (fun p => p.like)).sum / L * (1 - 1000 * (1 / 2 ^ 53))) := by
            ring
        _ ≤ (1 + 1 / 2000) * 1 := mul_le_mul_of_nonneg_left hq_up (by norm_num)
        _ = 1 + 1 / 2000 := mul_one _
    have h9 : (1 + 1 / 2 ^ 53) * (1 + 1 / 2 ^ 53) * (m : ℚ) * ((S.map (fun p => p.like)).sum / L)
        ≤ (m : ℚ) * (1 + 1 / 2000) := by
      calc (1 + 1 / 2 ^ 53) * (1 + 1 / 2 ^ 53) * (m : ℚ) * ((S.map (fun p => p.like)).sum / L)
          = (m : ℚ) * ((1 + 1 / 2 ^ 53 : ℚ) * (1 + 1 / 2 ^ 53)
              * ((S.map (fun p => p.like)).sum / L)) := by ring
        _ ≤ (m : ℚ) * (1 + 1 / 2000) := mul_le_mul_of_nonneg_left h8 hm0
    have h10 : (m : ℚ) * (1 + 1 / 2000) ≤ (m : ℚ) + 1 / 2 := by linarith
    linarith

/-- C5, as the code has it: the survivors of a pass are never more than the population it
started from; and when a pass in doubles leaves `k` survivors with `1 ≤ k ≤ num` and a rounded
total likelihood that is not zero, the pass succeeds and the population `s` after resampling
satisfies `num - k ≤ s ≤ num`: it never exceeds the target, and it falls short of it by at most
as many particles as there are survivors. -/
theorem passD_size_within_target (E : Env) (f : Frame) (P : List Particle) (t : Nat) :
    (survivorsD f P).length ≤ P.length ∧
    (1 ≤ (survivorsD f P).length → (survivorsD f P).length ≤ num →
      l_sumD (survivorsD f P) ≠ 0 →
      ∃ (R : List Particle) (t1 : Nat), passD E f P t = some (R, t1) ∧
        num - (survivorsD f P).length ≤ R.length ∧ R.length ≤ num) := by
  refine ⟨survivorsD_length_le f P, ?_⟩
  intro _ hk hs
  generalize hS : survivorsD f P = S at hk hs
  have hl : ∀ p ∈ S, 0 ≤ p.like := by
    rw [← hS]; exact survivorsD_like_nonneg f P
  have hk2 : S.length ≤ 1000 := hk
  obtain ⟨hw, hlo, hup⟩ := reweightD_products S hl hk2 hs (num - S.length) (by simp [num])
  have hW : reweightD S = some (S.map (fun p => { p with wgt := fl (p.like / l_sumD S) })) :=
    reweightLoopD_eq (l_sumD S) hs S
  have hlen : (S.map (fun p => { p with wgt := fl (p.like / l_sumD S) })).length = S.length :=
    List.length_map _ _
  obtain ⟨Pnew, hr, hcount⟩ := resampleD_some_of_weights E f
    (S.map (fun p => { p with wgt := fl (p.like / l_sumD S) })) t (by rw [hlen]; exact hk)
    (by
      intro p hp
      obtain ⟨a, ha, rfl⟩ := List.mem_map.mp hp
      exact hw a ha)
  refine ⟨S.map (fun p => { p with wgt := fl (p.like / l_sumD S) }) ++ Pnew, t + Pnew.length,
    by simp only [passD, hS, hW, hr], ?_⟩
  obtain ⟨hb1, hb2, -⟩ := floor_sum_bounds 1
    (S.map (fun p => fl (fl (p.like / l_sumD S) * ((num - S.length : Nat) : ℚ))))
  have hmm : ((S.map (fun p => fl (fl (p.like / l_sumD S) * ((num - S.length : Nat) : ℚ)))).map
        (fun w => ⌊w * 1⌋))
      = (S.map (fun p => { p with wgt := fl (p.like / l_sumD S) })).map
          (fun s => ⌊fl (s.wgt * ((num - (S.map (fun p =>
            { p with wgt := fl (p.like / l_sumD S) })).length : Nat) : ℚ))⌋) := by
    simp [List.map_map, Function.comp_def]
  rw [hmm, ← hcount] at hb1 hb2
  simp only [List.length_map, mul_one, Int.cast_natCast] at hb1 hb2
  have hc : ((num - S.length : Nat) : ℚ) = (num : ℚ) - S.length := Nat.cast_sub hk
  rw [hc] at hlo hup hb1 hb2
  have hup2 : (Pnew.length : ℚ) < (num : ℚ) - S.length + 1 := by linarith
  have hlo2 : (num : ℚ) - S.length - S.length - 1 < (Pnew.length : ℚ) := by linarith
  have hup3 : (Pnew.length : Int) < (num : Int) - S.length + 1 := by exact_mod_cast hup2
  have hlo3 : (num : Int) - S.length - S.length - 1 < (Pnew.length : Int) := by
    exact_mod_cast hlo2
  simp only [List.length_append, List.length_map]
  constructor
  · omega
  · omega

/-! ## A pass in doubles on a population of equal particles -/

theorem keepTestWith_of_low (T : ℚ) (d n i : Nat) (p : Particle) (hp : p.like ≤ T) :
    keepTestWith T d n i p = decide (i > n - n / d) := by
  have hn : ¬ p.like > T := not_lt.mpr hp
  simp [keepTestWith, hn]

theorem eraseLoop_markFromWith_replicate (T : ℚ) (m : Nat) (p : Particle) (hp : p.like ≤ T)
    (n i : Nat) :
    eraseLoop (markFromWith T 100 m i (List.replicate n p))
      = List.replicate ((i + n) - max i (m - m / 100 + 1)) { p with keep := true } := by
  induction n generalizing i with
  | zero =>
    have h : (i + 0) - max i (m - m / 100 + 1) = 0 := by
      have := le_max_left i (m - m / 100 + 1)
      omega
    rw [h]
    rfl
  | succ n ih =>
    rw [List.replicate_succ, markFromWith, keepTestWith_of_low T 100 m i p hp]
    by_cases hi : i > m - m / 100
    · have e : max (i + 1) (m - m / 100 + 1) = i + 1 := max_eq_left (by omega)
      have e0 : max i (m - m / 100 + 1) = i := max_eq_left (by omega)
      have hc : (i + (n + 1)) - max i (m - m / 100 + 1)
          = ((i + 1 + n) - max (i + 1) (m - m / 100 + 1)) + 1 := by
        rw [e, e0]; omega
      rw [eraseLoop, hc, List.replicate_succ, ← ih (i + 1)]
      simp [hi]
    · have e : max (i + 1) (m - m / 100 + 1) = m - m / 100 + 1 := max_eq_right (by omega)
      have e0 : max i (m - m / 100 + 1) = m - m / 100 + 1 := max_eq_right (by omega)
      have hc : (i + (n + 1)) - max i (m - m / 100 + 1)
          = (i + 1 + n) - max (i + 1) (m - m / 100 + 1) := by
        rw [e, e0]; omega
      rw [eraseLoop, hc, ← ih (i + 1)]
      simp [hi]

theorem pruneWith_replicate_of_low (T : ℚ) (n : Nat) (p : Particle) (hp : p.like ≤ T) :
    pruneWith T 100 (List.replicate n p)
      = List.replicate (n / 100 - 1) { p with keep := true } := by
  rw [pruneWith, List.length_replicate, eraseLoop_markFromWith_replicate T n p hp n 0]
  have h : (0 + n) - max 0 (n - n / 100 + 1) = n / 100 - 1 := by
    have e : max 0 (n - n / 100 + 1) = n - n / 100 + 1 := max_eq_right (by omega)
    rw [e]; omega
  rw [h]

theorem fl_100 : fl 100 = 100 := by
  have h := fl_natCast 100 (by norm_num)
  exact_mod_cast h

theorem fl_nine_tenths : fl (9 / 10) = 8106479329266893 / 9007199254740992 := by
  apply fl_eval _ _ (-1) 8106479329266893
  · norm_num
  · norm_num
  · norm_num [abs_lt]
  · norm_num

/-- The likelihood of a pixel of hue 160 and saturation 200 in doubles: `90 / 180 = 0.5`,
`0.5 * 0.8` is the double 0.4, and `1 - 0.4` rounds to the double 0.6. -/
theorem likeD_dull : likeD 160 200 = 5404319552844595 / 9007199254740992 := by
  have h1 : ((160 : Fin 256).val : Int) = 160 := rfl
  have h2 : ((200 : Fin 256).val : Int) = 200 := rfl
  have e1 : (((70 : Int) - 160).natAbs : ℚ) / 180 = 1 / 2 := by norm_num
  have e2 : (((200 : Int) - 200).natAbs : ℚ) / 255 = 0 := by norm_num
  have a1 : fl (1 / 2) = 1 / 2 := by
    apply fl_eval _ _ (-1) 4503599627370496
    · norm_num
    · norm_num
    · norm_num [abs_lt]
    · norm_num
  have a2 : fl (4 / 5) = 3602879701896397 / 4503599627370496 := by
    apply fl_eval _ _ (-1) 7205759403792794
    · norm_num
    · norm_num
    · norm_num [abs_lt]
    · norm_num
  have a3 : fl (1 / 2 * (3602879701896397 / 4503599627370496))
      = 3602879701896397 / 9007199254740992 := by
    apply fl_eval _ _ (-2) 7205759403792794
    · norm_num
    · norm_num
    · norm_num [abs_lt]
    · norm_num
  have a4 : fl (3602879701896397 / 9007199254740992 + 0)
      = 3602879701896397 / 9007199254740992 := by
    apply fl_eval _ _ (-2) 7205759403792794
    · norm_num
    · norm_num
    · norm_num [abs_lt]
    · norm_num
  have a5 : fl (1 - 3602879701896397 / 9007199254740992)
      = 5404319552844595 / 9007199254740992 := by
    apply fl_eval _ _ (-1) 5404319552844595
    · norm_num
    · norm_num
    · norm_num [abs_lt]
    · norm_num
  simp only [likeD, h1, h2, e1, e2, a1, a2, a3, fl_zero, zero_mul, a4, a5]

theorem predictOneD_still : predictOneD (still 100 100 1) = still 100 100 1 := by
  have h : (100 : ℚ) + 0 = 100 := add_zero _
  simp only [predictOneD, still, h, fl_100]

theorem scoreOneD_dull :
    scoreOneD (dullFrame 640 480) (still 100 100 1)
      = ⟨⟨100, 100⟩, ⟨0, 0⟩, 5404319552844595 / 9007199254740992, 0, false⟩ := by
  have hin : inFrame (dullFrame 640 480) (still 100 100 1).pos = true := by
    simp only [inFrame, dullFrame, still, decide_eq_true_eq]
    norm_num
  rw [scoreOneD, if_pos hin]
  simp only [dullFrame, likeD_dull, still]

/-- Lines 60-99 in doubles on `n` particles at (100, 100) in a frame of hue 160 and saturation
200: every particle is scored the double 0.6, which is not above the double 0.9, and the rank
test keeps `n / 100 - 1` of them. -/
theorem survivorsD_dull (n : Nat) :
    survivorsD (dullFrame 640 480) (List.replicate n (still 100 100 1))
      = List.replicate (n / 100 - 1) { dullSurvivor with wgt := 0 } := by
  rw [survivorsD, List.map_replicate, List.map_replicate, predictOneD_still, scoreOneD_dull,
    sort_replicate, pruneWith_replicate_of_low]
  · rfl
  · rw [fl_nine_tenths]
    norm_num

theorem l_sumD_one (p : Particle) (S1 : ℚ) (h1 : fl (0 + p.like) = S1) :
    l_sumD [p] = S1 := by
  rw [← h1]; rfl

theorem l_sumD_five (p : Particle) (S1 S2 S3 S4 S5 : ℚ) (h1 : fl (0 + p.like) = S1)
    (h2 : fl (S1 + p.like) = S2) (h3 : fl (S2 + p.like) = S3) (h4 : fl (S3 + p.like) = S4)
    (h5 : fl (S4 + p.like) = S5) : l_sumD (List.replicate 5 p) = S5 := by
  have e : l_sumD (List.replicate 5 p)
      = fl (fl (fl (fl (fl (0 + p.like) + p.like) + p.like) + p.like) + p.like) := rfl
  rw [e, h1, h2, h3, h4, h5]

theorem dull_sum_one :
    fl (0 + ({ dullSurvivor with wgt := 0 } : Particle).like)
      = 5404319552844595 / 9007199254740992 := by
  apply fl_eval _ _ (-1) 5404319552844595
  · norm_num [dullSurvivor]
  · norm_num [dullSurvivor]
  · norm_num [dullSurvivor, abs_lt]
  · norm_num

/-- The accumulation of lines 103-106 in doubles for five likelihoods 0.6: the partial sums are
the doubles 0.6, 1.2, 1.8, 2.4 and 3.0; the third is half-way between two doubles and rounds to
the even one below, and the last rounds up to 3. -/
theorem l_sumD_dull : l_sumD (List.replicate 5 { dullSurvivor with wgt := 0 }) = 3 := by
  apply l_sumD_five _ (5404319552844595 / 9007199254740992) (5404319552844595 / 4503599627370496)
    (2026619832316723 / 1125899906842624) (5404319552844595 / 2251799813685248) 3 dull_sum_one
  · apply fl_eval _ _ 0 5404319552844595
    · norm_num [dullSurvivor]
    · norm_num [dullSurvivor]
    · norm_num [dullSurvivor, abs_lt]
    · norm_num
  · apply fl_eval_tie_down _ _ 0 8106479329266892
    · norm_num [dullSurvivor]
    · norm_num [dullSurvivor]
    · decide
    · norm_num [dullSurvivor]
    · norm_num
  · apply fl_eval _ _ 1 5404319552844595
    · norm_num [dullSurvivor]
    · norm_num [dullSurvivor]
    · norm_num [dullSurvivor, abs_lt]
    · norm_num
  · apply fl_eval _ _ 1 6755399441055744
    · norm_num [dullSurvivor]
    · norm_num [dullSurvivor]
    · norm_num [dullSurvivor, abs_lt]
    · norm_num

/-- Lines 101-111 in doubles for five survivors of likelihood 0.6: the sum is 3.0 and the
quotient `0.6 / 3.0` rounds to the double 0.19999999999999998. -/
theorem reweightD_dull :
    reweightD (List.replicate 5 { dullSurvivor with wgt := 0 })
      = some (List.replicate 5 dullSurvivor) := by
  have hw : fl (({ dullSurvivor with wgt := 0 } : Particle).like / 3)
      = 7205759403792793 / 36028797018963968 := by
    apply fl_eval _ _ (-3) 7205759403792793
    · norm_num [dullSurvivor]
    · norm_num [dullSurvivor]
    · norm_num [dullSurvivor, abs_lt]
    · norm_num
  rw [reweightD, l_sumD_dull, reweightLoopD_eq 3 (by norm_num), List.map_replicate, hw]
  rfl

/-- Line 116 in doubles for the weight 0.19999999999999998 and 995 missing particles: the
product rounds to the double 198.99999999999997, which the conversion to `int` truncates
to 198. -/
theorem floor_product_dull :
    ⌊fl (dullSurvivor.wgt * ((num - 5 : Nat) : ℚ))⌋ = 198 := by
  have hm : ((num - 5 : Nat) : ℚ) = 995 := by norm_num [num]
  have hp : fl (dullSurvivor.wgt * 995) = 7001690045677567 / 35184372088832 := by
    apply fl_eval _ _ 7 7001690045677567
    · norm_num [dullSurvivor]
    · norm_num [dullSurvivor]
    · norm_num [dullSurvivor, abs_lt]
    · norm_num
  rw [hm, hp, Int.floor_eq_iff]
  norm_num

theorem dullSurvivor_wgt_bounds :
    ∀ p ∈ List.replicate 5 dullSurvivor, 0 ≤ p.wgt ∧ p.wgt ≤ 2 := by
  intro p hp
  rw [List.eq_of_mem_replicate hp]
  norm_num [dullSurvivor]

/-- C5, the original bound refuted: a pass on 600 particles at (100, 100) in a 640x480 frame of
hue 160 and saturation 200 leaves `k = 5` survivors of likelihood 0.6; their rounded sum is 3.0,
each gets the weight 0.19999999999999998 and line 116 makes 198 new particles from each, 990
in all, so that the population after resampling has `995 = num - k` particles, which is not
greater than `num - k`. -/
theorem passD_size_at_shortfall :
    survivorsD (dullFrame 640 480) (List.replicate 600 (still 100 100 1))
      = List.replicate 5 { dullSurvivor with wgt := 0 } ∧
    l_sumD (List.replicate 5 { dullSurvivor with wgt := 0 }) = 3 ∧
    reweightD (List.replicate 5 { dullSurvivor with wgt := 0 })
      = some (List.replicate 5 dullSurvivor) ∧
    num_newD dullSurvivor.wgt 5 = some 198 ∧
    ∃ R : List Particle,
      passD unitEnv (dullFrame 640 480) (List.replicate 600 (still 100 100 1)) 0
        = some (R, 0 + 990) ∧
      R.length = 995 ∧
      ¬ (num - (survivorsD (dullFrame 640 480) (List.replicate 600 (still 100 100 1))).length
          < R.length) := by
  have hS := survivorsD_dull 600
  have h5 : 600 / 100 - 1 = 5 := by norm_num
  rw [h5] at hS
  have hlen : (List.replicate 5 dullSurvivor).length = 5 := List.length_replicate _ _
  obtain ⟨Pnew, hr, hcount⟩ := resampleD_some_of_weights unitEnv (dullFrame 640 480)
    (List.replicate 5 dullSurvivor) 0 (by rw [hlen]; simp [num]) dullSurvivor_wgt_bounds
  rw [hlen, List.map_replicate, floor_product_dull, List.sum_replicate] at hcount
  have hP : Pnew.length = 990 := by
    have : (Pnew.length : Int) = 990 := by rw [hcount]; norm_num
    exact_mod_cast this
  rw [hP] at hr
  have hn := (num_newD_eq dullSurvivor.wgt 5 (by simp [num]) (by norm_num [dullSurvivor])
    (by norm_num [dullSurvivor])).1
  rw [floor_product_dull] at hn
  refine ⟨hS, l_sumD_dull, reweightD_dull, hn, List.replicate 5 dullSurvivor ++ Pnew, ?_, ?_, ?_⟩
  · simp only [passD, hS, reweightD_dull, hr]
  · rw [List.length_append, hlen, hP]
  · rw [hS, List.length_append, List.length_replicate, hlen, hP]
    simp [num]

theorem passD_size_within_target_witness :
    (1 ≤ (survivorsD (dullFrame 640 480) (List.replicate 200 (still 100 100 1))).length ∧
      (survivorsD (dullFrame 640 480) (List.replicate 200 (still 100 100 1))).length ≤ num ∧
      l_sumD (survivorsD (dullFrame 640 480) (List.replicate 200 (still 100 100 1))) ≠ 0) ∧
    ∃ (R : List Particle) (t1 : Nat),
      passD unitEnv (dullFrame 640 480) (List.replicate 200 (still 100 100 1)) 0 = some (R, t1) ∧
      num - (survivorsD (dullFrame 640 480) (List.replicate 200 (still 100 100 1))).length
        ≤ R.length ∧
      R.length ≤ num := by
  have hS := survivorsD_dull 200
  have h1 : 200 / 100 - 1 = 1 := by norm_num
  rw [h1] at hS
  have hyp : 1 ≤ (survivorsD (dullFrame 640 480) (List.replicate 200 (still 100 100 1))).length ∧
      (survivorsD (dullFrame 640 480) (List.replicate 200 (still 100 100 1))).length ≤ num ∧
      l_sumD (survivorsD (dullFrame 640 480) (List.replicate 200 (still 100 100 1))) ≠ 0 := by
    rw [hS]
    refine ⟨by simp, by simp [num], ?_⟩
    have e : List.replicate 1 ({ dullSurvivor with wgt := 0 } : Particle)
        = [{ dullSurvivor with wgt := 0 }] := rfl
    rw [e, l_sumD_one _ _ dull_sum_one]
    norm_num
  exact ⟨hyp, (passD_size_within_target unitEnv (dullFrame 640 480)
    (List.replicate 200 (still 100 100 1)) 0).2 hyp.1 hyp.2.1 hyp.2.2⟩

end ParticleFilter
